import Mathlib

/-!
# merkle-tree-solidity: the JavaScript Merkle tree library

A shallow embedding of `MerkleTree`, `getProof`, `getProofOrdered`, `checkProof`,
`checkProofOrdered` and `merkleRoot` and of the helpers they call.

Modelling decisions:

* A Node.js `Buffer` is a list of bytes.
* The digest `sha3` of `ethereumjs-util` is a parameter of every definition that hashes.
* `Input` is the range of JavaScript values a caller may put in the array handed to the
  constructor; `Value` is the range of values the tree code itself stores and passes around
  (a Buffer, the empty string, `undefined`, `null`).  Only a Buffer is truthy among them.
* The `hex` flag of `getProof` (an output encoding) is left out: proofs are arrays.
* `Array.prototype.sort(Buffer.compare)` is insertion sort under `Buffer.compare a b <= 0`.
* `while` loops run on fuel that the development proves sufficient.
-/

namespace MerkleTreeSolidity

/-! ## Values -/

/-- A Node.js Buffer, as its sequence of bytes. -/
abbrev Buffer := List (Fin 256)

/-- JavaScript values a caller may put in the array handed to the constructor. -/
inductive Input
  | undefined
  | null
  | str (s : String)
  | num (n : Int)
  | buf (b : Buffer)
  deriving DecidableEq

/-- Truthiness of an input value, as used by `elements.filter(a => a)`. -/
def Input.truthy : Input → Bool
  | .undefined => false
  | .null => false
  | .str s => s.length != 0
  | .num n => n != 0
  | .buf _ => true

/-- The `length` property of an input value, where it has one. -/
def Input.length : Input → Option Nat
  | .str s => some s.length
  | .buf b => some b.length
  | _ => none

/-- The test `Buffer.isBuffer(e)`. -/
def Input.isBuffer : Input → Bool
  | .buf _ => true
  | _ => false

/-- The bytes of an input value that is a Buffer. -/
def Input.toBuffer? : Input → Option Buffer
  | .buf b => some b
  | _ => none

/-- Values the tree code stores and passes around: a Buffer, the empty string (the root of
the empty tree), `undefined` (a missing array slot) and `null` (no sibling). -/
inductive Value
  | undefined
  | null
  | emptyString
  | buf (b : Buffer)
  deriving DecidableEq

/-- Truthiness of a value: only a Buffer is truthy. -/
def Value.truthy : Value → Bool
  | .buf _ => true
  | _ => false

/-- Errors a call can raise: `throw new Error(message)` of the library, or a `TypeError` of
the runtime (a method called on, or handed, something that is not a Buffer). -/
inductive JsError
  | error (message : String)
  | typeError
  deriving DecidableEq

/-- The method `a.equals(b)` of a Buffer: byte equality; a `TypeError` when the receiver has
no such method or the argument is not a Buffer. -/
def Value.equals : Value → Value → Except JsError Bool
  | .buf a, .buf b => .ok (a == b)
  | _, _ => .error .typeError

/-- Reading `array[i]` at a JavaScript integer index: `none` (undefined) out of range. -/
def arrayGet {α : Type} (array : List α) (i : Int) : Option α :=
  if 0 ≤ i then array.get? i.toNat else none

/-! ## Buffers -/

/-- The comparison `Buffer.compare(a, b)`: bytewise, a proper prefix first; -1, 0 or 1. -/
def Buffer.compare : Buffer → Buffer → Int
  | [], [] => 0
  | [], _ :: _ => -1
  | _ :: _, [] => 1
  | x :: xs, y :: ys =>
    if x < y then -1 else if y < x then 1 else Buffer.compare xs ys

/-- The order `Array.prototype.sort` derives from `Buffer.compare`. -/
def bufLE (a b : Buffer) : Prop := Buffer.compare a b ≤ 0

instance bufLE.decidable : DecidableRel bufLE := fun a b =>
  inferInstanceAs (Decidable (Buffer.compare a b ≤ 0))

/-- The call `array.sort(Buffer.compare)`. -/
def bufSort (array : List Buffer) : List Buffer :=
  array.insertionSort bufLE

/-- The function `bufJoin(...args)`: `Buffer.concat([...args])`. -/
def bufJoin (args : List Buffer) : Buffer :=
  args.foldr (fun a r => a ++ r) []

/-- The function `bufSortJoin(...args)`: `Buffer.concat([...args].sort(Buffer.compare))`. -/
def bufSortJoin (args : List Buffer) : Buffer :=
  (bufSort args).foldr (fun a r => a ++ r) []

/-- The loop of `getBufIndex`, from position `i` on. -/
def getBufIndexFrom (element : Buffer) : List Buffer → Nat → Int
  | [], _ => -1
  | a :: rest, i => if element == a then (i : Int) else getBufIndexFrom element rest (i + 1)

/-- The function `getBufIndex(element, array)`: the first position holding `element`, or -1. -/
def getBufIndex (element : Buffer) (array : List Buffer) : Int :=
  getBufIndexFrom element array 0

/-- The function `bufDedup(buffers)`: keep the entries that sit at their own first position. -/
def bufDedup (buffers : List Buffer) : List Buffer :=
  (buffers.enum.filter (fun p => getBufIndex p.2 buffers == (p.1 : Int))).map Prod.snd

/-! ## Layers -/

section Hashing

variable (sha3 : Buffer → Buffer)

/-- The function `combinedHash(first, second, preserveOrder)`. -/
def combinedHash (first second : Value) (preserveOrder : Bool) : Value :=
  match second, first with
  | .buf s, .buf f =>
    if preserveOrder then .buf (sha3 (bufJoin [f, s])) else .buf (sha3 (bufSortJoin [f, s]))
  | .buf s, _ => .buf s
  | _, _ => first

/-- The function `getNextLayer(elements, preserveOrder)`: the reduce over the array with its
index. -/
def getNextLayer (elements : List Value) (preserveOrder : Bool) : List Value :=
  elements.enum.foldl
    (fun layer p =>
      if p.1 % 2 == 0 then
        layer ++ [combinedHash sha3 p.2 (elements.getD (p.1 + 1) Value.undefined) preserveOrder]
      else layer)
    []

/-- The `while` loop of `getLayers`, on fuel; `layers[layers.length - 1]` is the last layer. -/
def getLayersLoop (preserveOrder : Bool) : Nat → List (List Value) → List (List Value)
  | 0, layers => layers
  | fuel + 1, layers =>
    if (layers.getD (layers.length - 1) []).length > 1 then
      getLayersLoop preserveOrder fuel
        (layers ++ [getNextLayer sha3 (layers.getD (layers.length - 1) []) preserveOrder])
    else layers

/-- The function `getLayers(elements, preserveOrder)`. -/
def getLayers (elements : List Value) (preserveOrder : Bool) : List (List Value) :=
  if elements.length == 0 then [[Value.emptyString]]
  else getLayersLoop sha3 preserveOrder elements.length [elements]

/-- The function `getPair(index, layer)`. -/
def getPair (index : Nat) (layer : List Value) : Value :=
  let pairIndex := if index % 2 != 0 then index - 1 else index + 1
  if pairIndex < layer.length then layer.getD pairIndex Value.undefined else Value.null

/-- The function `getProof(index, layers)`: the reduce over the layers, with the running
index it updates. -/
def getProof (index : Nat) (layers : List (List Value)) : List Value :=
  (layers.foldl
    (fun (st : List Value × Nat) layer =>
      let pair := getPair st.2 layer
      (if pair.truthy then st.1 ++ [pair] else st.1, st.2 / 2))
    ([], index)).1

/-! ## The tree -/

/-- The object `MerkleTree`. -/
structure MerkleTree where
  /-- The processed leaves. -/
  elements : List Buffer
  /-- The mode flag. -/
  preserveOrder : Bool
  /-- The layers, leaves first, root last. -/
  layers : List (List Value)
  deriving DecidableEq

/-- The constructor `new MerkleTree(elements, preserveOrder)`. -/
def MerkleTree.new (elements : List Input) (preserveOrder : Bool) : Except JsError MerkleTree :=
  let elements := elements.filter Input.truthy
  if elements.any (fun e => !(e.length == some 32 && e.isBuffer)) then
    .error (.error "elements must be 32 byte buffers")
  else
    let buffers := elements.filterMap Input.toBuffer?
    let buffers := if !preserveOrder then bufSort (bufDedup buffers) else buffers
    .ok (MerkleTree.mk buffers preserveOrder (getLayers sha3 (buffers.map Value.buf) preserveOrder))

/-- The method `getRoot()`. -/
def MerkleTree.getRoot (t : MerkleTree) : Value :=
  (t.layers.getD (t.layers.length - 1) []).getD 0 Value.undefined

/-- The method `getProof(element)`. -/
def MerkleTree.getProof (t : MerkleTree) (element : Buffer) : Except JsError (List Value) :=
  let index := getBufIndex element t.elements
  if index == -1 then .error (.error "element not found in merkle tree")
  else .ok (MerkleTreeSolidity.getProof index.toNat t.layers)

/-- The method `getProofOrdered(element, index)`, with its 1-based index. -/
def MerkleTree.getProofOrdered (t : MerkleTree) (element : Buffer) (index : Int) :
    Except JsError (List Value) :=
  match arrayGet t.elements (index - 1) with
  | none => .error .typeError
  | some leaf =>
    if !(element == leaf) then .error (.error "element does not match leaf at index in tree")
    else .ok (MerkleTreeSolidity.getProof (index - 1).toNat t.layers)

/-- The function `merkleRoot(elements, preserveOrder)`. -/
def merkleRoot (elements : List Input) (preserveOrder : Bool) : Except JsError Value :=
  (MerkleTree.new sha3 elements preserveOrder).map MerkleTree.getRoot

/-! ## Verification -/

/-- The inner `while` loop of `checkProofOrdered`, on fuel: while `remaining` is not zero and
the index is odd and larger than `Math.pow(2, remaining)`, replace the index by
`Math.round(index / 2)`, which is `(index + 1) / 2` on a natural number. -/
def adjustIndex (remaining : Nat) : Nat → Nat → Nat
  | 0, index => index
  | fuel + 1, index =>
    if remaining != 0 && index % 2 == 1 && index > 2 ^ remaining then
      adjustIndex remaining fuel ((index + 1) / 2)
    else index

/-- The `for` loop of `checkProofOrdered` over the proof entries from `proof[i]` on;
`remaining = proof.length - i` is their number, and the fuel of the inner loop is the index
itself. -/
def checkProofOrderedLoop : List Value → Value → Nat → Value
  | [], tempHash, _ => tempHash
  | p :: rest, tempHash, index =>
    let remaining := rest.length + 1
    let index := adjustIndex remaining index index
    let tempHash :=
      if index % 2 == 0 then combinedHash sha3 p tempHash true
      else combinedHash sha3 tempHash p true
    checkProofOrderedLoop rest tempHash ((index + 1) / 2)

/-- The function `checkProofOrdered(proof, root, element, index)`. -/
def checkProofOrdered (proof : List Value) (root element : Value) (index : Nat) :
    Except JsError Bool :=
  (checkProofOrderedLoop sha3 proof element index).equals root

/-- The function `checkProof(proof, root, element)`. -/
def checkProof (proof : List Value) (root element : Value) : Except JsError Bool :=
  root.equals (proof.foldl (fun hash pair => combinedHash sha3 hash pair false) element)

/-! ## Auxiliary definitions for the proofs -/

/-- Pairing up a layer two entries at a time: what the reduce of `getNextLayer` computes. -/
def pairUp (preserveOrder : Bool) : List Value → List Value
  | [] => []
  | [a] => [combinedHash sha3 a Value.undefined preserveOrder]
  | a :: b :: rest => combinedHash sha3 a b preserveOrder :: pairUp preserveOrder rest

/-- The layers the loop of `getLayers` appends after (and including) the layer `l`. -/
def layersFrom (preserveOrder : Bool) : Nat → List Value → List (List Value)
  | 0, l => [l]
  | fuel + 1, l =>
    if l.length > 1 then l :: layersFrom preserveOrder fuel (getNextLayer sha3 l preserveOrder)
    else [l]

end Hashing

/-! ## Specification-side notions and sample data -/

/-- An element in the sense of the specification: a Buffer of exactly 32 bytes. -/
def Input.isElement : Input → Bool
  | .buf b => b.length == 32
  | _ => false

/-- The Buffers among the truthy entries of an input array. -/
def inputBuffers (elements : List Input) : List Buffer :=
  (elements.filter Input.truthy).filterMap Input.toBuffer?

/-- The leaves the constructor stores for an input array it accepts. -/
def processedLeaves (elements : List Input) (preserveOrder : Bool) : List Buffer :=
  if !preserveOrder then bufSort (bufDedup (inputBuffers elements)) else inputBuffers elements

/-- The input without the values of `seen` and without every later occurrence of a value
already met: the deduplication as the specification words it. -/
def dropSeen (seen : List Input) : List Input → List Input
  | [] => []
  | x :: rest => if x ∈ seen then dropSeen seen rest else x :: dropSeen (x :: seen) rest

/-- The input with every later occurrence of an already-seen value removed. -/
def removeLaterOccurrences (xs : List Input) : List Input := dropSeen [] xs

/-- The 32-byte buffer that repeats the byte `c`, as `Buffer(makeString(char, 32))` in the
tests. -/
def repeated (c : Fin 256) : Buffer := List.replicate 32 c

/-- The 32-byte buffer with last byte `k` and zeros before it. -/
def leaf (k : Fin 256) : Buffer := List.replicate 31 0 ++ [k]

/-- A stand-in digest without collisions: it returns its input. -/
def plainDigest : Buffer → Buffer := fun b => b

/-- The twelve-leaf input. -/
def twelveLeaves : List Input :=
  [Input.buf (leaf 0), Input.buf (leaf 1), Input.buf (leaf 2), Input.buf (leaf 3),
   Input.buf (leaf 4), Input.buf (leaf 5), Input.buf (leaf 6), Input.buf (leaf 7),
   Input.buf (leaf 8), Input.buf (leaf 9), Input.buf (leaf 10), Input.buf (leaf 11)]

/-- Whether the node at position `index` of `layer` is the unpaired last node of an odd-length
layer, which the next layer takes over without a sibling. -/
def promotedAt (index : Nat) (layer : List Value) : Bool :=
  layer.length % 2 == 1 && index + 1 == layer.length

/-- The number of the given layers at which the node on the path of the leaf at `index` is
promoted; the path halves the index from one layer to the next. -/
def promotions : Nat → List (List Value) → Nat
  | _, [] => 0
  | index, layer :: rest =>
    (if promotedAt index layer then 1 else 0) + promotions (index / 2) rest

/-- The sides the tree gives the entries of the proof of the node at position `index` of a
layer of length `length`, layer by layer on fuel as `getLayers` runs: `true` when the proof
entry is the left sibling (the node sits at an odd position), `false` when it is the right
sibling, and no entry where the node is promoted. -/
def treeSides : Nat → Nat → Nat → List Bool
  | 0, _, _ => []
  | fuel + 1, length, index =>
    if length > 1 then
      (if index % 2 = 1 then [true] else if index + 1 < length then [false] else []) ++
        treeSides fuel ((length + 1) / 2) (index / 2)
    else []

/-- The sides `checkProofOrdered` gives the entries of a proof of `remaining` entries from the
index alone: `true` when the adjusted index is even, and the entry is hashed on the left. -/
def checkSides : Nat → Nat → List Bool
  | 0, _ => []
  | remaining + 1, index =>
    (adjustIndex (remaining + 1) index index % 2 == 0) ::
      checkSides remaining ((adjustIndex (remaining + 1) index index + 1) / 2)

/-- Folding a proof into a running hash with given sides: an entry on the left side is the
first argument of `combinedHash`. -/
def foldSides (sha3 : Buffer → Buffer) : List Value → List Bool → Value → Value
  | p :: ps, s :: ss, h =>
    foldSides sha3 ps ss
      (if s then combinedHash sha3 p h true else combinedHash sha3 h p true)
  | _, _, h => h

/-- The pairs (first, second) that `checkProof` hands to `combinedHash`, step by step. -/
def checkProofPairs (sha3 : Buffer → Buffer) : List Value → Value → List (Value × Value)
  | [], _ => []
  | p :: rest, hash => (hash, p) :: checkProofPairs sha3 rest (combinedHash sha3 hash p false)

/-- The pairs (first, second) that `checkProofOrdered` hands to `combinedHash`, step by
step. -/
def checkProofOrderedPairs (sha3 : Buffer → Buffer) :
    List Value → Value → Nat → List (Value × Value)
  | [], _, _ => []
  | p :: rest, tempHash, index =>
    (if adjustIndex (rest.length + 1) index index % 2 == 0 then (p, tempHash)
      else (tempHash, p)) ::
      checkProofOrderedPairs sha3 rest
        (if adjustIndex (rest.length + 1) index index % 2 == 0 then
          combinedHash sha3 p tempHash true
        else combinedHash sha3 tempHash p true)
        ((adjustIndex (rest.length + 1) index index + 1) / 2)

/-- The unordered `combinedHash` has no collision on the given pairs: two of them with the
same result are the same pair, up to the order of the two values. -/
def UnorderedCollisionFree (sha3 : Buffer → Buffer) (pairs : List (Value × Value)) : Prop :=
  ∀ q ∈ pairs, ∀ r ∈ pairs,
    combinedHash sha3 q.1 q.2 false = combinedHash sha3 r.1 r.2 false → q = r ∨ q = r.swap

/-- The ordered `combinedHash` has no collision on the given pairs: two of them with the same
result are the same pair. -/
def OrderedCollisionFree (sha3 : Buffer → Buffer) (pairs : List (Value × Value)) : Prop :=
  ∀ q ∈ pairs, ∀ r ∈ pairs,
    combinedHash sha3 q.1 q.2 true = combinedHash sha3 r.1 r.2 true → q = r

/-- The ordered tree of the three leaves of the tests under the identity digest. -/
def threeLeafTree : MerkleTree :=
  MerkleTree.mk [repeated 97, repeated 98, repeated 99] true
    [[Value.buf (repeated 97), Value.buf (repeated 98), Value.buf (repeated 99)],
      [Value.buf (repeated 97 ++ repeated 98), Value.buf (repeated 99)],
      [Value.buf (repeated 97 ++ repeated 98 ++ repeated 99)]]

/-- A proof of two entries. -/
def sampleProof : List Value := [Value.buf (repeated 98), Value.buf (repeated 99)]

/-- What both verifications compute from `sampleProof` and the element `repeated 97` (with the
index 1) under the identity digest. -/
def sampleRoot : Value := Value.buf (repeated 97 ++ repeated 98 ++ repeated 99)

/-- The proof extraction as the specification words it, over the layers below the root:
at each layer the entry at position p - 1 if p is odd, else p + 1, is taken when that
position is within the layer, and the position is halved for the next layer. -/
def extractProof : Nat → List (List Value) → List Value
  | _, [] => []
  | position, layer :: rest =>
    (if (if position % 2 = 1 then position - 1 else position + 1) < layer.length then
      [layer.getD (if position % 2 = 1 then position - 1 else position + 1) Value.undefined]
    else []) ++ extractProof (position / 2) rest

/-- The specified extraction on a tree: the layers `layers[0] .. layers[last - 1]` only. -/
def specifiedProof (index : Nat) (layers : List (List Value)) : List Value :=
  extractProof index layers.dropLast

/-- The passes of the outer loop of `checkProofOrdered` on a proof of `remaining` entries,
started at `index`: for each pass the number of entries left, the index before the inner
loop and the index after it. -/
def indexTrace : Nat → Nat → List (Nat × Nat × Nat)
  | 0, _ => []
  | remaining + 1, index =>
    (remaining + 1, index, adjustIndex (remaining + 1) index index) ::
      indexTrace remaining ((adjustIndex (remaining + 1) index index + 1) / 2)

/-- The pairs (first, second) of a layer that `getNextLayer` hands to `combinedHash` with both
values present: the entries at positions 2k and 2k + 1. -/
def layerPairs : List Value → List (Value × Value)
  | a :: b :: rest => (a, b) :: layerPairs rest
  | _ => []

/-- The pairs hashed while the loop of `getLayers` builds the layers above the layer `l`,
on the fuel of that loop. -/
def treePairs (sha3 : Buffer → Buffer) (preserveOrder : Bool) :
    Nat → List Value → List (Value × Value)
  | 0, _ => []
  | fuel + 1, l =>
    if l.length > 1 then
      layerPairs l ++ treePairs sha3 preserveOrder fuel (getNextLayer sha3 l preserveOrder)
    else []

/-- The hash above the first eight of the twelve leaves, the last entry of the proof of the
eleventh. -/
def eightLeafHash (sha3 : Buffer → Buffer) : Buffer :=
  sha3 (sha3 (sha3 (leaf 0 ++ leaf 1) ++ sha3 (leaf 2 ++ leaf 3)) ++
    sha3 (sha3 (leaf 4 ++ leaf 5) ++ sha3 (leaf 6 ++ leaf 7)))

/-- The empty string: the placeholder that, by the comments of the constructor and by the
specification, is removed before the buffer check. -/
def Input.isEmptyString : Input → Bool
  | .str s => s.length == 0
  | _ => false

/-- The failure condition as the specification words it: after the empty strings are removed,
some remaining entry is not a Buffer of exactly 32 bytes. -/
def specifiedFailure (elements : List Input) : Bool :=
  (elements.filter (fun e => !e.isEmptyString)).any (fun e => !e.isElement)

/-! ## The order of `Buffer.compare` -/

theorem Buffer.compare_eq_zero_iff (a b : Buffer) : Buffer.compare a b = 0 ↔ a = b := by
  induction a generalizing b with
  | nil => cases b <;> simp [Buffer.compare]
  | cons x xs ih =>
    cases b with
    | nil => simp [Buffer.compare]
    | cons y ys =>
      simp only [Buffer.compare, List.cons.injEq]
      rcases lt_trichotomy x y with h | h | h
      · simp [h, ne_of_lt h]
      · subst h
        simp [ih]
      · simp [h, lt_asymm h, ne_of_gt h]

theorem Buffer.compare_swap (a b : Buffer) : Buffer.compare b a = -Buffer.compare a b := by
  induction a generalizing b with
  | nil => cases b <;> simp [Buffer.compare]
  | cons x xs ih =>
    cases b with
    | nil => simp [Buffer.compare]
    | cons y ys =>
      simp only [Buffer.compare]
      rcases lt_trichotomy x y with h | h | h
      · simp [h, lt_asymm h]
      · subst h
        simp [ih]
      · simp [h, lt_asymm h]

theorem Buffer.compare_neg_iff (a b : Buffer) :
    Buffer.compare a b < 0 ↔ Buffer.compare a b = -1 := by
  induction a generalizing b with
  | nil => cases b <;> simp [Buffer.compare]
  | cons x xs ih =>
    cases b with
    | nil => simp [Buffer.compare]
    | cons y ys =>
      simp only [Buffer.compare]
      split_ifs <;> simp [ih]

theorem Buffer.compare_lt_trans (a b c : Buffer) (hab : Buffer.compare a b = -1)
    (hbc : Buffer.compare b c = -1) : Buffer.compare a c = -1 := by
  induction a generalizing b c with
  | nil =>
    cases c with
    | nil => cases b <;> simp [Buffer.compare] at hab hbc
    | cons z zs => simp [Buffer.compare]
  | cons x xs ih =>
    cases b with
    | nil => simp [Buffer.compare] at hab
    | cons y ys =>
      cases c with
      | nil => simp [Buffer.compare] at hbc
      | cons z zs =>
        simp only [Buffer.compare] at hab hbc ⊢
        rcases lt_trichotomy x y with hxy | hxy | hxy
        · rcases lt_trichotomy y z with hyz | hyz | hyz
          · simp [lt_trans hxy hyz]
          · subst hyz
            simp [hxy]
          · simp [hyz, lt_asymm hyz] at hbc
        · subst hxy
          rcases lt_trichotomy x z with hyz | hyz | hyz
          · simp [hyz]
          · subst hyz
            simp only [lt_self_iff_false, if_false] at hab hbc ⊢
            exact ih ys zs hab hbc
          · simp [hyz, lt_asymm hyz] at hbc
        · simp [hxy, lt_asymm hxy] at hab

theorem bufLE_iff (a b : Buffer) : bufLE a b ↔ Buffer.compare a b = -1 ∨ a = b := by
  unfold bufLE
  rw [← Buffer.compare_eq_zero_iff, ← Buffer.compare_neg_iff]
  omega

theorem bufLE_total (a b : Buffer) : bufLE a b ∨ bufLE b a := by
  unfold bufLE
  rw [Buffer.compare_swap a b]
  omega

theorem bufLE_antisymm (a b : Buffer) (hab : bufLE a b) (hba : bufLE b a) : a = b := by
  unfold bufLE at hab hba
  rw [Buffer.compare_swap a b] at hba
  exact (Buffer.compare_eq_zero_iff a b).1 (by omega)

theorem bufLE_trans (a b c : Buffer) (hab : bufLE a b) (hbc : bufLE b c) : bufLE a c := by
  rw [bufLE_iff] at hab hbc ⊢
  rcases hab with hab | rfl
  · rcases hbc with hbc | rfl
    · exact Or.inl (Buffer.compare_lt_trans a b c hab hbc)
    · exact Or.inl hab
  · exact hbc

instance bufLE.isTotal : IsTotal Buffer bufLE := ⟨bufLE_total⟩

instance bufLE.isTrans : IsTrans Buffer bufLE := ⟨bufLE_trans⟩

instance bufLE.isAntisymm : IsAntisymm Buffer bufLE := ⟨bufLE_antisymm⟩

/-! ## Locating and deduplicating buffers -/

theorem getBufIndexFrom_of_not_mem (element : Buffer) (array : List Buffer) (i : Nat)
    (h : element ∉ array) : getBufIndexFrom element array i = -1 := by
  induction array generalizing i with
  | nil => rfl
  | cons a rest ih =>
    have h1 : element ≠ a := fun e => h (e ▸ List.mem_cons_self _ _)
    have h2 : element ∉ rest := fun e => h (List.mem_cons_of_mem _ e)
    simp [getBufIndexFrom, h1, ih _ h2]

theorem getBufIndexFrom_of_mem (element : Buffer) (array : List Buffer) (i : Nat)
    (h : element ∈ array) :
    ∃ k, k < array.length ∧ getBufIndexFrom element array i = ((i + k : Nat) : Int) ∧
      array.get? k = some element ∧ ∀ j, j < k → array.get? j ≠ some element := by
  induction array generalizing i with
  | nil => simp at h
  | cons a rest ih =>
    by_cases h1 : element = a
    · subst h1
      exact ⟨0, by simp, by simp [getBufIndexFrom], by simp, by simp⟩
    · have h2 : element ∈ rest := by
        rcases List.mem_cons.1 h with e | e
        · exact absurd e h1
        · exact e
      obtain ⟨k, hk, hidx, hget, hmin⟩ := ih (i + 1) h2
      refine ⟨k + 1, by simpa using hk, ?_, by simpa using hget, ?_⟩
      · simp only [getBufIndexFrom, beq_iff_eq, h1, if_false, hidx]
        push_cast
        ring
      · intro j hj
        cases j with
        | zero =>
          simp only [List.get?_cons_zero, ne_eq, Option.some.injEq]
          exact fun e => h1 e.symm
        | succ j =>
          simp only [List.get?_cons_succ]
          exact hmin j (by omega)

theorem getBufIndex_eq_neg_one_iff (element : Buffer) (array : List Buffer) :
    getBufIndex element array = -1 ↔ element ∉ array := by
  constructor
  · intro h hmem
    obtain ⟨k, _, hidx, _, _⟩ := getBufIndexFrom_of_mem element array 0 hmem
    unfold getBufIndex at h
    rw [hidx] at h
    omega
  · exact getBufIndexFrom_of_not_mem element array 0

theorem getBufIndex_of_mem (element : Buffer) (array : List Buffer) (h : element ∈ array) :
    ∃ k, k < array.length ∧ getBufIndex element array = (k : Int) ∧
      array.get? k = some element ∧ ∀ j, j < k → array.get? j ≠ some element := by
  obtain ⟨k, hk, hidx, hget, hmin⟩ := getBufIndexFrom_of_mem element array 0 h
  exact ⟨k, hk, by simpa [getBufIndex] using hidx, hget, hmin⟩

theorem mem_bufDedup (b : Buffer) (buffers : List Buffer) :
    b ∈ bufDedup buffers ↔ b ∈ buffers := by
  unfold bufDedup
  constructor
  · intro h
    obtain ⟨p, hp, rfl⟩ := List.mem_map.1 h
    have hp1 := (List.mem_filter.1 hp).1
    rw [List.mem_enum_iff_get?] at hp1
    exact List.get?_mem hp1
  · intro h
    obtain ⟨k, _, hidx, hget, _⟩ := getBufIndex_of_mem b buffers h
    refine List.mem_map.2 ⟨(k, b), List.mem_filter.2 ⟨?_, ?_⟩, rfl⟩
    · exact List.mk_mem_enum_iff_get?.2 hget
    · simp [hidx]

theorem nodup_bufDedup (buffers : List Buffer) : (bufDedup buffers).Nodup := by
  unfold bufDedup
  have hen : buffers.enum.Nodup := List.Nodup.of_map Prod.fst (List.nodup_enum_map_fst buffers)
  refine List.Nodup.map_on ?_ (hen.filter _)
  intro x hx y hy hxy
  have h1 := (List.mem_filter.1 hx).2
  have h2 := (List.mem_filter.1 hy).2
  simp only [beq_iff_eq] at h1 h2
  rw [hxy, h2] at h1
  exact Prod.ext (by exact_mod_cast h1.symm) hxy

theorem bufSort_bufDedup_congr (xs ys : List Buffer) (h : ∀ b, b ∈ xs ↔ b ∈ ys) :
    bufSort (bufDedup xs) = bufSort (bufDedup ys) := by
  have hperm : (bufDedup xs).Perm (bufDedup ys) :=
    (List.perm_ext_iff_of_nodup (nodup_bufDedup xs) (nodup_bufDedup ys)).2
      (fun b => by rw [mem_bufDedup, mem_bufDedup, h])
  unfold bufSort
  exact List.eq_of_perm_of_sorted
    (((List.perm_insertionSort bufLE _).trans hperm).trans (List.perm_insertionSort bufLE _).symm)
    (List.sorted_insertionSort bufLE _) (List.sorted_insertionSort bufLE _)

theorem mem_bufSort (b : Buffer) (array : List Buffer) : b ∈ bufSort array ↔ b ∈ array :=
  (List.perm_insertionSort bufLE array).mem_iff

theorem bufSort_bufDedup_strictly_ascending (xs : List Buffer) :
    (bufSort (bufDedup xs)).Pairwise (fun a b => Buffer.compare a b < 0) := by
  have hs : (bufSort (bufDedup xs)).Pairwise bufLE := List.sorted_insertionSort bufLE _
  have hn : (bufSort (bufDedup xs)).Nodup :=
    (List.perm_insertionSort bufLE _).nodup_iff.2 (nodup_bufDedup xs)
  refine (hs.and hn).imp ?_
  intro a b hab
  rcases (bufLE_iff a b).1 hab.1 with h | h
  · omega
  · exact absurd h hab.2

/-! ## The shape of a derived layer -/

section LayerLemmas

variable (sha3 : Buffer → Buffer)

theorem getNextLayer_foldl (preserveOrder : Bool) (n : Nat) :
    ∀ (suf pre acc : List Value), suf.length ≤ n → pre.length % 2 = 0 →
      (List.enumFrom pre.length suf).foldl
        (fun layer p =>
          if p.1 % 2 == 0 then
            layer ++ [combinedHash sha3 p.2 ((pre ++ suf).getD (p.1 + 1) Value.undefined)
              preserveOrder]
          else layer)
        acc = acc ++ pairUp sha3 preserveOrder suf := by
  induction n with
  | zero =>
    intro suf pre acc hlen _
    have : suf = [] := List.length_eq_zero.1 (by omega)
    subst this
    simp [pairUp]
  | succ n ih =>
    intro suf pre acc hlen hpre
    match suf, hlen with
    | [], _ => simp [pairUp]
    | [a], _ =>
      have hget : (pre ++ [a]).getD (pre.length + 1) Value.undefined = Value.undefined :=
        List.getD_eq_default _ _ (by simp)
      have h0 : (pre.length % 2 == 0) = true := by simp [hpre]
      simp only [List.enumFrom_cons, List.enumFrom_nil, List.foldl_cons, List.foldl_nil, h0,
        if_true, hget, pairUp]
    | a :: b :: rest, hlen =>
      have h0 : (pre.length % 2 == 0) = true := by simp [hpre]
      have h1 : ((pre.length + 1) % 2 == 0) = false := by
        simp only [beq_eq_false_iff_ne, ne_eq]
        omega
      have hget : (pre ++ a :: b :: rest).getD (pre.length + 1) Value.undefined = b := by
        rw [List.getD_append_right _ _ _ _ (by omega)]
        simp
      have hih := ih rest (pre ++ [a, b])
        (acc ++ [combinedHash sha3 a b preserveOrder])
        (by simp at hlen; omega) (by simp; omega)
      simp only [List.length_append, List.length_cons, List.length_nil, List.append_assoc,
        List.cons_append, List.nil_append] at hih
      simp only [List.enumFrom_cons, List.foldl_cons, h0, h1, hget, if_true, pairUp]
      rw [show pre.length + 1 + 1 = pre.length + (0 + 1 + 1) by omega]
      exact hih.trans (by simp)

theorem getNextLayer_eq_pairUp (elements : List Value) (preserveOrder : Bool) :
    getNextLayer sha3 elements preserveOrder = pairUp sha3 preserveOrder elements := by
  have h := getNextLayer_foldl sha3 preserveOrder elements.length elements [] []
    (le_refl _) (by simp)
  simpa [getNextLayer, List.enum] using h

theorem pairUp_length (preserveOrder : Bool) (n : Nat) :
    ∀ l : List Value, l.length ≤ n → (pairUp sha3 preserveOrder l).length = (l.length + 1) / 2 := by
  induction n with
  | zero =>
    intro l hl
    have : l = [] := List.length_eq_zero.1 (by omega)
    subst this
    rfl
  | succ n ih =>
    intro l hl
    match l, hl with
    | [], _ => rfl
    | [a], _ => simp [pairUp]
    | a :: b :: rest, hl =>
      simp only [pairUp, List.length_cons]
      rw [ih rest (by simp at hl; omega)]
      omega

theorem getNextLayer_length (elements : List Value) (preserveOrder : Bool) :
    (getNextLayer sha3 elements preserveOrder).length = (elements.length + 1) / 2 := by
  rw [getNextLayer_eq_pairUp]
  exact pairUp_length sha3 preserveOrder _ elements (le_refl _)

theorem pairUp_getD (preserveOrder : Bool) (n : Nat) :
    ∀ (l : List Value) (i : Nat), l.length ≤ n → 2 * i < l.length →
      (pairUp sha3 preserveOrder l).getD i Value.undefined =
        combinedHash sha3 (l.getD (2 * i) Value.undefined) (l.getD (2 * i + 1) Value.undefined)
          preserveOrder := by
  induction n with
  | zero =>
    intro l i hl hi
    omega
  | succ n ih =>
    intro l i hl hi
    match l, hl, hi with
    | [], _, hi => simp at hi
    | [a], _, hi =>
      have : i = 0 := by simp at hi; omega
      subst this
      simp [pairUp]
    | a :: b :: rest, hl, hi =>
      cases i with
      | zero => simp [pairUp]
      | succ i =>
        have h := ih rest i (by simp at hl; omega) (by simp at hi; omega)
        simp only [pairUp, List.getD_cons_succ, h]
        rw [show 2 * (i + 1) = 2 * i + 1 + 1 by ring]
        simp only [List.getD_cons_succ]

theorem getNextLayer_getD (elements : List Value) (preserveOrder : Bool) (i : Nat)
    (hi : 2 * i < elements.length) :
    (getNextLayer sha3 elements preserveOrder).getD i Value.undefined =
      combinedHash sha3 (elements.getD (2 * i) Value.undefined)
        (elements.getD (2 * i + 1) Value.undefined) preserveOrder := by
  rw [getNextLayer_eq_pairUp]
  exact pairUp_getD sha3 preserveOrder _ elements i (le_refl _) hi

theorem getD_length_sub_one_append {α : Type} (acc : List α) (l d : α) :
    (acc ++ [l]).getD ((acc ++ [l]).length - 1) d = l := by
  rw [List.getD_append_right _ _ _ _ (by simp)]
  simp

theorem getLayersLoop_eq (preserveOrder : Bool) (fuel : Nat) :
    ∀ (acc : List (List Value)) (l : List Value),
      getLayersLoop sha3 preserveOrder fuel (acc ++ [l]) =
        acc ++ layersFrom sha3 preserveOrder fuel l := by
  induction fuel with
  | zero => intro acc l; rfl
  | succ fuel ih =>
    intro acc l
    simp only [getLayersLoop, layersFrom, getD_length_sub_one_append]
    by_cases h : l.length > 1
    · simp only [h, if_true]
      have := ih (acc ++ [l]) (getNextLayer sha3 l preserveOrder)
      simpa using this
    · simp only [h, if_false]

theorem getLayers_eq (elements : List Value) (preserveOrder : Bool) (h : elements ≠ []) :
    getLayers sha3 elements preserveOrder =
      layersFrom sha3 preserveOrder elements.length elements := by
  have hlen : (elements.length == 0) = false := by
    simp only [beq_eq_false_iff_ne, ne_eq, List.length_eq_zero]
    exact h
  have := getLayersLoop_eq sha3 preserveOrder elements.length [] elements
  simp only [List.nil_append] at this
  simp only [getLayers, hlen, this]
  rfl

theorem getProof_foldl (layers : List (List Value)) :
    ∀ (acc : List Value) (index : Nat),
      (layers.foldl
        (fun (st : List Value × Nat) layer =>
          (if (getPair st.2 layer).truthy then st.1 ++ [getPair st.2 layer] else st.1, st.2 / 2))
        (acc, index)).1 = acc ++ getProof index layers := by
  induction layers with
  | nil => intro acc index; simp [getProof]
  | cons l rest ih =>
    intro acc index
    simp only [getProof, List.foldl_cons]
    rw [ih, ih (if (getPair index l).truthy then [] ++ [getPair index l] else []) (index / 2)]
    split_ifs <;> simp

theorem getProof_cons (index : Nat) (l : List Value) (rest : List (List Value)) :
    getProof index (l :: rest) =
      (if (getPair index l).truthy then [getPair index l] else []) ++
        getProof (index / 2) rest := by
  have h := getProof_foldl rest
    (if (getPair index l).truthy then [] ++ [getPair index l] else []) (index / 2)
  simp only [getProof, List.foldl_cons]
  rw [h]
  rfl

theorem getProof_nil (index : Nat) : getProof index [] = [] := rfl

/-! ## Truthy layers and the unordered fold -/

theorem Value.truthy_iff (v : Value) : v.truthy = true ↔ ∃ b, v = Value.buf b := by
  cases v <;> simp [Value.truthy]

theorem combinedHash_undefined (first : Value) (preserveOrder : Bool) :
    combinedHash sha3 first Value.undefined preserveOrder = first := by
  cases first <;> rfl

theorem combinedHash_truthy (first second : Value) (preserveOrder : Bool)
    (h : first.truthy = true) : (combinedHash sha3 first second preserveOrder).truthy = true := by
  obtain ⟨f, rfl⟩ := (Value.truthy_iff first).1 h
  cases second <;> cases preserveOrder <;> simp [combinedHash, Value.truthy]

theorem bufSortJoin_comm (a b : Buffer) : bufSortJoin [a, b] = bufSortJoin [b, a] := by
  simp only [bufSortJoin, bufSort, List.insertionSort, List.orderedInsert]
  by_cases hab : bufLE a b
  · by_cases hba : bufLE b a
    · rw [bufLE_antisymm a b hab hba]
    · simp [hab, hba]
  · have hba : bufLE b a := (bufLE_total a b).resolve_left hab
    simp [hab, hba]

theorem combinedHash_comm (a b : Value) (ha : a.truthy = true) (hb : b.truthy = true) :
    combinedHash sha3 a b false = combinedHash sha3 b a false := by
  obtain ⟨x, rfl⟩ := (Value.truthy_iff a).1 ha
  obtain ⟨y, rfl⟩ := (Value.truthy_iff b).1 hb
  simp [combinedHash, bufSortJoin_comm x y]

theorem getD_truthy (l : List Value) (hl : ∀ v ∈ l, v.truthy = true) (j : Nat)
    (hj : j < l.length) : (l.getD j Value.undefined).truthy = true := by
  rw [List.getD_eq_getElem _ _ hj]
  exact hl _ (List.getElem_mem hj)

theorem pairUp_truthy (preserveOrder : Bool) (n : Nat) :
    ∀ l : List Value, l.length ≤ n → (∀ v ∈ l, v.truthy = true) →
      ∀ v ∈ pairUp sha3 preserveOrder l, v.truthy = true := by
  induction n with
  | zero =>
    intro l hl _ v hv
    have : l = [] := List.length_eq_zero.1 (by omega)
    subst this
    simp [pairUp] at hv
  | succ n ih =>
    intro l hl ht v hv
    match l, hl, ht, hv with
    | [], _, _, hv => simp [pairUp] at hv
    | [a], _, ht, hv =>
      have hv2 : v = combinedHash sha3 a Value.undefined preserveOrder := by
        simpa [pairUp] using hv
      rw [hv2]
      exact combinedHash_truthy sha3 a _ _ (ht a (by simp))
    | a :: b :: rest, hl, ht, hv =>
      simp only [pairUp, List.mem_cons] at hv
      rcases hv with hv | hv
      · subst hv
        exact combinedHash_truthy sha3 a b _ (ht a (by simp))
      · exact ih rest (by simp at hl; omega) (fun w hw => ht w (by simp [hw])) v hv

theorem getNextLayer_truthy (l : List Value) (preserveOrder : Bool)
    (hl : ∀ v ∈ l, v.truthy = true) :
    ∀ v ∈ getNextLayer sha3 l preserveOrder, v.truthy = true := by
  rw [getNextLayer_eq_pairUp]
  exact pairUp_truthy sha3 preserveOrder _ l (le_refl _) hl

theorem getPair_even (i : Nat) (l : List Value) (hi : i % 2 = 0) :
    getPair i l = if i + 1 < l.length then l.getD (i + 1) Value.undefined else Value.null := by
  simp [getPair, hi]

theorem getPair_odd (i : Nat) (l : List Value) (hi : i % 2 = 1) (hlt : i < l.length) :
    getPair i l = l.getD (i - 1) Value.undefined := by
  have : i - 1 < l.length := by omega
  simp [getPair, hi, this]

/-- One layer of the unordered fold: combining the node at `i` with what `getProof` takes
from its layer gives the node at `i / 2` of the next layer. -/
theorem unordered_step (l : List Value) (hl : ∀ v ∈ l, v.truthy = true) (i : Nat)
    (hi : i < l.length) :
    (if (getPair i l).truthy then [getPair i l] else []).foldl
        (fun hash pair => combinedHash sha3 hash pair false) (l.getD i Value.undefined) =
      (getNextLayer sha3 l false).getD (i / 2) Value.undefined := by
  rw [getNextLayer_getD sha3 l false (i / 2) (by omega)]
  rcases Nat.mod_two_eq_zero_or_one i with h | h
  · have h2 : 2 * (i / 2) = i := by omega
    rw [getPair_even i l h, h2]
    by_cases hlt : i + 1 < l.length
    · have ht := getD_truthy l hl (i + 1) hlt
      simp only [hlt, if_true, ht, List.foldl_cons, List.foldl_nil]
    · have hd : l.getD (i + 1) Value.undefined = Value.undefined :=
        List.getD_eq_default _ _ (by omega)
      simp only [hlt, if_false, Value.truthy, hd, combinedHash_undefined, List.foldl_nil,
        Bool.false_eq_true]
  · have h2 : 2 * (i / 2) = i - 1 := by omega
    have h3 : 2 * (i / 2) + 1 = i := by omega
    rw [getPair_odd i l h hi, h2, show i - 1 + 1 = i by omega]
    have ht := getD_truthy l hl (i - 1) (by omega)
    simp only [ht, if_true, List.foldl_cons, List.foldl_nil]
    exact combinedHash_comm sha3 _ _ (getD_truthy l hl i hi) ht

/-- The unordered fold over the proof of the node at `i` ends at the single entry of the
last layer, whatever the number of layers. -/
theorem unordered_fold (fuel : Nat) :
    ∀ (l : List Value) (i : Nat), l.length ≤ fuel + 1 → i < l.length →
      (∀ v ∈ l, v.truthy = true) →
      ∃ r, (layersFrom sha3 false fuel l).getLast? = some [r] ∧ r.truthy = true ∧
        (getProof i (layersFrom sha3 false fuel l)).foldl
          (fun hash pair => combinedHash sha3 hash pair false) (l.getD i Value.undefined) = r := by
  induction fuel with
  | zero =>
    intro l i hlen hi hl
    match l, hlen, hi, hl with
    | [r], _, hi, hl =>
      have : i = 0 := by simp at hi; omega
      subst this
      exact ⟨r, by simp [layersFrom], hl r (by simp), by
        simp [layersFrom, getProof_cons, getProof_nil, getPair, Value.truthy]⟩
  | succ fuel ih =>
    intro l i hlen hi hl
    by_cases h1 : l.length > 1
    · have hnext := getNextLayer_length sha3 l false
      obtain ⟨r, hlast, hr, hfold⟩ := ih (getNextLayer sha3 l false) (i / 2)
        (by rw [hnext]; omega) (by rw [hnext]; omega) (getNextLayer_truthy sha3 l false hl)
      have hne : layersFrom sha3 false fuel (getNextLayer sha3 l false) ≠ [] := by
        intro hnil
        rw [hnil] at hlast
        simp at hlast
      refine ⟨r, ?_, hr, ?_⟩
      · simp only [layersFrom, h1, if_true]
        rw [List.getLast?_cons, hlast]
        rfl
      · simp only [layersFrom, h1, if_true, getProof_cons, List.foldl_append]
        rw [unordered_step sha3 l hl i hi]
        exact hfold
    · match l, h1, hi, hl with
      | [r], _, hi, hl =>
        have : i = 0 := by simp at hi; omega
        subst this
        exact ⟨r, by simp [layersFrom], hl r (by simp), by
          simp [layersFrom, getProof_cons, getProof_nil, getPair, Value.truthy]⟩
      | _ :: _ :: _, h1, _, _ => exact absurd (by simp) h1

/-! ## The constructor -/

theorem MerkleTree.new_eq (elements : List Input) (preserveOrder : Bool) :
    MerkleTree.new sha3 elements preserveOrder =
      if (elements.filter Input.truthy).any (fun e => !(e.length == some 32 && e.isBuffer)) then
        Except.error (JsError.error "elements must be 32 byte buffers")
      else
        Except.ok (MerkleTree.mk (processedLeaves elements preserveOrder) preserveOrder
          (getLayers sha3 ((processedLeaves elements preserveOrder).map Value.buf)
            preserveOrder)) := rfl

theorem mem_inputBuffers (b : Buffer) (elements : List Input) :
    b ∈ inputBuffers elements ↔ Input.buf b ∈ elements := by
  unfold inputBuffers
  rw [List.mem_filterMap]
  constructor
  · rintro ⟨x, hx, hb⟩
    cases x <;> simp [Input.toBuffer?] at hb
    subst hb
    exact (List.mem_filter.1 hx).1
  · intro h
    exact ⟨Input.buf b, List.mem_filter.2 ⟨h, rfl⟩, rfl⟩

theorem mem_processedLeaves (b : Buffer) (elements : List Input) (preserveOrder : Bool) :
    b ∈ processedLeaves elements preserveOrder ↔ Input.buf b ∈ elements := by
  unfold processedLeaves
  cases preserveOrder
  · simp only [Bool.not_false, if_true, mem_bufSort, mem_bufDedup, mem_inputBuffers]
  · simp only [Bool.not_true, Bool.false_eq_true, if_false, mem_inputBuffers]

theorem Input.isElement_iff (x : Input) :
    x.isElement = true ↔ ∃ b, x = Input.buf b ∧ b.length = 32 := by
  cases x <;> simp [Input.isElement]

theorem any_invalid_eq_false_of_isElement (elements : List Input)
    (hvalid : ∀ x ∈ elements, x.isElement = true) :
    (elements.filter Input.truthy).any (fun e => !(e.length == some 32 && e.isBuffer)) = false := by
  rw [List.any_eq_false]
  intro x hx
  obtain ⟨b, rfl, hb⟩ := (Input.isElement_iff x).1 (hvalid x (List.mem_filter.1 hx).1)
  simp [Input.length, Input.isBuffer, hb]

theorem MerkleTree.new_of_isElement (elements : List Input) (preserveOrder : Bool)
    (hvalid : ∀ x ∈ elements, x.isElement = true) :
    MerkleTree.new sha3 elements preserveOrder =
      Except.ok (MerkleTree.mk (processedLeaves elements preserveOrder) preserveOrder
        (getLayers sha3 ((processedLeaves elements preserveOrder).map Value.buf)
          preserveOrder)) := by
  rw [MerkleTree.new_eq, any_invalid_eq_false_of_isElement elements hvalid]
  rfl

theorem getRoot_of_getLast (t : MerkleTree) (r : Value) (h : t.layers.getLast? = some [r]) :
    t.getRoot = r := by
  unfold MerkleTree.getRoot
  rw [List.getLast?_eq_getElem?] at h
  have h2 : t.layers.getD (t.layers.length - 1) [] = [r] := by
    rw [List.getD_eq_getElem?_getD, h]
    rfl
  rw [h2]
  rfl

theorem Value.equals_self (v : Value) (h : v.truthy = true) : v.equals v = Except.ok true := by
  obtain ⟨b, rfl⟩ := (Value.truthy_iff v).1 h
  simp [Value.equals]

/-- The unordered round trip on a tree with the leaves `leaves`. -/
theorem unordered_round_trip_leaves (leaves : List Buffer) (e : Buffer) (he : e ∈ leaves) :
    ∃ proof,
      (MerkleTree.mk leaves false (getLayers sha3 (leaves.map Value.buf) false)).getProof e =
        Except.ok proof ∧
      checkProof sha3 proof
        (MerkleTree.mk leaves false (getLayers sha3 (leaves.map Value.buf) false)).getRoot
        (Value.buf e) = Except.ok true := by
  obtain ⟨k, hk, hidx, hget, _⟩ := getBufIndex_of_mem e leaves he
  have hne : leaves.map Value.buf ≠ [] := by
    intro h
    rw [List.map_eq_nil_iff] at h
    subst h
    simp at he
  have htruthy : ∀ v ∈ leaves.map Value.buf, v.truthy = true := by
    intro v hv
    obtain ⟨b, _, rfl⟩ := List.mem_map.1 hv
    rfl
  obtain ⟨r, hlast, hr, hfold⟩ := unordered_fold sha3 (leaves.map Value.buf).length
    (leaves.map Value.buf) k (by omega) (by simpa using hk) htruthy
  have hgetD : (leaves.map Value.buf).getD k Value.undefined = Value.buf e := by
    rw [List.getD_eq_getElem?_getD, List.getElem?_map, ← List.get?_eq_getElem?, hget]
    rfl
  rw [← getLayers_eq sha3 _ false hne, hgetD] at hfold
  rw [← getLayers_eq sha3 _ false hne] at hlast
  refine ⟨getProof k (getLayers sha3 (leaves.map Value.buf) false), ?_, ?_⟩
  · have hneg : ((k : Int) == -1) = false := by
      simp only [beq_eq_false_iff_ne, ne_eq]
      omega
    simp only [MerkleTree.getProof, hidx, hneg, Int.toNat_ofNat]
    rfl
  · rw [getRoot_of_getLast _ r hlast]
    simp only [checkProof, hfold]
    exact Value.equals_self r hr

end LayerLemmas

/-! ## The fuel of the loops is sufficient -/

/-- The loop of `getLayers` stops because its last layer has a single entry, not because the
fuel ran out. -/
theorem layersFrom_getLast (sha3 : Buffer → Buffer) (preserveOrder : Bool) (fuel : Nat) :
    ∀ l : List Value, l ≠ [] → l.length ≤ fuel + 1 →
      ∃ r, (layersFrom sha3 preserveOrder fuel l).getLast? = some [r] := by
  induction fuel with
  | zero =>
    intro l hne hlen
    match l, hne, hlen with
    | [r], _, _ => exact ⟨r, rfl⟩
  | succ fuel ih =>
    intro l hne hlen
    by_cases h1 : l.length > 1
    · have hnext := getNextLayer_length sha3 l preserveOrder
      have hne2 : getNextLayer sha3 l preserveOrder ≠ [] := by
        intro h
        rw [h] at hnext
        simp at hnext
        omega
      obtain ⟨r, hr⟩ := ih (getNextLayer sha3 l preserveOrder) hne2 (by rw [hnext]; omega)
      refine ⟨r, ?_⟩
      simp only [layersFrom, h1, if_true]
      rw [List.getLast?_cons, hr]
      rfl
    · match l, hne, h1 with
      | [r], _, _ => exact ⟨r, by simp [layersFrom]⟩
      | _ :: _ :: _, _, h1 => exact absurd (by simp) h1

theorem getLayers_getLast (sha3 : Buffer → Buffer) (elements : List Value)
    (preserveOrder : Bool) :
    ∃ r, (getLayers sha3 elements preserveOrder).getLast? = some [r] := by
  by_cases h : elements = []
  · subst h
    exact ⟨Value.emptyString, rfl⟩
  · rw [getLayers_eq sha3 elements preserveOrder h]
    exact layersFrom_getLast sha3 preserveOrder _ elements h (by omega)

/-- The loop of `adjustIndex` stops because its condition fails, not because the fuel ran
out. -/
theorem adjustIndex_exit (remaining : Nat) (fuel : Nat) :
    ∀ index : Nat, index ≤ fuel + 2 →
      ¬(remaining ≠ 0 ∧ adjustIndex remaining fuel index % 2 = 1 ∧
        adjustIndex remaining fuel index > 2 ^ remaining) := by
  induction fuel with
  | zero =>
    intro index hle
    rintro ⟨h0, -, h2⟩
    simp only [adjustIndex] at h2
    have : 2 ^ 1 ≤ 2 ^ remaining := Nat.pow_le_pow_right (by omega) (by omega)
    omega
  | succ fuel ih =>
    intro index hle
    by_cases hc : (remaining != 0 && index % 2 == 1 && index > 2 ^ remaining) = true
    · simp only [adjustIndex, hc, if_true]
      have h2 : 2 ^ 1 ≤ 2 ^ remaining := by
        simp only [Bool.and_eq_true, bne_iff_ne, ne_eq] at hc
        exact Nat.pow_le_pow_right (by omega) (by omega)
      have h3 : index > 2 ^ remaining := by
        simp only [Bool.and_eq_true, decide_eq_true_eq] at hc
        exact hc.2
      exact ih ((index + 1) / 2) (by omega)
    · simp only [adjustIndex, hc, if_false, Bool.false_eq_true]
      intro ⟨h0, h1, h2⟩
      apply hc
      simp [h0, h1, h2]

/-! ## Round trips -/

/-- C1: for every input list of valid 32-byte elements, the constructor with
preserveOrder=false returns a tree whose leaves are exactly the input values, and for every
leaf e of that tree getProof(e) returns a proof for which checkProof(proof, getRoot(), e)
returns true. -/
theorem unordered_round_trip (sha3 : Buffer → Buffer) (elements : List Input)
    (hvalid : ∀ x ∈ elements, x.isElement = true) :
    ∃ t, MerkleTree.new sha3 elements false = Except.ok t ∧
      (∀ e, e ∈ t.elements ↔ Input.buf e ∈ elements) ∧
      ∀ e ∈ t.elements, ∃ proof, t.getProof e = Except.ok proof ∧
        checkProof sha3 proof t.getRoot (Value.buf e) = Except.ok true :=
  ⟨_, MerkleTree.new_of_isElement sha3 elements false hvalid,
    fun e => mem_processedLeaves e elements false,
    fun e he => unordered_round_trip_leaves sha3 _ e he⟩

/-- The unordered round trip at the three-leaf input of the tests. -/
theorem unordered_round_trip_witness :
    (∀ x ∈ [Input.buf (repeated 97), Input.buf (repeated 98), Input.buf (repeated 99)],
        x.isElement = true) ∧
      ∃ t, MerkleTree.new plainDigest
          [Input.buf (repeated 97), Input.buf (repeated 98), Input.buf (repeated 99)] false =
          Except.ok t ∧
        (∀ e, e ∈ t.elements ↔
          Input.buf e ∈
            [Input.buf (repeated 97), Input.buf (repeated 98), Input.buf (repeated 99)]) ∧
        ∀ e ∈ t.elements, ∃ proof, t.getProof e = Except.ok proof ∧
          checkProof plainDigest proof t.getRoot (Value.buf e) = Except.ok true :=
  ⟨by decide, unordered_round_trip plainDigest _ (by decide)⟩

/-- C2 (code bug): the ordered round trip fails on the twelve-leaf tree at the 1-based index 11.
getProofOrdered(elements[10], 11) returns the proof [e11, h(e8 ++ e9), H07], where H07 is the
hash above the first eight leaves, and the root is h(H07 ++ h(h(e8 ++ e9) ++ h(e10 ++ e11))).
With three entries left the inner loop of checkProofOrdered turns the index 11 into 6, so the
sibling e11 is hashed on the left and the loop ends at h(H07 ++ h(h(e11 ++ e10) ++ h(e8 ++ e9)));
checkProofOrdered returns false whenever that hash differs from the root. -/
theorem ordered_round_trip_fails (sha3 : Buffer → Buffer) :
    ∃ t proof, MerkleTree.new sha3 twelveLeaves true = Except.ok t ∧
      t.getProofOrdered (leaf 10) 11 = Except.ok proof ∧
      proof = [Value.buf (leaf 11), Value.buf (sha3 (leaf 8 ++ leaf 9)),
        Value.buf (eightLeafHash sha3)] ∧
      t.getRoot = Value.buf (sha3 (eightLeafHash sha3 ++
        sha3 (sha3 (leaf 8 ++ leaf 9) ++ sha3 (leaf 10 ++ leaf 11)))) ∧
      adjustIndex 3 11 11 = 6 ∧
      checkProofOrderedLoop sha3 proof (Value.buf (leaf 10)) 11 =
        Value.buf (sha3 (eightLeafHash sha3 ++
          sha3 (sha3 (leaf 11 ++ leaf 10) ++ sha3 (leaf 8 ++ leaf 9)))) ∧
      (sha3 (eightLeafHash sha3 ++
          sha3 (sha3 (leaf 11 ++ leaf 10) ++ sha3 (leaf 8 ++ leaf 9))) ≠
        sha3 (eightLeafHash sha3 ++
          sha3 (sha3 (leaf 8 ++ leaf 9) ++ sha3 (leaf 10 ++ leaf 11))) →
        checkProofOrdered sha3 proof t.getRoot (Value.buf (leaf 10)) 11 = Except.ok false) := by
  have hroot : (MerkleTree.mk (processedLeaves twelveLeaves true) true
      (getLayers sha3 ((processedLeaves twelveLeaves true).map Value.buf) true)).getRoot =
      Value.buf (sha3 (eightLeafHash sha3 ++
        sha3 (sha3 (leaf 8 ++ leaf 9) ++ sha3 (leaf 10 ++ leaf 11)))) := by
    simp [twelveLeaves, processedLeaves, inputBuffers, getLayers, getLayersLoop,
      getNextLayer_eq_pairUp, pairUp, MerkleTree.getRoot, Input.truthy,
      Input.toBuffer?, combinedHash, Value.truthy, bufJoin, eightLeafHash]
  have hproof : getProof 10 (getLayers sha3 ((processedLeaves twelveLeaves true).map Value.buf)
      true) = [Value.buf (leaf 11), Value.buf (sha3 (leaf 8 ++ leaf 9)),
        Value.buf (eightLeafHash sha3)] := by
    simp [twelveLeaves, processedLeaves, inputBuffers, getLayers, getLayersLoop,
      getNextLayer_eq_pairUp, pairUp, getProof, getPair, Input.truthy,
      Input.toBuffer?, combinedHash, Value.truthy, bufJoin, eightLeafHash]
  have hloop : checkProofOrderedLoop sha3 [Value.buf (leaf 11), Value.buf (sha3 (leaf 8 ++ leaf 9)),
        Value.buf (eightLeafHash sha3)] (Value.buf (leaf 10)) 11 =
      Value.buf (sha3 (eightLeafHash sha3 ++
          sha3 (sha3 (leaf 11 ++ leaf 10) ++ sha3 (leaf 8 ++ leaf 9)))) := by
    simp [checkProofOrderedLoop, adjustIndex, combinedHash, bufJoin]
  have hget : (MerkleTree.mk (processedLeaves twelveLeaves true) true
      (getLayers sha3 ((processedLeaves twelveLeaves true).map Value.buf)
        true)).getProofOrdered (leaf 10) 11 =
      Except.ok (getProof 10 (getLayers sha3 ((processedLeaves twelveLeaves true).map Value.buf)
        true)) := rfl
  rw [hproof] at hget
  refine ⟨_, _, MerkleTree.new_of_isElement sha3 twelveLeaves true (by decide), hget, rfl,
    hroot, by decide, hloop, ?_⟩
  intro hneq
  rw [checkProofOrdered, hloop, hroot]
  simp [Value.equals, hneq]

/-- Under the identity digest the hash the check ends at is not the root. -/
theorem twelve_leaf_hashes_differ :
    plainDigest (eightLeafHash plainDigest ++
        plainDigest (plainDigest (leaf 11 ++ leaf 10) ++ plainDigest (leaf 8 ++ leaf 9))) ≠
      plainDigest (eightLeafHash plainDigest ++
        plainDigest (plainDigest (leaf 8 ++ leaf 9) ++ plainDigest (leaf 10 ++ leaf 11))) := by
  intro h
  simp only [plainDigest] at h
  have h2 := List.append_cancel_left h
  have h3 := (List.append_inj h2 (by simp [leaf])).1
  revert h3
  decide

/-- The failure of the ordered round trip at the identity digest. -/
theorem ordered_round_trip_fails_witness :
    plainDigest (eightLeafHash plainDigest ++
        plainDigest (plainDigest (leaf 11 ++ leaf 10) ++ plainDigest (leaf 8 ++ leaf 9))) ≠
      plainDigest (eightLeafHash plainDigest ++
        plainDigest (plainDigest (leaf 8 ++ leaf 9) ++ plainDigest (leaf 10 ++ leaf 11))) ∧
    ∃ t proof, MerkleTree.new plainDigest twelveLeaves true = Except.ok t ∧
      t.getProofOrdered (leaf 10) 11 = Except.ok proof ∧
      checkProofOrdered plainDigest proof t.getRoot (Value.buf (leaf 10)) 11 =
        Except.ok false := by
  obtain ⟨t, proof, h1, h2, -, -, -, -, h7⟩ := ordered_round_trip_fails plainDigest
  exact ⟨twelve_leaf_hashes_differ, t, proof, h1, h2, h7 twelve_leaf_hashes_differ⟩

/-! ## Wrong indices -/

/-- The ordered tree of three elements. -/
theorem three_leaf_tree (sha3 : Buffer → Buffer) (h0 h1 h2 : Buffer)
    (hl0 : h0.length = 32) (hl1 : h1.length = 32) (hl2 : h2.length = 32) :
    MerkleTree.new sha3 [Input.buf h0, Input.buf h1, Input.buf h2] true =
      Except.ok (MerkleTree.mk [h0, h1, h2] true
        [[Value.buf h0, Value.buf h1, Value.buf h2],
         [combinedHash sha3 (Value.buf h0) (Value.buf h1) true, Value.buf h2],
         [combinedHash sha3 (combinedHash sha3 (Value.buf h0) (Value.buf h1) true)
            (Value.buf h2) true]]) := by
  rw [MerkleTree.new_of_isElement sha3 _ true (by simp [Input.isElement, hl0, hl1, hl2])]
  simp [processedLeaves, inputBuffers, getLayers, getLayersLoop, getNextLayer_eq_pairUp, pairUp,
    Input.truthy, Input.toBuffer?, combinedHash]

/-- C3 (amended): in the ordered tree of three elements h0, h1, h2, with
h01 = combinedHash(h0, h1, true), the root is combinedHash(h01, h2, true) and the proof of h2
at index 3 is [h01]; checkProofOrdered([h01], root, h2, i) returns true for i = 3 and also
for the wrong index i = 2, and returns false for i = 1 provided the digest of h2 ++ h01
differs from the digest of h01 ++ h2. -/
theorem wrong_index_three_leaves (sha3 : Buffer → Buffer) (h0 h1 h2 : Buffer)
    (hl0 : h0.length = 32) (hl1 : h1.length = 32) (hl2 : h2.length = 32)
    (hneq : combinedHash sha3 (Value.buf h2) (combinedHash sha3 (Value.buf h0) (Value.buf h1) true)
        true ≠
      combinedHash sha3 (combinedHash sha3 (Value.buf h0) (Value.buf h1) true) (Value.buf h2)
        true) :
    ∃ t, MerkleTree.new sha3 [Input.buf h0, Input.buf h1, Input.buf h2] true = Except.ok t ∧
      t.getRoot =
        combinedHash sha3 (combinedHash sha3 (Value.buf h0) (Value.buf h1) true) (Value.buf h2)
          true ∧
      t.getProofOrdered h2 3 =
        Except.ok [combinedHash sha3 (Value.buf h0) (Value.buf h1) true] ∧
      checkProofOrdered sha3 [combinedHash sha3 (Value.buf h0) (Value.buf h1) true] t.getRoot
        (Value.buf h2) 3 = Except.ok true ∧
      checkProofOrdered sha3 [combinedHash sha3 (Value.buf h0) (Value.buf h1) true] t.getRoot
        (Value.buf h2) 2 = Except.ok true ∧
      checkProofOrdered sha3 [combinedHash sha3 (Value.buf h0) (Value.buf h1) true] t.getRoot
        (Value.buf h2) 1 = Except.ok false := by
  refine ⟨_, three_leaf_tree sha3 h0 h1 h2 hl0 hl1 hl2, ?_, ?_, ?_, ?_, ?_⟩
  · rfl
  · simp [MerkleTree.getProofOrdered, arrayGet, getProof, getPair, Value.truthy, combinedHash]
  · simp [checkProofOrdered, checkProofOrderedLoop, adjustIndex, MerkleTree.getRoot,
      combinedHash, Value.equals]
  · simp [checkProofOrdered, checkProofOrderedLoop, adjustIndex, MerkleTree.getRoot,
      combinedHash, Value.equals]
  · simp only [combinedHash, if_true, ne_eq, Value.buf.injEq] at hneq
    simp [checkProofOrdered, checkProofOrderedLoop, adjustIndex, MerkleTree.getRoot,
      combinedHash, Value.equals]
    simpa [bufJoin] using hneq

/-- C3 (counterexample): in the three-leaf ordered tree of the specification the proof of the
third leaf is accepted with the index 2, whatever the digest. -/
theorem wrong_index_accepted :
    (2 : Nat) ≠ 3 ∧ ∀ sha3 : Buffer → Buffer,
      ∃ t proof, MerkleTree.new sha3
          [Input.buf (repeated 97), Input.buf (repeated 98), Input.buf (repeated 99)] true =
          Except.ok t ∧
        t.getProofOrdered (repeated 99) 3 = Except.ok proof ∧
        checkProofOrdered sha3 proof t.getRoot (Value.buf (repeated 99)) 2 = Except.ok true := by
  refine ⟨by decide, fun sha3 => ⟨_, _, three_leaf_tree sha3 _ _ _ rfl rfl rfl, rfl, ?_⟩⟩
  simp [checkProofOrdered, checkProofOrderedLoop, adjustIndex, MerkleTree.getRoot,
      combinedHash, Value.equals, getProof, getPair, Value.truthy]

/-- The three-leaf instance at the leaves of the specification and the identity digest. -/
theorem wrong_index_three_leaves_witness :
    ((repeated 97).length = 32 ∧ (repeated 98).length = 32 ∧ (repeated 99).length = 32 ∧
      combinedHash plainDigest (Value.buf (repeated 99))
          (combinedHash plainDigest (Value.buf (repeated 97)) (Value.buf (repeated 98)) true)
          true ≠
        combinedHash plainDigest
          (combinedHash plainDigest (Value.buf (repeated 97)) (Value.buf (repeated 98)) true)
          (Value.buf (repeated 99)) true) ∧
    ∃ t, MerkleTree.new plainDigest
        [Input.buf (repeated 97), Input.buf (repeated 98), Input.buf (repeated 99)] true =
        Except.ok t ∧
      t.getRoot =
        combinedHash plainDigest
          (combinedHash plainDigest (Value.buf (repeated 97)) (Value.buf (repeated 98)) true)
          (Value.buf (repeated 99)) true ∧
      t.getProofOrdered (repeated 99) 3 =
        Except.ok
          [combinedHash plainDigest (Value.buf (repeated 97)) (Value.buf (repeated 98)) true] ∧
      checkProofOrdered plainDigest
        [combinedHash plainDigest (Value.buf (repeated 97)) (Value.buf (repeated 98)) true]
        t.getRoot (Value.buf (repeated 99)) 3 = Except.ok true ∧
      checkProofOrdered plainDigest
        [combinedHash plainDigest (Value.buf (repeated 97)) (Value.buf (repeated 98)) true]
        t.getRoot (Value.buf (repeated 99)) 2 = Except.ok true ∧
      checkProofOrdered plainDigest
        [combinedHash plainDigest (Value.buf (repeated 97)) (Value.buf (repeated 98)) true]
        t.getRoot (Value.buf (repeated 99)) 1 = Except.ok false :=
  ⟨⟨rfl, rfl, rfl, by decide⟩,
    wrong_index_three_leaves plainDigest _ _ _ rfl rfl rfl (by decide)⟩

/-! ## Canonical leaves of the unordered tree -/

theorem mem_dropSeen (y : Input) (xs : List Input) :
    ∀ seen : List Input, y ∈ dropSeen seen xs ↔ y ∈ xs ∧ y ∉ seen := by
  induction xs with
  | nil => intro seen; simp [dropSeen]
  | cons x rest ih =>
    intro seen
    by_cases hx : x ∈ seen
    · simp only [dropSeen, hx, if_true, ih, List.mem_cons]
      constructor
      · rintro ⟨h1, h2⟩
        exact ⟨Or.inr h1, h2⟩
      · rintro ⟨h1 | h1, h2⟩
        · exact absurd (h1 ▸ hx) h2
        · exact ⟨h1, h2⟩
    · simp only [dropSeen, hx, if_false, List.mem_cons, ih, not_or]
      constructor
      · rintro (h1 | ⟨h1, h2, h3⟩)
        · exact ⟨Or.inl h1, h1 ▸ hx⟩
        · exact ⟨Or.inr h1, h3⟩
      · rintro ⟨h1 | h1, h2⟩
        · exact Or.inl h1
        · by_cases hyx : y = x
          · exact Or.inl hyx
          · exact Or.inr ⟨h1, hyx, h2⟩

theorem mem_removeLaterOccurrences (y : Input) (xs : List Input) :
    y ∈ removeLaterOccurrences xs ↔ y ∈ xs := by
  simp [removeLaterOccurrences, mem_dropSeen]

theorem nodup_dropSeen (xs : List Input) : ∀ seen : List Input, (dropSeen seen xs).Nodup := by
  induction xs with
  | nil => intro seen; simp [dropSeen]
  | cons x rest ih =>
    intro seen
    by_cases hx : x ∈ seen
    · simp only [dropSeen, hx, if_true]
      exact ih seen
    · simp only [dropSeen, hx, if_false, List.nodup_cons, mem_dropSeen, List.mem_cons,
        true_or, not_true_eq_false, and_false, not_false_eq_true, true_and]
      exact ih (x :: seen)

/-- In unordered mode the constructor's result depends on the set of input values only. -/
theorem MerkleTree.new_congr (sha3 : Buffer → Buffer) (xs ys : List Input)
    (h : ∀ x, x ∈ xs ↔ x ∈ ys) :
    MerkleTree.new sha3 xs false = MerkleTree.new sha3 ys false := by
  have hany : (xs.filter Input.truthy).any (fun e => !(e.length == some 32 && e.isBuffer)) =
      (ys.filter Input.truthy).any (fun e => !(e.length == some 32 && e.isBuffer)) := by
    rw [Bool.eq_iff_iff, List.any_eq_true, List.any_eq_true]
    constructor
    · rintro ⟨x, hx, hp⟩
      exact ⟨x, List.mem_filter.2 ⟨(h x).1 (List.mem_filter.1 hx).1, (List.mem_filter.1 hx).2⟩, hp⟩
    · rintro ⟨x, hx, hp⟩
      exact ⟨x, List.mem_filter.2 ⟨(h x).2 (List.mem_filter.1 hx).1, (List.mem_filter.1 hx).2⟩, hp⟩
  have hleaves : processedLeaves xs false = processedLeaves ys false := by
    simp only [processedLeaves, Bool.not_false, if_true]
    exact bufSort_bufDedup_congr _ _ (fun b => by rw [mem_inputBuffers, mem_inputBuffers, h])
  rw [MerkleTree.new_eq, MerkleTree.new_eq, hany, hleaves]

/-- C4: for every input list xs and every permutation ys of it, the constructor with
preserveOrder=false gives the same result on xs and on ys (the same leaves and the same whole
layer sequence, or the same error), and so merkleRoot(xs, false) equals merkleRoot(ys, false). -/
theorem permutation_invariance (sha3 : Buffer → Buffer) (xs ys : List Input)
    (hperm : xs.Perm ys) :
    MerkleTree.new sha3 xs false = MerkleTree.new sha3 ys false ∧
      merkleRoot sha3 xs false = merkleRoot sha3 ys false := by
  have h := MerkleTree.new_congr sha3 xs ys (fun x => hperm.mem_iff)
  exact ⟨h, by simp only [merkleRoot, h]⟩

/-- Permutation invariance at a three-leaf input and its reversal. -/
theorem permutation_invariance_witness :
    [Input.buf (repeated 97), Input.buf (repeated 98), Input.buf (repeated 99)].Perm
        [Input.buf (repeated 99), Input.buf (repeated 98), Input.buf (repeated 97)] ∧
      (MerkleTree.new plainDigest
          [Input.buf (repeated 97), Input.buf (repeated 98), Input.buf (repeated 99)] false =
        MerkleTree.new plainDigest
          [Input.buf (repeated 99), Input.buf (repeated 98), Input.buf (repeated 97)] false ∧
      merkleRoot plainDigest
          [Input.buf (repeated 97), Input.buf (repeated 98), Input.buf (repeated 99)] false =
        merkleRoot plainDigest
          [Input.buf (repeated 99), Input.buf (repeated 98), Input.buf (repeated 97)] false) :=
  ⟨(List.reverse_perm _).symm, permutation_invariance plainDigest _ _ (List.reverse_perm _).symm⟩

theorem merkleRoot_single (sha3 : Buffer → Buffer) (h0 : Buffer) (hl0 : h0.length = 32)
    (preserveOrder : Bool) :
    merkleRoot sha3 [Input.buf h0] preserveOrder = Except.ok (Value.buf h0) := by
  simp only [merkleRoot]
  rw [MerkleTree.new_of_isElement sha3 _ _ (by simp [Input.isElement, hl0])]
  cases preserveOrder <;>
    simp [processedLeaves, inputBuffers, Input.truthy, Input.toBuffer?, bufDedup, getBufIndex,
      getBufIndexFrom, bufSort, getLayers, getLayersLoop, MerkleTree.getRoot, Except.map]

/-- C5: in unordered mode the constructor gives the same result (leaves, layers, root) on an
input xs and on xs with every later occurrence of an already-seen value removed, the values
compared by their bytes; that list has no repeated value and the same values as xs; and for
32-byte elements h0 and h1 the root of [h0, h0] and of [h0] is h0 itself and the root of
[h0, h1, h0] is the root of [h0, h1]. -/
theorem dedup_unordered (sha3 : Buffer → Buffer) (xs : List Input) (h0 h1 : Buffer)
    (hl0 : h0.length = 32) :
    MerkleTree.new sha3 xs false = MerkleTree.new sha3 (removeLaterOccurrences xs) false ∧
      merkleRoot sha3 xs false = merkleRoot sha3 (removeLaterOccurrences xs) false ∧
      (removeLaterOccurrences xs).Nodup ∧
      (∀ x, x ∈ removeLaterOccurrences xs ↔ x ∈ xs) ∧
      removeLaterOccurrences [Input.buf h0, Input.buf h0] = [Input.buf h0] ∧
      merkleRoot sha3 [Input.buf h0, Input.buf h0] false = Except.ok (Value.buf h0) ∧
      merkleRoot sha3 [Input.buf h0] false = Except.ok (Value.buf h0) ∧
      merkleRoot sha3 [Input.buf h0, Input.buf h1, Input.buf h0] false =
        merkleRoot sha3 [Input.buf h0, Input.buf h1] false := by
  have h := MerkleTree.new_congr sha3 xs (removeLaterOccurrences xs)
    (fun x => (mem_removeLaterOccurrences x xs).symm)
  have h2 := MerkleTree.new_congr sha3 [Input.buf h0, Input.buf h0] [Input.buf h0]
    (fun x => by simp)
  have h3 := MerkleTree.new_congr sha3 [Input.buf h0, Input.buf h1, Input.buf h0]
    [Input.buf h0, Input.buf h1] (fun x => by simp; tauto)
  refine ⟨h, by simp only [merkleRoot, h], nodup_dropSeen xs [],
    fun x => mem_removeLaterOccurrences x xs, by simp [removeLaterOccurrences, dropSeen], ?_,
    merkleRoot_single sha3 h0 hl0 false, by simp only [merkleRoot, h3]⟩
  have := merkleRoot_single sha3 h0 hl0 false
  simp only [merkleRoot] at this ⊢
  rw [h2]
  exact this

/-- Deduplication at the leaves of the tests. -/
theorem dedup_unordered_witness :
    (repeated 120).length = 32 ∧
      (MerkleTree.new plainDigest
          [Input.buf (repeated 120), Input.buf (repeated 121), Input.buf (repeated 120)] false =
        MerkleTree.new plainDigest
          (removeLaterOccurrences
            [Input.buf (repeated 120), Input.buf (repeated 121), Input.buf (repeated 120)])
          false ∧
      merkleRoot plainDigest
          [Input.buf (repeated 120), Input.buf (repeated 121), Input.buf (repeated 120)] false =
        merkleRoot plainDigest
          (removeLaterOccurrences
            [Input.buf (repeated 120), Input.buf (repeated 121), Input.buf (repeated 120)])
          false ∧
      (removeLaterOccurrences
        [Input.buf (repeated 120), Input.buf (repeated 121), Input.buf (repeated 120)]).Nodup ∧
      (∀ x, x ∈ removeLaterOccurrences
            [Input.buf (repeated 120), Input.buf (repeated 121), Input.buf (repeated 120)] ↔
          x ∈ [Input.buf (repeated 120), Input.buf (repeated 121), Input.buf (repeated 120)]) ∧
      removeLaterOccurrences [Input.buf (repeated 120), Input.buf (repeated 120)] =
        [Input.buf (repeated 120)] ∧
      merkleRoot plainDigest [Input.buf (repeated 120), Input.buf (repeated 120)] false =
        Except.ok (Value.buf (repeated 120)) ∧
      merkleRoot plainDigest [Input.buf (repeated 120)] false =
        Except.ok (Value.buf (repeated 120)) ∧
      merkleRoot plainDigest
          [Input.buf (repeated 120), Input.buf (repeated 121), Input.buf (repeated 120)] false =
        merkleRoot plainDigest [Input.buf (repeated 120), Input.buf (repeated 121)] false) :=
  ⟨rfl, dedup_unordered plainDigest _ (repeated 120) (repeated 121) rfl⟩

/-! ## Construction -/

theorem Input.check_eq_isElement (e : Input) :
    (e.length == some 32 && e.isBuffer) = e.isElement := by
  cases e <;> simp [Input.length, Input.isBuffer, Input.isElement]

theorem MerkleTree.new_eq_isElement (sha3 : Buffer → Buffer) (elements : List Input)
    (preserveOrder : Bool) :
    MerkleTree.new sha3 elements preserveOrder =
      if (elements.filter Input.truthy).any (fun e => !e.isElement) then
        Except.error (JsError.error "elements must be 32 byte buffers")
      else
        Except.ok (MerkleTree.mk (processedLeaves elements preserveOrder) preserveOrder
          (getLayers sha3 ((processedLeaves elements preserveOrder).map Value.buf)
            preserveOrder)) := by
  rw [MerkleTree.new_eq]
  simp only [Input.check_eq_isElement]

theorem MerkleTree.new_ok (sha3 : Buffer → Buffer) (elements : List Input)
    (preserveOrder : Bool) (t : MerkleTree)
    (h : MerkleTree.new sha3 elements preserveOrder = Except.ok t) :
    t = MerkleTree.mk (processedLeaves elements preserveOrder) preserveOrder
      (getLayers sha3 ((processedLeaves elements preserveOrder).map Value.buf) preserveOrder) := by
  rw [MerkleTree.new_eq] at h
  split_ifs at h
  exact (Except.ok.inj h).symm

theorem Input.isEmptyString_of_truthy (e : Input) (h : e.truthy = true) :
    e.isEmptyString = false := by
  cases e <;> simp_all [Input.truthy, Input.isEmptyString]

/-- C6 (code bug): the constructor does not fail exactly when the specification says. It fails
if and only if, after the values that `filter(a => a)` drops are removed, some remaining entry
is not a Buffer of exactly 32 bytes; every failure raises 'elements must be 32 byte buffers'
and returns no tree, and otherwise a tree is returned. Whenever it fails, the specified
condition (an entry other than an empty string that is not a Buffer of 32 bytes) holds, and
the two agree on every input whose falsy entries are all empty strings; but on [0], [null] and
[undefined] the specified condition holds and the constructor returns the empty tree. It fails
on each input of the test 'elements must be 32 byte buffers' (a string of 32 characters, a
Buffer of 33 bytes, a 0x hex string of 66 characters, a number). -/
theorem construction_fails_iff (sha3 : Buffer → Buffer) (elements : List Input)
    (preserveOrder : Bool) :
    (MerkleTree.new sha3 elements preserveOrder =
          Except.error (JsError.error "elements must be 32 byte buffers") ↔
        ∃ e ∈ elements.filter Input.truthy, e.isElement = false) ∧
      ((∃ t, MerkleTree.new sha3 elements preserveOrder = Except.ok t) ↔
        ∀ e ∈ elements.filter Input.truthy, e.isElement = true) ∧
      (∀ err, MerkleTree.new sha3 elements preserveOrder = Except.error err →
        err = JsError.error "elements must be 32 byte buffers") ∧
      (MerkleTree.new sha3 elements preserveOrder =
          Except.error (JsError.error "elements must be 32 byte buffers") →
        specifiedFailure elements = true) ∧
      ((∀ e ∈ elements, e.truthy = false → e.isEmptyString = true) →
        (MerkleTree.new sha3 elements preserveOrder =
            Except.error (JsError.error "elements must be 32 byte buffers") ↔
          specifiedFailure elements = true)) ∧
      (specifiedFailure [Input.num 0] = true ∧
        MerkleTree.new sha3 [Input.num 0] preserveOrder =
          Except.ok (MerkleTree.mk [] preserveOrder [[Value.emptyString]])) ∧
      (specifiedFailure [Input.null] = true ∧
        MerkleTree.new sha3 [Input.null] preserveOrder =
          Except.ok (MerkleTree.mk [] preserveOrder [[Value.emptyString]])) ∧
      (specifiedFailure [Input.undefined] = true ∧
        MerkleTree.new sha3 [Input.undefined] preserveOrder =
          Except.ok (MerkleTree.mk [] preserveOrder [[Value.emptyString]])) ∧
      MerkleTree.new sha3 [Input.str (String.mk (List.replicate 32 'x'))] preserveOrder =
        Except.error (JsError.error "elements must be 32 byte buffers") ∧
      MerkleTree.new sha3 [Input.buf (List.replicate 33 120)] preserveOrder =
        Except.error (JsError.error "elements must be 32 byte buffers") ∧
      MerkleTree.new sha3 [Input.str (String.mk ('0' :: 'x' :: List.replicate 64 '7'))]
          preserveOrder =
        Except.error (JsError.error "elements must be 32 byte buffers") ∧
      MerkleTree.new sha3 [Input.num 123] preserveOrder =
        Except.error (JsError.error "elements must be 32 byte buffers") := by
  have hfail : MerkleTree.new sha3 elements preserveOrder =
        Except.error (JsError.error "elements must be 32 byte buffers") ↔
      ∃ e ∈ elements.filter Input.truthy, e.isElement = false := by
    rw [MerkleTree.new_eq_isElement]
    by_cases h : (elements.filter Input.truthy).any (fun e => !e.isElement) = true
    · rw [if_pos h]
      obtain ⟨e, he, hv⟩ := List.any_eq_true.1 h
      exact ⟨fun _ => ⟨e, he, by simpa using hv⟩, fun _ => rfl⟩
    · rw [if_neg h]
      constructor
      · intro heq
        cases heq
      · rintro ⟨e, he, hv⟩
        exact absurd (List.any_eq_true.2 ⟨e, he, by simp [hv]⟩) h
  have hspec : specifiedFailure elements = true ↔
      ∃ e ∈ elements, e.isEmptyString = false ∧ e.isElement = false := by
    simp only [specifiedFailure, List.any_eq_true, List.mem_filter, Bool.not_eq_true']
    constructor
    · rintro ⟨e, ⟨he, h1⟩, h2⟩
      exact ⟨e, he, h1, h2⟩
    · rintro ⟨e, he, h1, h2⟩
      exact ⟨e, ⟨he, h1⟩, h2⟩
  refine ⟨hfail, ?_, ?_, ?_, ?_, ⟨rfl, by cases preserveOrder <;> rfl⟩,
    ⟨rfl, by cases preserveOrder <;> rfl⟩, ⟨rfl, by cases preserveOrder <;> rfl⟩,
    rfl, rfl, rfl, rfl⟩
  · rw [MerkleTree.new_eq_isElement]
    by_cases h : (elements.filter Input.truthy).any (fun e => !e.isElement) = true
    · rw [if_pos h]
      obtain ⟨e, he, hv⟩ := List.any_eq_true.1 h
      constructor
      · rintro ⟨t, heq⟩
        cases heq
      · intro hall
        have := hall e he
        simp [this] at hv
    · rw [if_neg h]
      refine ⟨fun _ e he => ?_, fun _ => ⟨_, rfl⟩⟩
      by_contra hv
      exact h (List.any_eq_true.2 ⟨e, he, by simpa using hv⟩)
  · intro err h
    rw [MerkleTree.new_eq_isElement] at h
    split_ifs at h
    exact (Except.error.inj h).symm
  · intro h
    obtain ⟨e, he, hv⟩ := hfail.1 h
    obtain ⟨hmem, ht⟩ := List.mem_filter.1 he
    exact hspec.2 ⟨e, hmem, Input.isEmptyString_of_truthy e ht, hv⟩
  · intro hfalsy
    rw [hfail, hspec]
    constructor
    · rintro ⟨e, he, hv⟩
      obtain ⟨hmem, ht⟩ := List.mem_filter.1 he
      exact ⟨e, hmem, Input.isEmptyString_of_truthy e ht, hv⟩
    · rintro ⟨e, hmem, h1, hv⟩
      refine ⟨e, List.mem_filter.2 ⟨hmem, ?_⟩, hv⟩
      by_contra ht
      have := hfalsy e hmem (by simpa using ht)
      rw [this] at h1
      exact Bool.noConfusion h1

/-- The constructor and the specified condition on an empty string followed by a Buffer of 33
bytes. -/
theorem construction_fails_iff_witness :
    (∀ e ∈ [Input.str "", Input.buf (List.replicate 33 120)],
      e.truthy = false → e.isEmptyString = true) ∧
    specifiedFailure [Input.str "", Input.buf (List.replicate 33 120)] = true ∧
    MerkleTree.new plainDigest [Input.str "", Input.buf (List.replicate 33 120)] false =
      Except.error (JsError.error "elements must be 32 byte buffers") :=
  ⟨by decide, by decide,
    ((construction_fails_iff plainDigest [Input.str "", Input.buf (List.replicate 33 120)]
      false).2.2.2.2.1 (by decide)).2 (by decide)⟩

/-! ## Proof extraction -/

/-- C7: getProof(element) raises 'element not found in merkle tree' if and only if no leaf of
the tree equals element; getBufIndex returns -1 exactly then; and otherwise getBufIndex
returns the least position i holding element and getProof(element) returns the proof
extracted at i. -/
theorem getProof_not_found_iff (t : MerkleTree) (element : Buffer) :
    (t.getProof element = Except.error (JsError.error "element not found in merkle tree") ↔
        element ∉ t.elements) ∧
      (getBufIndex element t.elements = -1 ↔ element ∉ t.elements) ∧
      (element ∈ t.elements →
        ∃ i : Nat, i < t.elements.length ∧ t.elements.get? i = some element ∧
          (∀ j, j < i → t.elements.get? j ≠ some element) ∧
          getBufIndex element t.elements = (i : Int) ∧
          t.getProof element = Except.ok (getProof i t.layers)) := by
  have hok : ∀ i : Nat, getBufIndex element t.elements = (i : Int) →
      t.getProof element = Except.ok (getProof i t.layers) := by
    intro i hi
    have hneg : ((i : Int) == -1) = false := by
      simp only [beq_eq_false_iff_ne, ne_eq]
      omega
    simp only [MerkleTree.getProof, hi, hneg, Int.toNat_ofNat]
    rfl
  refine ⟨?_, getBufIndex_eq_neg_one_iff element t.elements, ?_⟩
  · constructor
    · intro h hmem
      obtain ⟨i, _, hidx, _, _⟩ := getBufIndex_of_mem element t.elements hmem
      rw [hok i hidx] at h
      exact absurd h (by simp)
    · intro h
      simp [MerkleTree.getProof, (getBufIndex_eq_neg_one_iff element t.elements).2 h]
  · intro hmem
    obtain ⟨i, hi, hidx, hget, hmin⟩ := getBufIndex_of_mem element t.elements hmem
    exact ⟨i, hi, hget, hmin, hidx, hok i hidx⟩

/-- C8: getProofOrdered(e, i) returns a proof if and only if 1 <= i <= n and the leaf at the
0-based position i - 1 equals e; the proof it returns is the one extracted at position i - 1;
otherwise it raises an error: a TypeError when i is out of range, and 'element does not match
leaf at index in tree' when the leaf at i - 1 differs from e. -/
theorem getProofOrdered_succeeds_iff (t : MerkleTree) (e : Buffer) (i : Int) :
    ((∃ proof, t.getProofOrdered e i = Except.ok proof) ↔
        1 ≤ i ∧ i ≤ (t.elements.length : Int) ∧ t.elements.get? (i - 1).toNat = some e) ∧
      (∀ proof, t.getProofOrdered e i = Except.ok proof →
        proof = getProof (i - 1).toNat t.layers) ∧
      (¬(1 ≤ i ∧ i ≤ (t.elements.length : Int)) →
        t.getProofOrdered e i = Except.error JsError.typeError) ∧
      (∀ leaf, 1 ≤ i → t.elements.get? (i - 1).toNat = some leaf → leaf ≠ e →
        t.getProofOrdered e i =
          Except.error (JsError.error "element does not match leaf at index in tree")) := by
  have hnone : ¬(1 ≤ i ∧ i ≤ (t.elements.length : Int)) →
      arrayGet t.elements (i - 1) = none := by
    intro h
    unfold arrayGet
    split_ifs with h0
    · rw [List.get?_eq_none]
      omega
    · rfl
  have hsome : ∀ leaf, 1 ≤ i → t.elements.get? (i - 1).toNat = some leaf →
      arrayGet t.elements (i - 1) = some leaf := by
    intro leaf h1 hget
    unfold arrayGet
    rw [if_pos (by omega), hget]
  refine ⟨?_, ?_, ?_, ?_⟩
  · constructor
    · rintro ⟨proof, hp⟩
      by_cases hr : 1 ≤ i ∧ i ≤ (t.elements.length : Int)
      · obtain ⟨leaf, hleaf⟩ : ∃ leaf, t.elements.get? (i - 1).toNat = some leaf := by
          have hlt : (i - 1).toNat < t.elements.length := by omega
          exact ⟨_, List.get?_eq_get hlt⟩
        refine ⟨hr.1, hr.2, ?_⟩
        simp only [MerkleTree.getProofOrdered, hsome leaf hr.1 hleaf] at hp
        by_cases heq : e = leaf
        · rw [hleaf, heq]
        · simp [heq] at hp
      · simp [MerkleTree.getProofOrdered, hnone hr] at hp
    · rintro ⟨h1, _, hget⟩
      exact ⟨getProof (i - 1).toNat t.layers, by
        simp [MerkleTree.getProofOrdered, hsome e h1 hget]⟩
  · intro proof hp
    by_cases hr : 1 ≤ i ∧ i ≤ (t.elements.length : Int)
    · obtain ⟨leaf, hleaf⟩ : ∃ leaf, t.elements.get? (i - 1).toNat = some leaf := by
        have hlt : (i - 1).toNat < t.elements.length := by omega
        exact ⟨_, List.get?_eq_get hlt⟩
      simp only [MerkleTree.getProofOrdered, hsome leaf hr.1 hleaf] at hp
      by_cases heq : e = leaf
      · simp only [heq, beq_self_eq_true, Bool.not_true, Bool.false_eq_true, if_false,
          Except.ok.injEq] at hp
        exact hp.symm
      · simp [heq] at hp
    · simp [MerkleTree.getProofOrdered, hnone hr] at hp
  · intro hr
    simp [MerkleTree.getProofOrdered, hnone hr]
  · intro leaf h1 hget hne
    have hne2 : ¬ e = leaf := fun h => hne h.symm
    simp [MerkleTree.getProofOrdered, hsome leaf h1 hget, hne2]

/-! ## Empty input -/

/-- C9: in both modes the constructor gives on an input the result it gives on that input
with the values `filter(a => a)` drops removed; when no entry remains the tree has no leaves
and exactly one layer, which holds exactly the empty string, and getRoot returns it; so it is
for the inputs [], [''] and ['', '']. -/
theorem empty_placeholders_discarded (sha3 : Buffer → Buffer) (elements : List Input)
    (preserveOrder : Bool) :
    MerkleTree.new sha3 elements preserveOrder =
        MerkleTree.new sha3 (elements.filter Input.truthy) preserveOrder ∧
      (elements.filter Input.truthy = [] →
        MerkleTree.new sha3 elements preserveOrder =
            Except.ok (MerkleTree.mk [] preserveOrder [[Value.emptyString]]) ∧
          merkleRoot sha3 elements preserveOrder = Except.ok Value.emptyString) ∧
      merkleRoot sha3 [] preserveOrder = Except.ok Value.emptyString ∧
      merkleRoot sha3 [Input.str ""] preserveOrder = Except.ok Value.emptyString ∧
      merkleRoot sha3 [Input.str "", Input.str ""] preserveOrder =
        Except.ok Value.emptyString := by
  have hempty : ∀ xs : List Input, xs.filter Input.truthy = [] →
      MerkleTree.new sha3 xs preserveOrder =
        Except.ok (MerkleTree.mk [] preserveOrder [[Value.emptyString]]) := by
    intro xs h
    rw [MerkleTree.new_eq]
    have hp : processedLeaves xs preserveOrder = [] := by
      cases preserveOrder <;>
        simp [processedLeaves, inputBuffers, h, bufDedup, bufSort]
    simp [h, hp, getLayers]
  have hroot : ∀ xs : List Input, xs.filter Input.truthy = [] →
      merkleRoot sha3 xs preserveOrder = Except.ok Value.emptyString := by
    intro xs h
    simp only [merkleRoot, hempty xs h]
    rfl
  refine ⟨?_, fun h => ⟨hempty elements h, hroot elements h⟩, hroot [] rfl, hroot _ rfl,
    hroot _ rfl⟩
  rw [MerkleTree.new_eq, MerkleTree.new_eq]
  simp [processedLeaves, inputBuffers, List.filter_filter]

/-! ## The leaves of an unordered tree -/

theorem layersFrom_getD_zero (sha3 : Buffer → Buffer) (preserveOrder : Bool) (fuel : Nat)
    (l : List Value) : (layersFrom sha3 preserveOrder fuel l).getD 0 [] = l := by
  cases fuel with
  | zero => rfl
  | succ fuel =>
    simp only [layersFrom]
    split_ifs <;> rfl

/-- C10 (amended): for every input the constructor accepts with preserveOrder=false, the
stored leaves are strictly ascending under Buffer.compare (sorted, no two equal) and are
exactly the distinct Buffer values of the input; when there is at least one leaf, layers[0]
is that list of leaves; when there is none, the layers are the single layer holding the
empty string. -/
theorem unordered_leaves_sorted (sha3 : Buffer → Buffer) (elements : List Input)
    (t : MerkleTree) (hbuild : MerkleTree.new sha3 elements false = Except.ok t) :
    t.elements.Pairwise (fun a b => Buffer.compare a b < 0) ∧
      (∀ b, b ∈ t.elements ↔ Input.buf b ∈ elements) ∧
      (t.elements ≠ [] → t.layers.getD 0 [] = t.elements.map Value.buf) ∧
      (t.elements = [] → t.layers = [[Value.emptyString]]) := by
  have ht := MerkleTree.new_ok sha3 elements false t hbuild
  subst ht
  refine ⟨bufSort_bufDedup_strictly_ascending _, fun b => mem_processedLeaves b elements false,
    ?_, ?_⟩
  · intro hne
    have hne2 : (processedLeaves elements false).map Value.buf ≠ [] := by
      simpa using hne
    simp only [getLayers_eq sha3 _ false hne2, layersFrom_getD_zero]
  · intro h
    simp only at h
    simp [h, getLayers]

/-- C10 (counterexample): the unordered tree of the empty input has no leaves, and its
layers[0] holds the empty string, which is no value of the input. -/
theorem unordered_layer_zero_of_empty :
    ∃ t, MerkleTree.new plainDigest [] false = Except.ok t ∧ t.elements = [] ∧
      t.layers.getD 0 [] = [Value.emptyString] ∧
      t.layers.getD 0 [] ≠ t.elements.map Value.buf :=
  ⟨_, rfl, rfl, rfl, by decide⟩

/-- The leaves of the unordered tree of an input with a repeated value. -/
theorem unordered_leaves_sorted_witness :
    MerkleTree.new plainDigest
        [Input.buf (repeated 98), Input.buf (repeated 97), Input.buf (repeated 98)] false =
      Except.ok (MerkleTree.mk [repeated 97, repeated 98] false
        [[Value.buf (repeated 97), Value.buf (repeated 98)],
          [Value.buf (repeated 97 ++ repeated 98)]]) ∧
    ([repeated 97, repeated 98].Pairwise (fun a b => Buffer.compare a b < 0) ∧
      (∀ b, b ∈ [repeated 97, repeated 98] ↔
        Input.buf b ∈
          [Input.buf (repeated 98), Input.buf (repeated 97), Input.buf (repeated 98)]) ∧
      ([repeated 97, repeated 98] ≠ [] →
        [[Value.buf (repeated 97), Value.buf (repeated 98)],
            [Value.buf (repeated 97 ++ repeated 98)]].getD 0 [] =
          [repeated 97, repeated 98].map Value.buf) ∧
      ([repeated 97, repeated 98] = [] →
        [[Value.buf (repeated 97), Value.buf (repeated 98)],
            [Value.buf (repeated 97 ++ repeated 98)]] = [[Value.emptyString]])) :=
  ⟨rfl,
    unordered_leaves_sorted plainDigest
      [Input.buf (repeated 98), Input.buf (repeated 97), Input.buf (repeated 98)]
      (MerkleTree.mk [repeated 97, repeated 98] false
        [[Value.buf (repeated 97), Value.buf (repeated 98)],
          [Value.buf (repeated 97 ++ repeated 98)]]) rfl⟩

/-! ## Ordered leaves -/

theorem combinedHash_buf_true (sha3 : Buffer → Buffer) (a b : Buffer) :
    combinedHash sha3 (Value.buf a) (Value.buf b) true = Value.buf (sha3 (a ++ b)) := by
  simp [combinedHash, bufJoin]

theorem inputBuffers_map_buf (bs : List Buffer) : inputBuffers (bs.map Input.buf) = bs := by
  induction bs with
  | nil => rfl
  | cons b rest ih =>
    simp only [inputBuffers] at ih
    simp [inputBuffers, Input.truthy, Input.toBuffer?, ih]

theorem MerkleTree.new_ok_valid (sha3 : Buffer → Buffer) (elements : List Input)
    (preserveOrder : Bool) (t : MerkleTree)
    (h : MerkleTree.new sha3 elements preserveOrder = Except.ok t) :
    ∀ e ∈ elements.filter Input.truthy, e.isElement = true := by
  rw [MerkleTree.new_eq_isElement] at h
  split_ifs at h with hany
  intro e he
  by_contra hv
  exact hany (List.any_eq_true.2 ⟨e, he, by simpa using hv⟩)

/-- C11 (amended): for every input the constructor accepts with preserveOrder=true, the stored
leaves are the Buffers of the input in their order, duplicates kept and only the entries
`filter(a => a)` drops removed; layers[0] is that list whenever it is not empty, and the single
layer [''] otherwise; and for 32-byte h0, h1 the ordered root of [h0, h1, h0] is
combinedHash(combinedHash(h0, h1, true), h0, true), the ordered root of [h0, h1] is
combinedHash(h0, h1, true). -/
theorem ordered_leaves_kept (sha3 : Buffer → Buffer) (elements : List Input) (t : MerkleTree)
    (h0 h1 : Buffer) (hbuild : MerkleTree.new sha3 elements true = Except.ok t)
    (hl0 : h0.length = 32) (hl1 : h1.length = 32) :
    t.elements.map Input.buf = elements.filter Input.truthy ∧
      (t.elements ≠ [] → t.layers.getD 0 [] = t.elements.map Value.buf) ∧
      (t.elements = [] → t.layers = [[Value.emptyString]]) ∧
      merkleRoot sha3 [Input.buf h0, Input.buf h1, Input.buf h0] true =
        Except.ok (combinedHash sha3 (combinedHash sha3 (Value.buf h0) (Value.buf h1) true)
          (Value.buf h0) true) ∧
      merkleRoot sha3 [Input.buf h0, Input.buf h1] true =
        Except.ok (combinedHash sha3 (Value.buf h0) (Value.buf h1) true) := by
  have ht := MerkleTree.new_ok sha3 elements true t hbuild
  have hvalid := MerkleTree.new_ok_valid sha3 elements true t hbuild
  subst ht
  refine ⟨?_, ?_, ?_, ?_, ?_⟩
  · simp only [processedLeaves, Bool.not_true, Bool.false_eq_true, if_false, inputBuffers]
    generalize elements.filter Input.truthy = xs at hvalid
    induction xs with
    | nil => rfl
    | cons x rest ih =>
      obtain ⟨b, rfl, _⟩ := (Input.isElement_iff x).1 (hvalid x (by simp))
      simp only [List.filterMap_cons, Input.toBuffer?, List.map_cons]
      rw [ih (fun e he => hvalid e (by simp [he]))]
  · intro hne
    have hne2 : (processedLeaves elements true).map Value.buf ≠ [] := by
      simpa using hne
    simp only [getLayers_eq sha3 _ true hne2, layersFrom_getD_zero]
  · intro h
    simp only at h
    simp [h, getLayers]
  · simp only [merkleRoot]
    rw [MerkleTree.new_of_isElement sha3 _ true (by simp [Input.isElement, hl0, hl1])]
    simp [processedLeaves, inputBuffers, getLayers, getLayersLoop, getNextLayer_eq_pairUp, pairUp,
      Input.truthy, Input.toBuffer?, combinedHash, MerkleTree.getRoot, Except.map]
  · simp only [merkleRoot]
    rw [MerkleTree.new_of_isElement sha3 _ true (by simp [Input.isElement, hl0, hl1])]
    simp [processedLeaves, inputBuffers, getLayers, getLayersLoop, getNextLayer_eq_pairUp, pairUp,
      Input.truthy, Input.toBuffer?, combinedHash, MerkleTree.getRoot, Except.map]

/-! ## The layers end in the root -/

theorem layersFrom_fuel_add (sha3 : Buffer → Buffer) (preserveOrder : Bool) (extra : Nat)
    (fuel : Nat) :
    ∀ l : List Value, l.length ≤ fuel + 1 →
      layersFrom sha3 preserveOrder (fuel + extra) l = layersFrom sha3 preserveOrder fuel l := by
  induction fuel with
  | zero =>
    intro l hlen
    cases extra with
    | zero => rfl
    | succ extra =>
      have h1 : ¬ l.length > 1 := by omega
      simp [layersFrom, h1]
  | succ fuel ih =>
    intro l hlen
    rw [show fuel + 1 + extra = (fuel + extra) + 1 by omega]
    simp only [layersFrom]
    by_cases h1 : l.length > 1
    · simp only [h1, if_true]
      rw [ih]
      rw [getNextLayer_length]
      omega
    · simp only [h1, if_false]

/-- C12: for every leaf list and either mode, more fuel than the number of leaves does not
change what the loop of getLayers returns (the loop has ended by its own condition); the last
layer of getLayers has exactly one entry; for a tree the constructor returns, getRoot returns
that entry; and when the list of processed leaves is not empty, layers[0] is that list. -/
theorem getLayers_ends_in_root (sha3 : Buffer → Buffer) (elements : List Value)
    (preserveOrder : Bool) (extra : Nat) (input : List Input) (t : MerkleTree) :
    getLayersLoop sha3 preserveOrder (elements.length + extra) [elements] =
        getLayersLoop sha3 preserveOrder elements.length [elements] ∧
      (∃ r, (getLayers sha3 elements preserveOrder).getLast? = some [r]) ∧
      (MerkleTree.new sha3 input preserveOrder = Except.ok t →
        ∃ r, t.layers.getLast? = some [r] ∧ t.getRoot = r) ∧
      (elements ≠ [] → (getLayers sha3 elements preserveOrder).getD 0 [] = elements) ∧
      (MerkleTree.new sha3 input preserveOrder = Except.ok t → t.elements ≠ [] →
        t.layers.getD 0 [] = t.elements.map Value.buf) := by
  refine ⟨?_, getLayers_getLast sha3 elements preserveOrder, ?_, ?_, ?_⟩
  · have h1 := getLayersLoop_eq sha3 preserveOrder (elements.length + extra) [] elements
    have h2 := getLayersLoop_eq sha3 preserveOrder elements.length [] elements
    simp only [List.nil_append] at h1 h2
    rw [h1, h2]
    by_cases hne : elements = []
    · subst hne
      cases extra <;> simp [layersFrom]
    · have hpos : 0 < elements.length := List.length_pos.2 hne
      have := layersFrom_fuel_add sha3 preserveOrder (extra + 1) (elements.length - 1) elements
        (by omega)
      rw [show elements.length - 1 + (extra + 1) = elements.length + extra by omega] at this
      rw [this]
      have h3 := layersFrom_fuel_add sha3 preserveOrder 1 (elements.length - 1) elements
        (by omega)
      rw [show elements.length - 1 + 1 = elements.length by omega] at h3
      rw [h3]
  · intro hbuild
    have ht := MerkleTree.new_ok sha3 input preserveOrder t hbuild
    subst ht
    obtain ⟨r, hr⟩ := getLayers_getLast sha3
      ((processedLeaves input preserveOrder).map Value.buf) preserveOrder
    exact ⟨r, hr, getRoot_of_getLast _ r hr⟩
  · intro hne
    rw [getLayers_eq sha3 elements preserveOrder hne, layersFrom_getD_zero]
  · intro hbuild hne
    have ht := MerkleTree.new_ok sha3 input preserveOrder t hbuild
    subst ht
    have hne2 : (processedLeaves input preserveOrder).map Value.buf ≠ [] := by
      simpa using hne
    simp only [getLayers_eq sha3 _ preserveOrder hne2, layersFrom_getD_zero]

/-! ## The next layer -/

/-- C13: for every layer of length L and either mode, getNextLayer returns a layer of length
ceil(L / 2) = (L + 1) / 2; its entry i is combinedHash(layer[2i], layer[2i+1], preserveOrder)
whenever 2i + 1 < L; and when L is odd its last entry, at position (L - 1) / 2, is layer[L - 1]
itself. -/
theorem getNextLayer_shape (sha3 : Buffer → Buffer) (layer : List Value)
    (preserveOrder : Bool) :
    (getNextLayer sha3 layer preserveOrder).length = (layer.length + 1) / 2 ∧
      (2 * (getNextLayer sha3 layer preserveOrder).length = layer.length ∨
        2 * (getNextLayer sha3 layer preserveOrder).length = layer.length + 1) ∧
      (∀ i, 2 * i + 1 < layer.length →
        (getNextLayer sha3 layer preserveOrder).get? i =
          some (combinedHash sha3 (layer.getD (2 * i) Value.undefined)
            (layer.getD (2 * i + 1) Value.undefined) preserveOrder)) ∧
      (layer.length % 2 = 1 →
        (getNextLayer sha3 layer preserveOrder).get? ((layer.length - 1) / 2) =
            layer.get? (layer.length - 1) ∧
          (getNextLayer sha3 layer preserveOrder).getLast? = layer.getLast?) := by
  have hlen := getNextLayer_length sha3 layer preserveOrder
  have hget : ∀ i, 2 * i < layer.length →
      (getNextLayer sha3 layer preserveOrder).get? i =
        some (combinedHash sha3 (layer.getD (2 * i) Value.undefined)
          (layer.getD (2 * i + 1) Value.undefined) preserveOrder) := by
    intro i hi
    have hlt : i < (getNextLayer sha3 layer preserveOrder).length := by
      rw [hlen]
      omega
    rw [← getNextLayer_getD sha3 layer preserveOrder i hi, List.get?_eq_getElem?,
      List.getD_eq_getElem _ _ hlt, List.getElem?_eq_getElem hlt]
  have hodd : layer.length % 2 = 1 →
      (getNextLayer sha3 layer preserveOrder).get? ((layer.length - 1) / 2) =
        layer.get? (layer.length - 1) := by
    intro h
    rw [hget ((layer.length - 1) / 2) (by omega)]
    have h1 : 2 * ((layer.length - 1) / 2) = layer.length - 1 := by omega
    have h2 : layer.getD (layer.length - 1 + 1) Value.undefined = Value.undefined :=
      List.getD_eq_default _ _ (by omega)
    have h3 : layer.length - 1 < layer.length := by omega
    rw [h1, h2, combinedHash_undefined, List.getD_eq_getElem _ _ h3, List.get?_eq_getElem?,
      List.getElem?_eq_getElem h3]
  refine ⟨hlen, by omega, fun i hi => hget i (by omega), fun h => ⟨hodd h, ?_⟩⟩
  rw [List.getLast?_eq_getElem?, List.getLast?_eq_getElem?, hlen, ← List.get?_eq_getElem?,
    ← List.get?_eq_getElem?, ← hodd h]
  congr 1
  omega

/-! ## The unordered combination -/

theorem bufSortJoin_pair (a b : Buffer) :
    bufSortJoin [a, b] = if Buffer.compare a b ≤ 0 then a ++ b else b ++ a := by
  simp only [bufSortJoin, bufSort, List.insertionSort, List.orderedInsert]
  by_cases h : bufLE a b
  · have h2 : Buffer.compare a b ≤ 0 := h
    simp [h, h2]
  · have h2 : ¬ Buffer.compare a b ≤ 0 := h
    simp [h, h2]

/-- C15: for all Buffers a and b, combinedHash(a, b, false) equals combinedHash(b, a, false);
both are the digest of bufSortJoin(a, b), the two Buffers joined with the one that
Buffer.compare puts first in front, and bufSortJoin(a, b) equals bufSortJoin(b, a). -/
theorem combinedHash_unordered_comm (sha3 : Buffer → Buffer) (a b : Buffer) :
    combinedHash sha3 (Value.buf a) (Value.buf b) false =
        combinedHash sha3 (Value.buf b) (Value.buf a) false ∧
      combinedHash sha3 (Value.buf a) (Value.buf b) false =
        Value.buf (sha3 (bufSortJoin [a, b])) ∧
      bufSortJoin [a, b] = bufSortJoin [b, a] ∧
      bufSortJoin [a, b] = (if Buffer.compare a b ≤ 0 then a ++ b else b ++ a) :=
  ⟨combinedHash_comm sha3 _ _ rfl rfl, by simp [combinedHash], bufSortJoin_comm a b,
    bufSortJoin_pair a b⟩

/-! ## Small trees -/

theorem single_leaf_tree (sha3 : Buffer → Buffer) (h : Buffer) (preserveOrder : Bool)
    (hl : h.length = 32) :
    MerkleTree.new sha3 [Input.buf h] preserveOrder =
      Except.ok (MerkleTree.mk [h] preserveOrder [[Value.buf h]]) := by
  rw [MerkleTree.new_of_isElement sha3 _ _ (by simp [Input.isElement, hl])]
  cases preserveOrder <;>
    simp [processedLeaves, inputBuffers, Input.truthy, Input.toBuffer?, bufDedup, getBufIndex,
      getBufIndexFrom, bufSort, getLayers, getLayersLoop]

/-- C16: for every 32-byte element h and either mode, the tree of [h] has the single layer [h];
merkleRoot([h]) and getRoot() are h itself; getProof(h) and getProofOrdered(h, 1) are the empty
proof; and checkProof([], root, h) and checkProofOrdered([], root, h, 1) return true. -/
theorem single_element_tree (sha3 : Buffer → Buffer) (h : Buffer) (preserveOrder : Bool)
    (hl : h.length = 32) :
    ∃ t, MerkleTree.new sha3 [Input.buf h] preserveOrder = Except.ok t ∧
      t.layers = [[Value.buf h]] ∧
      merkleRoot sha3 [Input.buf h] preserveOrder = Except.ok (Value.buf h) ∧
      t.getRoot = Value.buf h ∧
      t.getProof h = Except.ok [] ∧
      t.getProofOrdered h 1 = Except.ok [] ∧
      checkProof sha3 [] t.getRoot (Value.buf h) = Except.ok true ∧
      checkProofOrdered sha3 [] t.getRoot (Value.buf h) 1 = Except.ok true := by
  refine ⟨_, single_leaf_tree sha3 h preserveOrder hl, rfl, ?_, rfl, ?_, ?_, ?_, ?_⟩
  · simp only [merkleRoot, single_leaf_tree sha3 h preserveOrder hl]
    rfl
  · simp [MerkleTree.getProof, getBufIndex, getBufIndexFrom, getProof, getPair, Value.truthy]
  · simp [MerkleTree.getProofOrdered, arrayGet, getProof, getPair, Value.truthy]
  · simp [checkProof, MerkleTree.getRoot, Value.equals]
  · simp [checkProofOrdered, checkProofOrderedLoop, MerkleTree.getRoot, Value.equals]

/-- The tree of a single element, at a leaf of the tests and the identity digest. -/
theorem single_element_tree_witness :
    (repeated 120).length = 32 ∧
      ∃ t, MerkleTree.new plainDigest [Input.buf (repeated 120)] false = Except.ok t ∧
        t.layers = [[Value.buf (repeated 120)]] ∧
        merkleRoot plainDigest [Input.buf (repeated 120)] false =
          Except.ok (Value.buf (repeated 120)) ∧
        t.getRoot = Value.buf (repeated 120) ∧
        t.getProof (repeated 120) = Except.ok [] ∧
        t.getProofOrdered (repeated 120) 1 = Except.ok [] ∧
        checkProof plainDigest [] t.getRoot (Value.buf (repeated 120)) = Except.ok true ∧
        checkProofOrdered plainDigest [] t.getRoot (Value.buf (repeated 120)) 1 =
          Except.ok true :=
  ⟨rfl, single_element_tree plainDigest (repeated 120) false rfl⟩

theorem bufDedup_pair (a b : Buffer) (hne : a ≠ b) : bufDedup [a, b] = [a, b] := by
  have hba : ¬ b = a := fun h => hne h.symm
  simp [bufDedup, getBufIndex, getBufIndexFrom, List.enum, hba]

theorem two_leaf_tree (sha3 : Buffer → Buffer) (a b : Buffer) (hla : a.length = 32)
    (hlb : b.length = 32) (hne : a ≠ b) :
    MerkleTree.new sha3 [Input.buf a, Input.buf b] false =
      Except.ok (MerkleTree.mk (bufSort [a, b]) false
        [(bufSort [a, b]).map Value.buf, [Value.buf (sha3 (bufSortJoin [a, b]))]]) := by
  rw [MerkleTree.new_of_isElement sha3 _ _ (by simp [Input.isElement, hla, hlb])]
  have hp : processedLeaves [Input.buf a, Input.buf b] false = bufSort [a, b] := by
    simp [processedLeaves, inputBuffers, Input.truthy, Input.toBuffer?, bufDedup_pair a b hne]
  rw [hp]
  by_cases h : bufLE a b
  · have hs : bufSort [a, b] = [a, b] := by
      simp [bufSort, List.insertionSort, List.orderedInsert, h]
    simp [hs, getLayers, getLayersLoop, getNextLayer_eq_pairUp, pairUp, combinedHash]
  · have hs : bufSort [a, b] = [b, a] := by
      simp [bufSort, List.insertionSort, List.orderedInsert, h]
    simp [hs, getLayers, getLayersLoop, getNextLayer_eq_pairUp, pairUp, combinedHash,
      bufSortJoin_comm b a]

theorem two_leaf_proofs (sha3 : Buffer → Buffer) (a b : Buffer) (hne : a ≠ b) :
    (MerkleTree.mk (bufSort [a, b]) false
        [(bufSort [a, b]).map Value.buf, [Value.buf (sha3 (bufSortJoin [a, b]))]]).getProof a =
        Except.ok [Value.buf b] ∧
      (MerkleTree.mk (bufSort [a, b]) false
        [(bufSort [a, b]).map Value.buf, [Value.buf (sha3 (bufSortJoin [a, b]))]]).getProof b =
        Except.ok [Value.buf a] := by
  have hba : ¬ b = a := fun h => hne h.symm
  by_cases h : bufLE a b
  · have hs : bufSort [a, b] = [a, b] := by
      simp [bufSort, List.insertionSort, List.orderedInsert, h]
    simp [hs, MerkleTree.getProof, getBufIndex, getBufIndexFrom, getProof, getPair,
      Value.truthy, hba]
  · have hs : bufSort [a, b] = [b, a] := by
      simp [bufSort, List.insertionSort, List.orderedInsert, h]
    simp [hs, MerkleTree.getProof, getBufIndex, getBufIndexFrom, getProof, getPair,
      Value.truthy, hne]

/-- C17: for every two distinct 32-byte elements a and b, the unordered trees of [a, b] and of
[b, a] are the same tree; its root is the digest of bufSortJoin(a, b), the two elements joined
with the one Buffer.compare puts first in front; getProof(a) is [b] and getProof(b) is [a];
and checkProof accepts both proofs against that root. -/
theorem two_leaf_unordered (sha3 : Buffer → Buffer) (a b : Buffer) (hla : a.length = 32)
    (hlb : b.length = 32) (hne : a ≠ b) :
    ∃ t, MerkleTree.new sha3 [Input.buf a, Input.buf b] false = Except.ok t ∧
      MerkleTree.new sha3 [Input.buf b, Input.buf a] false = Except.ok t ∧
      t.getRoot = Value.buf (sha3 (bufSortJoin [a, b])) ∧
      bufSortJoin [a, b] = (if Buffer.compare a b ≤ 0 then a ++ b else b ++ a) ∧
      t.getProof a = Except.ok [Value.buf b] ∧
      t.getProof b = Except.ok [Value.buf a] ∧
      checkProof sha3 [Value.buf b] t.getRoot (Value.buf a) = Except.ok true ∧
      checkProof sha3 [Value.buf a] t.getRoot (Value.buf b) = Except.ok true := by
  have hswap : MerkleTree.new sha3 [Input.buf b, Input.buf a] false =
      MerkleTree.new sha3 [Input.buf a, Input.buf b] false :=
    MerkleTree.new_congr sha3 _ _ (fun x => by simp; tauto)
  refine ⟨_, two_leaf_tree sha3 a b hla hlb hne, ?_, rfl, bufSortJoin_pair a b,
    (two_leaf_proofs sha3 a b hne).1, (two_leaf_proofs sha3 a b hne).2, ?_, ?_⟩
  · rw [hswap]
    exact two_leaf_tree sha3 a b hla hlb hne
  · simp [checkProof, MerkleTree.getRoot, combinedHash, Value.equals]
  · simp [checkProof, MerkleTree.getRoot, combinedHash, Value.equals, bufSortJoin_comm b a]

/-- The unordered tree of the two leaves of the tests, at the identity digest. -/
theorem two_leaf_unordered_witness :
    ((repeated 97).length = 32 ∧ (repeated 98).length = 32 ∧ repeated 97 ≠ repeated 98) ∧
      ∃ t, MerkleTree.new plainDigest [Input.buf (repeated 97), Input.buf (repeated 98)] false =
          Except.ok t ∧
        MerkleTree.new plainDigest [Input.buf (repeated 98), Input.buf (repeated 97)] false =
          Except.ok t ∧
        t.getRoot = Value.buf (plainDigest (bufSortJoin [repeated 97, repeated 98])) ∧
        bufSortJoin [repeated 97, repeated 98] =
          (if Buffer.compare (repeated 97) (repeated 98) ≤ 0 then repeated 97 ++ repeated 98
            else repeated 98 ++ repeated 97) ∧
        t.getProof (repeated 97) = Except.ok [Value.buf (repeated 98)] ∧
        t.getProof (repeated 98) = Except.ok [Value.buf (repeated 97)] ∧
        checkProof plainDigest [Value.buf (repeated 98)] t.getRoot (Value.buf (repeated 97)) =
          Except.ok true ∧
        checkProof plainDigest [Value.buf (repeated 97)] t.getRoot (Value.buf (repeated 98)) =
          Except.ok true :=
  ⟨⟨rfl, rfl, by decide⟩,
    two_leaf_unordered plainDigest (repeated 97) (repeated 98) rfl rfl (by decide)⟩

/-- C18: for every three 32-byte elements h0, h1, h2 (equal ones allowed), with
h01 = sha3(h0 ++ h1), the ordered tree has the root sha3(h01 ++ h2); the proofs of the 1-based
positions 1, 2 and 3 are [h1, h2], [h0, h2] and [h01]; and checkProofOrdered accepts each proof
with its own index. -/
theorem three_leaf_ordered (sha3 : Buffer → Buffer) (h0 h1 h2 : Buffer)
    (hl0 : h0.length = 32) (hl1 : h1.length = 32) (hl2 : h2.length = 32) :
    ∃ t, MerkleTree.new sha3 [Input.buf h0, Input.buf h1, Input.buf h2] true = Except.ok t ∧
      t.getRoot = Value.buf (sha3 (sha3 (h0 ++ h1) ++ h2)) ∧
      t.getProofOrdered h0 1 = Except.ok [Value.buf h1, Value.buf h2] ∧
      t.getProofOrdered h1 2 = Except.ok [Value.buf h0, Value.buf h2] ∧
      t.getProofOrdered h2 3 = Except.ok [Value.buf (sha3 (h0 ++ h1))] ∧
      checkProofOrdered sha3 [Value.buf h1, Value.buf h2] t.getRoot (Value.buf h0) 1 =
        Except.ok true ∧
      checkProofOrdered sha3 [Value.buf h0, Value.buf h2] t.getRoot (Value.buf h1) 2 =
        Except.ok true ∧
      checkProofOrdered sha3 [Value.buf (sha3 (h0 ++ h1))] t.getRoot (Value.buf h2) 3 =
        Except.ok true := by
  refine ⟨_, three_leaf_tree sha3 h0 h1 h2 hl0 hl1 hl2, ?_, ?_, ?_, ?_, ?_, ?_, ?_⟩
  · simp [MerkleTree.getRoot, combinedHash, bufJoin]
  · simp [MerkleTree.getProofOrdered, arrayGet, getProof, getPair, Value.truthy, combinedHash]
  · simp [MerkleTree.getProofOrdered, arrayGet, getProof, getPair, Value.truthy, combinedHash]
  · simp [MerkleTree.getProofOrdered, arrayGet, getProof, getPair, Value.truthy, combinedHash,
      bufJoin]
  · simp [checkProofOrdered, checkProofOrderedLoop, adjustIndex, MerkleTree.getRoot,
      combinedHash, Value.equals]
  · simp [checkProofOrdered, checkProofOrderedLoop, adjustIndex, MerkleTree.getRoot,
      combinedHash, Value.equals]
  · simp [checkProofOrdered, checkProofOrderedLoop, adjustIndex, MerkleTree.getRoot,
      combinedHash, Value.equals, bufJoin]

/-- The ordered tree of three leaves with a repeated one, as in the test 'three -- duplicates
are preserved', at the identity digest. -/
theorem three_leaf_ordered_witness :
    ((repeated 97).length = 32 ∧ (repeated 98).length = 32) ∧
      ∃ t, MerkleTree.new plainDigest
          [Input.buf (repeated 97), Input.buf (repeated 98), Input.buf (repeated 97)] true =
          Except.ok t ∧
        t.getRoot =
          Value.buf (plainDigest (plainDigest (repeated 97 ++ repeated 98) ++ repeated 97)) ∧
        t.getProofOrdered (repeated 97) 1 =
          Except.ok [Value.buf (repeated 98), Value.buf (repeated 97)] ∧
        t.getProofOrdered (repeated 98) 2 =
          Except.ok [Value.buf (repeated 97), Value.buf (repeated 97)] ∧
        t.getProofOrdered (repeated 97) 3 =
          Except.ok [Value.buf (plainDigest (repeated 97 ++ repeated 98))] ∧
        checkProofOrdered plainDigest [Value.buf (repeated 98), Value.buf (repeated 97)]
          t.getRoot (Value.buf (repeated 97)) 1 = Except.ok true ∧
        checkProofOrdered plainDigest [Value.buf (repeated 97), Value.buf (repeated 97)]
          t.getRoot (Value.buf (repeated 98)) 2 = Except.ok true ∧
        checkProofOrdered plainDigest [Value.buf (plainDigest (repeated 97 ++ repeated 98))]
          t.getRoot (Value.buf (repeated 97)) 3 = Except.ok true :=
  ⟨⟨rfl, rfl⟩, three_leaf_ordered plainDigest (repeated 97) (repeated 98) (repeated 97) rfl rfl rfl⟩

/-! ## The length of a proof -/

theorem getPair_truthy_iff (l : List Value) (hl : ∀ v ∈ l, v.truthy = true) (i : Nat)
    (hi : i < l.length) : (getPair i l).truthy = true ↔ promotedAt i l = false := by
  rcases Nat.mod_two_eq_zero_or_one i with h | h
  · rw [getPair_even i l h]
    by_cases hlt : i + 1 < l.length
    · have hp : promotedAt i l = false := by
        simp only [promotedAt, Bool.and_eq_false_iff, beq_eq_false_iff_ne, ne_eq]
        exact Or.inr (by omega)
      rw [if_pos hlt, hp]
      exact ⟨fun _ => rfl, fun _ => getD_truthy l hl (i + 1) hlt⟩
    · have hp : promotedAt i l = true := by
        simp only [promotedAt, Bool.and_eq_true, beq_iff_eq]
        exact ⟨by omega, by omega⟩
      rw [if_neg hlt, hp]
      simp [Value.truthy]
  · rw [getPair_odd i l h hi]
    have hp : promotedAt i l = false := by
      simp only [promotedAt, Bool.and_eq_false_iff, beq_eq_false_iff_ne, ne_eq]
      omega
    rw [hp]
    exact ⟨fun _ => rfl, fun _ => getD_truthy l hl (i - 1) (by omega)⟩

theorem layersFrom_ne_nil (sha3 : Buffer → Buffer) (preserveOrder : Bool) (fuel : Nat)
    (l : List Value) : layersFrom sha3 preserveOrder fuel l ≠ [] := by
  cases fuel with
  | zero => simp [layersFrom]
  | succ fuel =>
    simp only [layersFrom]
    split_ifs <;> simp

theorem getProof_length_layersFrom (sha3 : Buffer → Buffer) (preserveOrder : Bool)
    (fuel : Nat) :
    ∀ (l : List Value) (i : Nat), l.length ≤ fuel + 1 → i < l.length →
      (∀ v ∈ l, v.truthy = true) →
      (getProof i (layersFrom sha3 preserveOrder fuel l)).length +
          promotions i (layersFrom sha3 preserveOrder fuel l).dropLast =
        (layersFrom sha3 preserveOrder fuel l).length - 1 := by
  induction fuel with
  | zero =>
    intro l i hlen hi hl
    match l, hlen, hi, hl with
    | [r], _, hi, hl =>
      have : i = 0 := by simp at hi; omega
      subst this
      simp [layersFrom, getProof_cons, getProof_nil, getPair, Value.truthy, promotions]
  | succ fuel ih =>
    intro l i hlen hi hl
    by_cases h1 : l.length > 1
    · have hnext := getNextLayer_length sha3 l preserveOrder
      have hih := ih (getNextLayer sha3 l preserveOrder) (i / 2)
        (by rw [hnext]; omega) (by rw [hnext]; omega)
        (getNextLayer_truthy sha3 l preserveOrder hl)
      have hne := layersFrom_ne_nil sha3 preserveOrder fuel (getNextLayer sha3 l preserveOrder)
      have hpos : 0 < (layersFrom sha3 preserveOrder fuel
          (getNextLayer sha3 l preserveOrder)).length := List.length_pos.2 hne
      simp only [layersFrom, h1, if_true, getProof_cons, List.length_append,
        List.dropLast_cons_of_ne_nil hne, promotions, List.length_cons]
      have hiff := getPair_truthy_iff l hl i hi
      by_cases hp : promotedAt i l = true
      · have hnt : ¬ (getPair i l).truthy = true := by
          rw [hiff, hp]
          simp
        rw [if_neg hnt]
        simp only [hp, if_true, List.length_nil]
        omega
      · have hpf : promotedAt i l = false := by simpa using hp
        have ht : (getPair i l).truthy = true := hiff.2 hpf
        rw [if_pos ht]
        simp only [hpf, List.length_singleton, Bool.false_eq_true, if_false]
        omega
    · match l, h1, hi, hl with
      | [r], _, hi, hl =>
        have : i = 0 := by simp at hi; omega
        subst this
        simp [layersFrom, getProof_cons, getProof_nil, getPair, Value.truthy, promotions]
      | _ :: _ :: _, h1, _, _ => exact absurd (by simp) h1

theorem promotions_pos_iff (layers : List (List Value)) :
    ∀ i : Nat, 0 < promotions i layers ↔
      ∃ k, k < layers.length ∧ promotedAt (i / 2 ^ k) (layers.getD k []) = true := by
  induction layers with
  | nil => intro i; simp [promotions]
  | cons l rest ih =>
    intro i
    simp only [promotions, List.length_cons]
    constructor
    · intro h
      by_cases hp : promotedAt i l = true
      · exact ⟨0, by omega, by simpa using hp⟩
      · simp only [hp, if_false, Nat.zero_add, Bool.false_eq_true] at h
        obtain ⟨k, hk, hpk⟩ := (ih (i / 2)).1 h
        refine ⟨k + 1, by omega, ?_⟩
        rw [List.getD_cons_succ, pow_succ, Nat.mul_comm, ← Nat.div_div_eq_div_mul]
        exact hpk
    · rintro ⟨k, hk, hpk⟩
      cases k with
      | zero =>
        have hp : promotedAt i l = true := by simpa using hpk
        simp [hp]
      | succ k =>
        rw [List.getD_cons_succ, pow_succ, Nat.mul_comm, ← Nat.div_div_eq_div_mul] at hpk
        have := (ih (i / 2)).2 ⟨k, by omega, hpk⟩
        omega

/-- C14: for every tree the constructor returns, in either mode, with at least one leaf, and
every leaf position i, the proof extracted at i has as many entries as there are layers below
the root, less the number of those layers at which the node on the path of the leaf (at
position i / 2^k in layer k) is the unpaired last node of an odd-length layer; so its length is
at most layers.length - 1, and is less exactly when there is such a layer. -/
theorem proof_length (sha3 : Buffer → Buffer) (input : List Input) (preserveOrder : Bool)
    (t : MerkleTree) (i : Nat)
    (hbuild : MerkleTree.new sha3 input preserveOrder = Except.ok t)
    (hi : i < t.elements.length) :
    (getProof i t.layers).length + promotions i t.layers.dropLast = t.layers.length - 1 ∧
      (getProof i t.layers).length ≤ t.layers.length - 1 ∧
      ((getProof i t.layers).length < t.layers.length - 1 ↔
        ∃ k, k < t.layers.length - 1 ∧
          promotedAt (i / 2 ^ k) (t.layers.getD k []) = true) := by
  have ht := MerkleTree.new_ok sha3 input preserveOrder t hbuild
  subst ht
  simp only at hi ⊢
  have hne : (processedLeaves input preserveOrder).map Value.buf ≠ [] := by
    intro h
    rw [List.map_eq_nil_iff] at h
    rw [h] at hi
    simp at hi
  have htruthy : ∀ v ∈ (processedLeaves input preserveOrder).map Value.buf,
      v.truthy = true := by
    intro v hv
    obtain ⟨b, _, rfl⟩ := List.mem_map.1 hv
    rfl
  rw [getLayers_eq sha3 _ preserveOrder hne]
  have hmain := getProof_length_layersFrom sha3 preserveOrder
    ((processedLeaves input preserveOrder).map Value.buf).length
    ((processedLeaves input preserveOrder).map Value.buf) i (by omega) (by simpa using hi)
    htruthy
  have hpos := promotions_pos_iff
    (layersFrom sha3 preserveOrder ((processedLeaves input preserveOrder).map Value.buf).length
      ((processedLeaves input preserveOrder).map Value.buf)).dropLast i
  refine ⟨hmain, by omega, ?_⟩
  constructor
  · intro hlt
    obtain ⟨k, hk, hpk⟩ := hpos.1 (by omega)
    rw [List.length_dropLast] at hk
    refine ⟨k, hk, ?_⟩
    rw [List.getD_eq_getElem?_getD, List.getElem?_dropLast] at hpk
    simp only [hk, if_true] at hpk
    rw [List.getD_eq_getElem?_getD]
    exact hpk
  · rintro ⟨k, hk, hpk⟩
    have : 0 < promotions i (layersFrom sha3 preserveOrder
        ((processedLeaves input preserveOrder).map Value.buf).length
        ((processedLeaves input preserveOrder).map Value.buf)).dropLast := by
      refine hpos.2 ⟨k, by rw [List.length_dropLast]; exact hk, ?_⟩
      rw [List.getD_eq_getElem?_getD, List.getElem?_dropLast]
      simp only [hk, if_true]
      rw [List.getD_eq_getElem?_getD] at hpk
      exact hpk
    omega

/-! ## The sides of an ordered proof -/

theorem checkProofOrderedLoop_eq_foldSides (sha3 : Buffer → Buffer) (proof : List Value) :
    ∀ (tempHash : Value) (index : Nat),
      checkProofOrderedLoop sha3 proof tempHash index =
        foldSides sha3 proof (checkSides proof.length index) tempHash := by
  induction proof with
  | nil => intro tempHash index; rfl
  | cons p rest ih =>
    intro tempHash index
    simp only [checkProofOrderedLoop, List.length_cons, checkSides, foldSides]
    rw [ih]

/-- One layer of the ordered fold. -/
theorem ordered_step (sha3 : Buffer → Buffer) (l : List Value)
    (hl : ∀ v ∈ l, v.truthy = true) (i : Nat) (hi : i < l.length) (sides : List Bool)
    (rest : List Value) :
    foldSides sha3 ((if (getPair i l).truthy then [getPair i l] else []) ++ rest)
        ((if i % 2 = 1 then [true] else if i + 1 < l.length then [false] else []) ++ sides)
        (l.getD i Value.undefined) =
      foldSides sha3 rest sides ((getNextLayer sha3 l true).getD (i / 2) Value.undefined) := by
  rw [getNextLayer_getD sha3 l true (i / 2) (by omega)]
  rcases Nat.mod_two_eq_zero_or_one i with h | h
  · have h2 : 2 * (i / 2) = i := by omega
    have hne : ¬ i % 2 = 1 := by omega
    rw [getPair_even i l h, h2, if_neg hne]
    by_cases hlt : i + 1 < l.length
    · have ht := getD_truthy l hl (i + 1) hlt
      rw [if_pos hlt, if_pos hlt, if_pos ht]
      simp [foldSides]
    · have hd : l.getD (i + 1) Value.undefined = Value.undefined :=
        List.getD_eq_default _ _ (by omega)
      rw [if_neg hlt, if_neg hlt, hd, combinedHash_undefined]
      simp [Value.truthy]
  · have h2 : 2 * (i / 2) = i - 1 := by omega
    have ht := getD_truthy l hl (i - 1) (by omega)
    rw [getPair_odd i l h hi, h2, show i - 1 + 1 = i by omega, if_pos h, if_pos ht]
    simp [foldSides]

theorem length_pair_eq_length_side (l : List Value) (hl : ∀ v ∈ l, v.truthy = true) (i : Nat)
    (hi : i < l.length) :
    (if (getPair i l).truthy then [getPair i l] else []).length =
      (if i % 2 = 1 then [true] else if i + 1 < l.length then [false] else []).length := by
  rcases Nat.mod_two_eq_zero_or_one i with h | h
  · have hne : ¬ i % 2 = 1 := by omega
    rw [getPair_even i l h, if_neg hne]
    by_cases hlt : i + 1 < l.length
    · rw [if_pos hlt, if_pos hlt, if_pos (getD_truthy l hl (i + 1) hlt)]
      rfl
    · rw [if_neg hlt, if_neg hlt]
      simp [Value.truthy]
  · rw [getPair_odd i l h hi, if_pos h, if_pos (getD_truthy l hl (i - 1) (by omega))]
    rfl

/-- Folding the proof of the node at `i` with the sides of the tree ends at the single entry
of the last layer. -/
theorem ordered_fold (sha3 : Buffer → Buffer) (fuel : Nat) :
    ∀ (l : List Value) (i : Nat), l.length ≤ fuel + 1 → i < l.length →
      (∀ v ∈ l, v.truthy = true) →
      ∃ r, (layersFrom sha3 true fuel l).getLast? = some [r] ∧ r.truthy = true ∧
        (getProof i (layersFrom sha3 true fuel l)).length =
          (treeSides fuel l.length i).length ∧
        foldSides sha3 (getProof i (layersFrom sha3 true fuel l)) (treeSides fuel l.length i)
          (l.getD i Value.undefined) = r := by
  induction fuel with
  | zero =>
    intro l i hlen hi hl
    match l, hlen, hi, hl with
    | [r], _, hi, hl =>
      have : i = 0 := by simp at hi; omega
      subst this
      exact ⟨r, by simp [layersFrom], hl r (by simp), by
        simp [layersFrom, getProof_cons, getProof_nil, getPair, Value.truthy, treeSides], by
        simp [layersFrom, getProof_cons, getProof_nil, getPair, Value.truthy, treeSides,
          foldSides]⟩
  | succ fuel ih =>
    intro l i hlen hi hl
    by_cases h1 : l.length > 1
    · have hnext := getNextLayer_length sha3 l true
      obtain ⟨r, hlast, hr, hlength, hfold⟩ := ih (getNextLayer sha3 l true) (i / 2)
        (by rw [hnext]; omega) (by rw [hnext]; omega) (getNextLayer_truthy sha3 l true hl)
      refine ⟨r, ?_, hr, ?_, ?_⟩
      · simp only [layersFrom, h1, if_true]
        rw [List.getLast?_cons, hlast]
        rfl
      · simp only [layersFrom, treeSides, h1, if_true, getProof_cons, List.length_append]
        rw [length_pair_eq_length_side l hl i hi, hlength, hnext]
      · simp only [layersFrom, treeSides, h1, if_true, getProof_cons]
        rw [ordered_step sha3 l hl i hi, ← hnext]
        exact hfold
    · match l, h1, hi, hl with
      | [r], _, hi, hl =>
        have : i = 0 := by simp at hi; omega
        subst this
        exact ⟨r, by simp [layersFrom], hl r (by simp), by
          simp [layersFrom, getProof_cons, getProof_nil, getPair, Value.truthy, treeSides], by
          simp [layersFrom, getProof_cons, getProof_nil, getPair, Value.truthy, treeSides,
            foldSides]⟩
      | _ :: _ :: _, h1, _, _ => exact absurd (by simp) h1

/-- The ordered round trip holds at every leaf where the sides `checkProofOrdered` derives from
the index are the sides of the tree. -/
theorem ordered_round_trip_of_sides (sha3 : Buffer → Buffer) (leaves : List Buffer) (i : Nat)
    (e : Buffer) (hget : leaves.get? i = some e)
    (hsides : checkSides (treeSides leaves.length leaves.length i).length (i + 1) =
      treeSides leaves.length leaves.length i) :
    ∃ proof,
      (MerkleTree.mk leaves true (getLayers sha3 (leaves.map Value.buf) true)).getProofOrdered e
          ((i : Int) + 1) = Except.ok proof ∧
      checkProofOrdered sha3 proof
        (MerkleTree.mk leaves true (getLayers sha3 (leaves.map Value.buf) true)).getRoot
        (Value.buf e) (i + 1) = Except.ok true := by
  have hi : i < leaves.length := (List.get?_eq_some.1 hget).1
  have hne : leaves.map Value.buf ≠ [] := by
    intro h
    rw [List.map_eq_nil_iff] at h
    rw [h] at hi
    simp at hi
  have htruthy : ∀ v ∈ leaves.map Value.buf, v.truthy = true := by
    intro v hv
    obtain ⟨b, _, rfl⟩ := List.mem_map.1 hv
    rfl
  obtain ⟨r, hlast, hr, hlength, hfold⟩ := ordered_fold sha3 (leaves.map Value.buf).length
    (leaves.map Value.buf) i (by omega) (by simpa using hi) htruthy
  have hgetD : (leaves.map Value.buf).getD i Value.undefined = Value.buf e := by
    rw [List.getD_eq_getElem?_getD, List.getElem?_map, ← List.get?_eq_getElem?, hget]
    rfl
  rw [← getLayers_eq sha3 _ true hne, hgetD] at hfold
  rw [← getLayers_eq sha3 _ true hne] at hlast hlength
  simp only [List.length_map] at hfold hlength
  refine ⟨getProof i (getLayers sha3 (leaves.map Value.buf) true), ?_, ?_⟩
  · have harr : arrayGet leaves (i : Int) = some e := by
      unfold arrayGet
      rw [if_pos (by omega)]
      simpa using hget
    simp [MerkleTree.getProofOrdered, harr]
  · rw [getRoot_of_getLast _ r hlast]
    simp only [checkProofOrdered, checkProofOrderedLoop_eq_foldSides, hlength, hsides, hfold]
    exact Value.equals_self r hr

theorem sides_agree_up_to_ten :
    ∀ n, n < 11 → ∀ i, i < n → checkSides (treeSides n n i).length (i + 1) = treeSides n n i := by
  decide

theorem processedLeaves_map_buf_true (bs : List Buffer) :
    processedLeaves (bs.map Input.buf) true = bs := by
  simp [processedLeaves, inputBuffers_map_buf]

/-- C19: for every list of n 32-byte elements with 1 <= n <= 10, equal ones allowed, and every
1-based index i <= n, the constructor with preserveOrder=true returns a tree on which
getProofOrdered(elements[i-1], i) returns a proof and checkProofOrdered(proof, root,
elements[i-1], i) returns true. -/
theorem ordered_round_trip_small (sha3 : Buffer → Buffer) (bs : List Buffer) (i : Nat)
    (hvalid : ∀ b ∈ bs, b.length = 32) (hn : bs.length ≤ 10) (h1 : 1 ≤ i)
    (hi : i ≤ bs.length) :
    ∃ t e proof, MerkleTree.new sha3 (bs.map Input.buf) true = Except.ok t ∧
      bs.get? (i - 1) = some e ∧
      t.getProofOrdered e (i : Int) = Except.ok proof ∧
      checkProofOrdered sha3 proof t.getRoot (Value.buf e) i = Except.ok true := by
  have hvalid2 : ∀ x ∈ bs.map Input.buf, x.isElement = true := by
    intro x hx
    obtain ⟨b, hb, rfl⟩ := List.mem_map.1 hx
    simp [Input.isElement, hvalid b hb]
  have hlt : i - 1 < bs.length := by omega
  obtain ⟨proof, hp, hc⟩ := ordered_round_trip_of_sides sha3 bs (i - 1) (bs.get ⟨i - 1, hlt⟩)
    (List.get?_eq_get hlt) (sides_agree_up_to_ten bs.length (by omega) (i - 1) hlt)
  have hcast : ((i - 1 : Nat) : Int) + 1 = (i : Int) := by omega
  rw [hcast] at hp
  rw [show i - 1 + 1 = i by omega] at hc
  refine ⟨_, bs.get ⟨i - 1, hlt⟩, proof,
    MerkleTree.new_of_isElement sha3 _ true hvalid2, List.get?_eq_get hlt, ?_, ?_⟩
  · rw [processedLeaves_map_buf_true]
    exact hp
  · rw [processedLeaves_map_buf_true]
    exact hc

/-! ## Tampering -/

theorem unorderedCollisionFree_mono (sha3 : Buffer → Buffer) (l l' : List (Value × Value))
    (hsub : ∀ q ∈ l', q ∈ l) (h : UnorderedCollisionFree sha3 l) :
    UnorderedCollisionFree sha3 l' :=
  fun q hq r hr => h q (hsub q hq) r (hsub r hr)

theorem orderedCollisionFree_mono (sha3 : Buffer → Buffer) (l l' : List (Value × Value))
    (hsub : ∀ q ∈ l', q ∈ l) (h : OrderedCollisionFree sha3 l) :
    OrderedCollisionFree sha3 l' :=
  fun q hq r hr => h q (hsub q hq) r (hsub r hr)

theorem foldl_combinedHash_truthy (sha3 : Buffer → Buffer) (proof : List Value) :
    ∀ h : Value, h.truthy = true →
      (proof.foldl (fun hash pair => combinedHash sha3 hash pair false) h).truthy = true := by
  induction proof with
  | nil => intro h hh; exact hh
  | cons p rest ih =>
    intro h hh
    exact ih _ (combinedHash_truthy sha3 h p false hh)

theorem combinedHash_truthy_right (sha3 : Buffer → Buffer) (first second : Value)
    (preserveOrder : Bool) (h : second.truthy = true) :
    (combinedHash sha3 first second preserveOrder).truthy = true := by
  obtain ⟨s, rfl⟩ := (Value.truthy_iff second).1 h
  cases first <;> cases preserveOrder <;> simp [combinedHash, Value.truthy]

theorem checkProofOrderedLoop_truthy (sha3 : Buffer → Buffer) (proof : List Value) :
    ∀ (h : Value) (index : Nat), h.truthy = true →
      (checkProofOrderedLoop sha3 proof h index).truthy = true := by
  induction proof with
  | nil => intro h index hh; exact hh
  | cons p rest ih =>
    intro h index hh
    simp only [checkProofOrderedLoop]
    apply ih
    split_ifs
    · exact combinedHash_truthy_right sha3 p h true hh
    · exact combinedHash_truthy sha3 h p true hh

theorem unordered_diverge (sha3 : Buffer → Buffer) (proof : List Value) :
    ∀ h h' : Value, h ≠ h' →
      UnorderedCollisionFree sha3 (checkProofPairs sha3 proof h ++ checkProofPairs sha3 proof h') →
      proof.foldl (fun hash pair => combinedHash sha3 hash pair false) h ≠
        proof.foldl (fun hash pair => combinedHash sha3 hash pair false) h' := by
  induction proof with
  | nil => intro h h' hne _; exact hne
  | cons p rest ih =>
    intro h h' hne hcf
    simp only [List.foldl_cons]
    apply ih
    · intro heq
      rcases hcf (h, p) (by simp [checkProofPairs]) (h', p) (by simp [checkProofPairs]) heq
        with hq | hq
      · exact hne (Prod.mk.inj hq).1
      · simp only [Prod.swap, Prod.mk.injEq] at hq
        exact hne (hq.1.trans hq.2)
    · refine unorderedCollisionFree_mono sha3 _ _ ?_ hcf
      intro q hq
      simp only [checkProofPairs, List.mem_append, List.mem_cons] at hq ⊢
      tauto

theorem unordered_replace (sha3 : Buffer → Buffer) (p x : Value) (post : List Value)
    (hx : x ≠ p) (pre : List Value) :
    ∀ h : Value,
      UnorderedCollisionFree sha3
        (checkProofPairs sha3 (pre ++ p :: post) h ++ checkProofPairs sha3 (pre ++ x :: post) h) →
      (pre ++ p :: post).foldl (fun hash pair => combinedHash sha3 hash pair false) h ≠
        (pre ++ x :: post).foldl (fun hash pair => combinedHash sha3 hash pair false) h := by
  induction pre with
  | nil =>
    intro h hcf
    simp only [List.nil_append, List.foldl_cons]
    apply unordered_diverge
    · intro heq
      rcases hcf (h, p) (by simp [checkProofPairs]) (h, x) (by simp [checkProofPairs]) heq
        with hq | hq
      · exact hx (Prod.mk.inj hq).2.symm
      · simp only [Prod.swap, Prod.mk.injEq] at hq
        exact hx (hq.1.symm.trans hq.2.symm)
    · refine unorderedCollisionFree_mono sha3 _ _ ?_ hcf
      intro q hq
      simp only [List.nil_append, checkProofPairs, List.mem_append, List.mem_cons] at hq ⊢
      tauto
  | cons a pre ih =>
    intro h hcf
    simp only [List.cons_append, List.foldl_cons]
    apply ih
    refine unorderedCollisionFree_mono sha3 _ _ ?_ hcf
    intro q hq
    simp only [List.cons_append, checkProofPairs, List.mem_append, List.mem_cons] at hq ⊢
    tauto

theorem checkProofOrderedLoop_cons (sha3 : Buffer → Buffer) (p : Value) (rest : List Value)
    (h : Value) (index : Nat) :
    checkProofOrderedLoop sha3 (p :: rest) h index =
      checkProofOrderedLoop sha3 rest
        (if adjustIndex (rest.length + 1) index index % 2 == 0 then combinedHash sha3 p h true
          else combinedHash sha3 h p true)
        ((adjustIndex (rest.length + 1) index index + 1) / 2) := rfl

theorem checkProofOrderedPairs_cons (sha3 : Buffer → Buffer) (p : Value) (rest : List Value)
    (h : Value) (index : Nat) :
    checkProofOrderedPairs sha3 (p :: rest) h index =
      (if adjustIndex (rest.length + 1) index index % 2 == 0 then (p, h) else (h, p)) ::
        checkProofOrderedPairs sha3 rest
          (if adjustIndex (rest.length + 1) index index % 2 == 0 then combinedHash sha3 p h true
            else combinedHash sha3 h p true)
          ((adjustIndex (rest.length + 1) index index + 1) / 2) := rfl

theorem ordered_diverge (sha3 : Buffer → Buffer) (proof : List Value) :
    ∀ (h h' : Value) (index : Nat), h ≠ h' →
      OrderedCollisionFree sha3
        (checkProofOrderedPairs sha3 proof h index ++
          checkProofOrderedPairs sha3 proof h' index) →
      checkProofOrderedLoop sha3 proof h index ≠ checkProofOrderedLoop sha3 proof h' index := by
  induction proof with
  | nil => intro h h' index hne _; exact hne
  | cons p rest ih =>
    intro h h' index hne hcf
    simp only [checkProofOrderedLoop]
    by_cases hpar : adjustIndex (rest.length + 1) index index % 2 = 0
    · simp only [hpar, beq_self_eq_true, if_true]
      apply ih
      · intro heq
        have := hcf (p, h) (by simp [checkProofOrderedPairs, hpar]) (p, h')
          (by simp [checkProofOrderedPairs, hpar]) heq
        exact hne (Prod.mk.inj this).2
      · refine orderedCollisionFree_mono sha3 _ _ ?_ hcf
        intro q hq
        simp only [checkProofOrderedPairs, hpar, beq_self_eq_true, if_true, List.mem_append,
          List.mem_cons] at hq ⊢
        tauto
    · have hpar2 : (adjustIndex (rest.length + 1) index index % 2 == 0) = false := by
        simpa using hpar
      simp only [hpar2, Bool.false_eq_true, if_false]
      apply ih
      · intro heq
        have := hcf (h, p) (by simp [checkProofOrderedPairs, hpar2]) (h', p)
          (by simp [checkProofOrderedPairs, hpar2]) heq
        exact hne (Prod.mk.inj this).1
      · refine orderedCollisionFree_mono sha3 _ _ ?_ hcf
        intro q hq
        simp only [checkProofOrderedPairs, hpar2, Bool.false_eq_true, if_false, List.mem_append,
          List.mem_cons] at hq ⊢
        tauto

theorem ordered_replace (sha3 : Buffer → Buffer) (p x : Value) (post : List Value)
    (hx : x ≠ p) (pre : List Value) :
    ∀ (h : Value) (index : Nat),
      OrderedCollisionFree sha3
        (checkProofOrderedPairs sha3 (pre ++ p :: post) h index ++
          checkProofOrderedPairs sha3 (pre ++ x :: post) h index) →
      checkProofOrderedLoop sha3 (pre ++ p :: post) h index ≠
        checkProofOrderedLoop sha3 (pre ++ x :: post) h index := by
  induction pre with
  | nil =>
    intro h index hcf
    simp only [List.nil_append, checkProofOrderedLoop]
    by_cases hpar : adjustIndex (post.length + 1) index index % 2 = 0
    · simp only [hpar, beq_self_eq_true, if_true]
      apply ordered_diverge
      · intro heq
        have := hcf (p, h) (by simp [checkProofOrderedPairs, hpar]) (x, h)
          (by simp [checkProofOrderedPairs, hpar]) heq
        exact hx (Prod.mk.inj this).1.symm
      · refine orderedCollisionFree_mono sha3 _ _ ?_ hcf
        intro q hq
        simp only [List.nil_append, checkProofOrderedPairs, hpar, beq_self_eq_true, if_true,
          List.mem_append, List.mem_cons] at hq ⊢
        tauto
    · have hpar2 : (adjustIndex (post.length + 1) index index % 2 == 0) = false := by
        simpa using hpar
      simp only [hpar2, Bool.false_eq_true, if_false]
      apply ordered_diverge
      · intro heq
        have := hcf (h, p) (by simp [checkProofOrderedPairs, hpar2]) (h, x)
          (by simp [checkProofOrderedPairs, hpar2]) heq
        exact hx (Prod.mk.inj this).2.symm
      · refine orderedCollisionFree_mono sha3 _ _ ?_ hcf
        intro q hq
        simp only [List.nil_append, checkProofOrderedPairs, hpar2, Bool.false_eq_true, if_false,
          List.mem_append, List.mem_cons] at hq ⊢
        tauto
  | cons a pre ih =>
    intro h index hcf
    have hlen : (pre ++ x :: post).length = (pre ++ p :: post).length := by simp
    rw [List.cons_append, List.cons_append, checkProofOrderedLoop_cons,
      checkProofOrderedLoop_cons, hlen]
    apply ih
    refine orderedCollisionFree_mono sha3 _ _ ?_ hcf
    intro q hq
    rw [List.cons_append, List.cons_append, checkProofOrderedPairs_cons,
      checkProofOrderedPairs_cons, hlen]
    simp only [List.mem_append, List.mem_cons] at hq ⊢
    tauto

theorem Value.equals_eq_true (r v : Value) (h : r.equals v = Except.ok true) :
    r = v ∧ r.truthy = true := by
  cases r <;> cases v <;> simp [Value.equals] at h
  subst h
  exact ⟨rfl, rfl⟩

theorem Value.equals_of_ne (r v : Value) (hr : r.truthy = true) (hv : v.truthy = true)
    (hne : r ≠ v) : r.equals v = Except.ok false := by
  obtain ⟨a, rfl⟩ := (Value.truthy_iff r).1 hr
  obtain ⟨b, rfl⟩ := (Value.truthy_iff v).1 hv
  have : a ≠ b := fun h => hne (by rw [h])
  simp [Value.equals, this]

/-- C20: assume combinedHash has no collision on the pairs that the verifications at hand hash.
If checkProof accepts (proof, root, element), it returns false when the element is replaced by
a different Buffer, and when one proof entry is replaced by a different Buffer; if
checkProofOrdered accepts (proof, root, element, index), it returns false after the same
replacements; and in the unordered tree of two distinct 32-byte elements a and b, where the
proof of a is [b], checkProof([y], root, a) returns false for every Buffer y other than b. -/
theorem tamper_detected (sha3 : Buffer → Buffer) (proof pre post : List Value) (p : Value)
    (rootU rootO rootU2 rootO2 : Value) (e e' x a b y : Buffer) (index : Nat)
    (haccU : checkProof sha3 proof rootU (Value.buf e) = Except.ok true)
    (haccO : checkProofOrdered sha3 proof rootO (Value.buf e) index = Except.ok true)
    (he : e' ≠ e)
    (hcfU : UnorderedCollisionFree sha3
      (checkProofPairs sha3 proof (Value.buf e) ++ checkProofPairs sha3 proof (Value.buf e')))
    (hcfO : OrderedCollisionFree sha3
      (checkProofOrderedPairs sha3 proof (Value.buf e) index ++
        checkProofOrderedPairs sha3 proof (Value.buf e') index))
    (haccU2 : checkProof sha3 (pre ++ p :: post) rootU2 (Value.buf e) = Except.ok true)
    (haccO2 : checkProofOrdered sha3 (pre ++ p :: post) rootO2 (Value.buf e) index =
      Except.ok true)
    (hx : Value.buf x ≠ p)
    (hcfU2 : UnorderedCollisionFree sha3
      (checkProofPairs sha3 (pre ++ p :: post) (Value.buf e) ++
        checkProofPairs sha3 (pre ++ Value.buf x :: post) (Value.buf e)))
    (hcfO2 : OrderedCollisionFree sha3
      (checkProofOrderedPairs sha3 (pre ++ p :: post) (Value.buf e) index ++
        checkProofOrderedPairs sha3 (pre ++ Value.buf x :: post) (Value.buf e) index))
    (hla : a.length = 32) (hlb : b.length = 32) (hab : a ≠ b) (hy : y ≠ b)
    (hcf3 : UnorderedCollisionFree sha3
      [(Value.buf a, Value.buf b), (Value.buf a, Value.buf y)]) :
    checkProof sha3 proof rootU (Value.buf e') = Except.ok false ∧
      checkProofOrdered sha3 proof rootO (Value.buf e') index = Except.ok false ∧
      checkProof sha3 (pre ++ Value.buf x :: post) rootU2 (Value.buf e) = Except.ok false ∧
      checkProofOrdered sha3 (pre ++ Value.buf x :: post) rootO2 (Value.buf e) index =
        Except.ok false ∧
      ∃ t, MerkleTree.new sha3 [Input.buf a, Input.buf b] false = Except.ok t ∧
        t.getProof a = Except.ok [Value.buf b] ∧
        checkProof sha3 [Value.buf y] t.getRoot (Value.buf a) = Except.ok false := by
  have hee : Value.buf e ≠ Value.buf e' := fun h => he (Value.buf.inj h).symm
  refine ⟨?_, ?_, ?_, ?_, ?_⟩
  · obtain ⟨hroot, hr⟩ := Value.equals_eq_true _ _ haccU
    have hne := unordered_diverge sha3 proof _ _ hee hcfU
    rw [← hroot] at hne
    exact Value.equals_of_ne _ _ hr (foldl_combinedHash_truthy sha3 proof _ rfl) hne
  · obtain ⟨hroot, hr⟩ := Value.equals_eq_true _ _ haccO
    have hne := ordered_diverge sha3 proof _ _ index hee hcfO
    rw [hroot] at hne hr
    exact Value.equals_of_ne _ _ (checkProofOrderedLoop_truthy sha3 proof _ index rfl) hr
      (fun h => hne h.symm)
  · obtain ⟨hroot, hr⟩ := Value.equals_eq_true _ _ haccU2
    have hne := unordered_replace sha3 p (Value.buf x) post hx pre _ hcfU2
    rw [← hroot] at hne
    exact Value.equals_of_ne _ _ hr (foldl_combinedHash_truthy sha3 _ _ rfl) hne
  · obtain ⟨hroot, hr⟩ := Value.equals_eq_true _ _ haccO2
    have hne := ordered_replace sha3 p (Value.buf x) post hx pre _ index hcfO2
    rw [hroot] at hne hr
    exact Value.equals_of_ne _ _ (checkProofOrderedLoop_truthy sha3 _ _ index rfl) hr
      (fun h => hne h.symm)
  · refine ⟨_, two_leaf_tree sha3 a b hla hlb hab, (two_leaf_proofs sha3 a b hab).1, ?_⟩
    have hne : combinedHash sha3 (Value.buf a) (Value.buf b) false ≠
        combinedHash sha3 (Value.buf a) (Value.buf y) false := by
      intro heq
      rcases hcf3 (Value.buf a, Value.buf b) (by simp) (Value.buf a, Value.buf y) (by simp) heq
        with hq | hq
      · exact hy (Value.buf.inj (Prod.mk.inj hq).2).symm
      · simp only [Prod.swap, Prod.mk.injEq, Value.buf.injEq] at hq
        exact hab hq.2.symm
    have hroot : (MerkleTree.mk (bufSort [a, b]) false
        [(bufSort [a, b]).map Value.buf, [Value.buf (sha3 (bufSortJoin [a, b]))]]).getRoot =
        combinedHash sha3 (Value.buf a) (Value.buf b) false := by
      simp [MerkleTree.getRoot, combinedHash]
    rw [hroot]
    simp only [checkProof, List.foldl_cons, List.foldl_nil]
    exact Value.equals_of_ne _ _ (combinedHash_truthy sha3 _ _ false rfl)
      (combinedHash_truthy sha3 _ _ false rfl) hne

/-- C11 (counterexample): the ordered tree of the empty input has no leaves, and its layers[0]
holds the empty string, so it is not the input sequence. -/
theorem ordered_layer_zero_of_empty :
    ∃ t, MerkleTree.new plainDigest [] true = Except.ok t ∧ t.elements = [] ∧
      t.layers.getD 0 [] = [Value.emptyString] ∧
      t.layers.getD 0 [] ≠ t.elements.map Value.buf :=
  ⟨_, rfl, rfl, rfl, by decide⟩

/-- The leaves of the ordered three-leaf tree of the tests. -/
theorem ordered_leaves_kept_witness :
    (MerkleTree.new plainDigest
          [Input.buf (repeated 97), Input.buf (repeated 98), Input.buf (repeated 99)] true =
        Except.ok threeLeafTree ∧
      (repeated 97).length = 32 ∧ (repeated 98).length = 32) ∧
    (threeLeafTree.elements.map Input.buf =
        [Input.buf (repeated 97), Input.buf (repeated 98), Input.buf (repeated 99)].filter
          Input.truthy ∧
      (threeLeafTree.elements ≠ [] →
        threeLeafTree.layers.getD 0 [] = threeLeafTree.elements.map Value.buf) ∧
      (threeLeafTree.elements = [] → threeLeafTree.layers = [[Value.emptyString]]) ∧
      merkleRoot plainDigest
          [Input.buf (repeated 97), Input.buf (repeated 98), Input.buf (repeated 97)] true =
        Except.ok (combinedHash plainDigest
          (combinedHash plainDigest (Value.buf (repeated 97)) (Value.buf (repeated 98)) true)
          (Value.buf (repeated 97)) true) ∧
      merkleRoot plainDigest [Input.buf (repeated 97), Input.buf (repeated 98)] true =
        Except.ok (combinedHash plainDigest (Value.buf (repeated 97)) (Value.buf (repeated 98))
          true)) :=
  ⟨⟨rfl, rfl, rfl⟩,
    ordered_leaves_kept plainDigest _ threeLeafTree (repeated 97) (repeated 98) rfl rfl rfl⟩

/-- The length of the proof of the third leaf of the ordered three-leaf tree. -/
theorem proof_length_witness :
    (MerkleTree.new plainDigest
          [Input.buf (repeated 97), Input.buf (repeated 98), Input.buf (repeated 99)] true =
        Except.ok threeLeafTree ∧
      2 < threeLeafTree.elements.length) ∧
    ((getProof 2 threeLeafTree.layers).length + promotions 2 threeLeafTree.layers.dropLast =
        threeLeafTree.layers.length - 1 ∧
      (getProof 2 threeLeafTree.layers).length ≤ threeLeafTree.layers.length - 1 ∧
      ((getProof 2 threeLeafTree.layers).length < threeLeafTree.layers.length - 1 ↔
        ∃ k, k < threeLeafTree.layers.length - 1 ∧
          promotedAt (2 / 2 ^ k) (threeLeafTree.layers.getD k []) = true)) :=
  ⟨⟨rfl, by decide⟩,
    proof_length plainDigest
      [Input.buf (repeated 97), Input.buf (repeated 98), Input.buf (repeated 99)] true
      threeLeafTree 2 rfl (by decide)⟩

/-- The ordered round trip at the fifth of five leaves. -/
theorem ordered_round_trip_small_witness :
    ((∀ b ∈ [repeated 97, repeated 98, repeated 99, repeated 100, repeated 101],
        b.length = 32) ∧
      [repeated 97, repeated 98, repeated 99, repeated 100, repeated 101].length ≤ 10 ∧
      1 ≤ 5 ∧ 5 ≤ [repeated 97, repeated 98, repeated 99, repeated 100, repeated 101].length) ∧
    ∃ t e proof,
      MerkleTree.new plainDigest
          ([repeated 97, repeated 98, repeated 99, repeated 100, repeated 101].map Input.buf)
          true = Except.ok t ∧
        [repeated 97, repeated 98, repeated 99, repeated 100, repeated 101].get? (5 - 1) =
          some e ∧
        t.getProofOrdered e ((5 : Nat) : Int) = Except.ok proof ∧
        checkProofOrdered plainDigest proof t.getRoot (Value.buf e) 5 = Except.ok true :=
  ⟨⟨by decide, by decide, by decide, by decide⟩,
    ordered_round_trip_small plainDigest
      [repeated 97, repeated 98, repeated 99, repeated 100, repeated 101] 5 (by decide)
      (by decide) (by decide) (by decide)⟩

/-- Tamper detection at a proof of two entries under the identity digest. -/
theorem tamper_detected_witness :
    (checkProof plainDigest sampleProof sampleRoot (Value.buf (repeated 97)) = Except.ok true ∧
      checkProofOrdered plainDigest sampleProof sampleRoot (Value.buf (repeated 97)) 1 =
        Except.ok true ∧
      repeated 100 ≠ repeated 97 ∧
      UnorderedCollisionFree plainDigest
        (checkProofPairs plainDigest sampleProof (Value.buf (repeated 97)) ++
          checkProofPairs plainDigest sampleProof (Value.buf (repeated 100))) ∧
      OrderedCollisionFree plainDigest
        (checkProofOrderedPairs plainDigest sampleProof (Value.buf (repeated 97)) 1 ++
          checkProofOrderedPairs plainDigest sampleProof (Value.buf (repeated 100)) 1) ∧
      checkProof plainDigest ([] ++ Value.buf (repeated 98) :: [Value.buf (repeated 99)])
        sampleRoot (Value.buf (repeated 97)) = Except.ok true ∧
      checkProofOrdered plainDigest
        ([] ++ Value.buf (repeated 98) :: [Value.buf (repeated 99)]) sampleRoot
        (Value.buf (repeated 97)) 1 = Except.ok true ∧
      Value.buf (repeated 100) ≠ Value.buf (repeated 98) ∧
      UnorderedCollisionFree plainDigest
        (checkProofPairs plainDigest ([] ++ Value.buf (repeated 98) :: [Value.buf (repeated 99)])
            (Value.buf (repeated 97)) ++
          checkProofPairs plainDigest
            ([] ++ Value.buf (repeated 100) :: [Value.buf (repeated 99)])
            (Value.buf (repeated 97))) ∧
      OrderedCollisionFree plainDigest
        (checkProofOrderedPairs plainDigest
            ([] ++ Value.buf (repeated 98) :: [Value.buf (repeated 99)])
            (Value.buf (repeated 97)) 1 ++
          checkProofOrderedPairs plainDigest
            ([] ++ Value.buf (repeated 100) :: [Value.buf (repeated 99)])
            (Value.buf (repeated 97)) 1) ∧
      (repeated 97).length = 32 ∧ (repeated 98).length = 32 ∧ repeated 97 ≠ repeated 98 ∧
      repeated 99 ≠ repeated 98 ∧
      UnorderedCollisionFree plainDigest
        [(Value.buf (repeated 97), Value.buf (repeated 98)),
          (Value.buf (repeated 97), Value.buf (repeated 99))]) ∧
    (checkProof plainDigest sampleProof sampleRoot (Value.buf (repeated 100)) =
        Except.ok false ∧
      checkProofOrdered plainDigest sampleProof sampleRoot (Value.buf (repeated 100)) 1 =
        Except.ok false ∧
      checkProof plainDigest ([] ++ Value.buf (repeated 100) :: [Value.buf (repeated 99)])
        sampleRoot (Value.buf (repeated 97)) = Except.ok false ∧
      checkProofOrdered plainDigest
        ([] ++ Value.buf (repeated 100) :: [Value.buf (repeated 99)]) sampleRoot
        (Value.buf (repeated 97)) 1 = Except.ok false ∧
      ∃ t, MerkleTree.new plainDigest [Input.buf (repeated 97), Input.buf (repeated 98)] false =
          Except.ok t ∧
        t.getProof (repeated 97) = Except.ok [Value.buf (repeated 98)] ∧
        checkProof plainDigest [Value.buf (repeated 99)] t.getRoot (Value.buf (repeated 97)) =
          Except.ok false) :=
  ⟨⟨rfl, rfl, by decide, by unfold UnorderedCollisionFree; decide,
      by unfold OrderedCollisionFree; decide, rfl, rfl, by decide,
      by unfold UnorderedCollisionFree; decide, by unfold OrderedCollisionFree; decide,
      rfl, rfl, by decide, by decide, by unfold UnorderedCollisionFree; decide⟩,
    tamper_detected plainDigest sampleProof [] [Value.buf (repeated 99)]
      (Value.buf (repeated 98)) sampleRoot sampleRoot sampleRoot sampleRoot (repeated 97)
      (repeated 100) (repeated 100) (repeated 97) (repeated 98) (repeated 99) 1
      rfl rfl (by decide) (by unfold UnorderedCollisionFree; decide)
      (by unfold OrderedCollisionFree; decide) rfl rfl (by decide)
      (by unfold UnorderedCollisionFree; decide) (by unfold OrderedCollisionFree; decide)
      rfl rfl (by decide) (by decide) (by unfold UnorderedCollisionFree; decide)⟩

/-! ## Interior nodes verify with a suffix of the proof -/

theorem layersFrom_succ (sha3 : Buffer → Buffer) (preserveOrder : Bool) (fuel : Nat)
    (l : List Value) (h1 : l.length > 1) :
    layersFrom sha3 preserveOrder (fuel + 1) l =
      l :: layersFrom sha3 preserveOrder fuel (getNextLayer sha3 l preserveOrder) := by
  simp only [layersFrom, h1, if_true]

/-- Every node on the path of the node at `i` folds, with the part of the proof taken from its
layer upwards, to the single entry of the last layer; and that part is a suffix of the
proof. -/
theorem unordered_path (sha3 : Buffer → Buffer) (fuel : Nat) :
    ∀ (l : List Value) (i : Nat), l.length ≤ fuel + 1 → i < l.length →
      (∀ v ∈ l, v.truthy = true) →
      ∃ r, (layersFrom sha3 false fuel l).getLast? = some [r] ∧ r.truthy = true ∧
        ∀ k, k < (layersFrom sha3 false fuel l).length →
          (∃ pre, getProof i (layersFrom sha3 false fuel l) =
            pre ++ getProof (i / 2 ^ k) ((layersFrom sha3 false fuel l).drop k)) ∧
          (getProof (i / 2 ^ k) ((layersFrom sha3 false fuel l).drop k)).foldl
            (fun hash pair => combinedHash sha3 hash pair false)
            (((layersFrom sha3 false fuel l).getD k []).getD (i / 2 ^ k) Value.undefined) =
              r := by
  induction fuel with
  | zero =>
    intro l i hlen hi hl
    obtain ⟨r, hlast, hr, hfold⟩ := unordered_fold sha3 0 l i hlen hi hl
    refine ⟨r, hlast, hr, ?_⟩
    intro k hk
    have hk0 : k = 0 := by
      simp only [layersFrom, List.length_singleton] at hk
      omega
    subst hk0
    refine ⟨⟨[], by simp⟩, ?_⟩
    simpa [layersFrom] using hfold
  | succ fuel ih =>
    intro l i hlen hi hl
    obtain ⟨r, hlast, hr, hfold⟩ := unordered_fold sha3 (fuel + 1) l i hlen hi hl
    refine ⟨r, hlast, hr, ?_⟩
    intro k hk
    cases k with
    | zero =>
      refine ⟨⟨[], by simp⟩, ?_⟩
      rw [pow_zero, Nat.div_one, List.drop_zero, layersFrom_getD_zero]
      exact hfold
    | succ k =>
      by_cases h1 : l.length > 1
      · have hnext := getNextLayer_length sha3 l false
        obtain ⟨r2, hlast2, -, hpath⟩ := ih (getNextLayer sha3 l false) (i / 2)
          (by rw [hnext]; omega) (by rw [hnext]; omega) (getNextLayer_truthy sha3 l false hl)
        rw [layersFrom_succ sha3 false fuel l h1] at hlast hk ⊢
        rw [List.getLast?_cons, hlast2] at hlast
        have hrr : r2 = r := by
          have := Option.some.inj hlast
          simpa using this
        subst hrr
        obtain ⟨⟨pre, hpre⟩, hf⟩ := hpath k (by simpa using hk)
        have hdiv : i / 2 ^ (k + 1) = i / 2 / 2 ^ k := by
          rw [Nat.div_div_eq_div_mul, pow_succ']
        rw [hdiv]
        refine ⟨⟨(if (getPair i l).truthy then [getPair i l] else []) ++ pre, ?_⟩, ?_⟩
        · rw [getProof_cons, hpre, List.drop_succ_cons, List.append_assoc]
        · rw [List.drop_succ_cons]
          have hg : (l :: layersFrom sha3 false fuel (getNextLayer sha3 l false)).getD (k + 1) [] =
              (layersFrom sha3 false fuel (getNextLayer sha3 l false)).getD k [] := by
            simp
          rw [hg]
          exact hf
      · exfalso
        have : layersFrom sha3 false (fuel + 1) l = [l] := by
          simp only [layersFrom, h1, if_false]
        rw [this] at hk
        simp at hk

/-- C25: interior nodes are accepted as elements: for every non-empty proof p :: ps, every root
and every element e, checkProof(p :: ps, root, e) equals
checkProof(ps, root, combinedHash(e, p, false)); hence for every leaf (at position i) of an
unordered tree the constructor returns, each hash on the path of the leaf to the root (the
entry at position i / 2^k of layer k) verifies against the root with the corresponding suffix
of the proof of the leaf, which is the proof extracted at that entry from layer k upwards. -/
theorem interior_nodes_accepted (sha3 : Buffer → Buffer) :
    (∀ (p : Value) (ps : List Value) (root e : Value),
      checkProof sha3 (p :: ps) root e =
        checkProof sha3 ps root (combinedHash sha3 e p false)) ∧
    ∀ (elements : List Input) (t : MerkleTree),
      MerkleTree.new sha3 elements false = Except.ok t →
      ∀ i, i < t.elements.length → ∀ k, k < t.layers.length →
        (∃ pre, getProof i t.layers = pre ++ getProof (i / 2 ^ k) (t.layers.drop k)) ∧
        checkProof sha3 (getProof (i / 2 ^ k) (t.layers.drop k)) t.getRoot
          ((t.layers.getD k []).getD (i / 2 ^ k) Value.undefined) = Except.ok true := by
  refine ⟨fun p ps root e => rfl, ?_⟩
  intro elements t hbuild i hi k hk
  have ht := MerkleTree.new_ok sha3 elements false t hbuild
  subst ht
  simp only at hi hk ⊢
  have hne : (processedLeaves elements false).map Value.buf ≠ [] := by
    intro h
    rw [List.map_eq_nil_iff] at h
    rw [h] at hi
    simp at hi
  have htruthy : ∀ v ∈ (processedLeaves elements false).map Value.buf, v.truthy = true := by
    intro v hv
    obtain ⟨b, _, rfl⟩ := List.mem_map.1 hv
    rfl
  obtain ⟨r, hlast, hr, hpath⟩ := unordered_path sha3
    ((processedLeaves elements false).map Value.buf).length
    ((processedLeaves elements false).map Value.buf) i (by omega) (by simpa using hi) htruthy
  rw [← getLayers_eq sha3 _ false hne] at hlast hpath
  obtain ⟨hsuffix, hfold⟩ := hpath k hk
  refine ⟨hsuffix, ?_⟩
  rw [getRoot_of_getLast _ r hlast]
  simp only [checkProof, hfold]
  exact Value.equals_self r hr

/-- The node above the first two leaves of the ordered-by-value three-leaf tree verifies with
the last entry of the proof of the first leaf. -/
theorem interior_nodes_accepted_witness :
    ∃ t, MerkleTree.new plainDigest
        [Input.buf (repeated 97), Input.buf (repeated 98), Input.buf (repeated 99)] false =
          Except.ok t ∧ 0 < t.elements.length ∧ 1 < t.layers.length ∧
      (∃ pre, getProof 0 t.layers = pre ++ getProof (0 / 2 ^ 1) (t.layers.drop 1)) ∧
      checkProof plainDigest (getProof (0 / 2 ^ 1) (t.layers.drop 1)) t.getRoot
        ((t.layers.getD 1 []).getD (0 / 2 ^ 1) Value.undefined) = Except.ok true ∧
      getProof (0 / 2 ^ 1) (t.layers.drop 1) = [Value.buf (repeated 99)] ∧
      (t.layers.getD 1 []).getD (0 / 2 ^ 1) Value.undefined =
        Value.buf (repeated 97 ++ repeated 98) := by
  have hnew := MerkleTree.new_of_isElement plainDigest
    [Input.buf (repeated 97), Input.buf (repeated 98), Input.buf (repeated 99)] false
    (by decide)
  refine ⟨_, hnew, by decide, by decide, ?_⟩
  have h := (interior_nodes_accepted plainDigest).2 _ _ hnew 0 (by decide) 1 (by decide)
  exact ⟨h.1, h.2, by decide, by decide⟩

/-! ## The height of the tree -/

theorem ceil_half_ceil (n k : Nat) :
    ((n + 1) / 2 + 2 ^ k - 1) / 2 ^ k = (n + 2 ^ (k + 1) - 1) / 2 ^ (k + 1) := by
  have hp : 0 < 2 ^ k := Nat.two_pow_pos k
  rw [pow_succ', ← Nat.div_div_eq_div_mul]
  congr 1
  omega

/-- The number of layers and their lengths, for the loop of `getLayers` started at a layer of
at least one entry. -/
theorem layersFrom_shape (sha3 : Buffer → Buffer) (preserveOrder : Bool) (fuel : Nat) :
    ∀ l : List Value, 1 ≤ l.length → l.length ≤ fuel + 1 →
      ∃ d, l.length ≤ 2 ^ d ∧ (∀ j, j < d → 2 ^ j < l.length) ∧
        (layersFrom sha3 preserveOrder fuel l).length = d + 1 ∧
        ∀ k, k ≤ d →
          ((layersFrom sha3 preserveOrder fuel l).getD k []).length =
            (l.length + 2 ^ k - 1) / 2 ^ k := by
  induction fuel with
  | zero =>
    intro l h1 hlen
    refine ⟨0, by simpa using hlen, by simp, by simp [layersFrom], ?_⟩
    intro k hk
    have hk0 : k = 0 := by omega
    subst hk0
    simp [layersFrom]
  | succ fuel ih =>
    intro l h1 hlen
    by_cases hgt : l.length > 1
    · have hnext := getNextLayer_length sha3 l preserveOrder
      obtain ⟨d, hpow, hleast, hcount, hlayer⟩ := ih (getNextLayer sha3 l preserveOrder)
        (by rw [hnext]; omega) (by rw [hnext]; omega)
      rw [hnext] at hpow hleast hlayer
      refine ⟨d + 1, ?_, ?_, ?_, ?_⟩
      · rw [pow_succ']
        omega
      · intro j hj
        cases j with
        | zero => simpa using hgt
        | succ j =>
          have := hleast j (by omega)
          rw [pow_succ']
          omega
      · simp only [layersFrom, hgt, if_true, List.length_cons, hcount]
      · intro k hk
        cases k with
        | zero => simp [layersFrom, hgt]
        | succ k =>
          have hg : (layersFrom sha3 preserveOrder (fuel + 1) l).getD (k + 1) [] =
              (layersFrom sha3 preserveOrder fuel (getNextLayer sha3 l preserveOrder)).getD k
                [] := by
            simp [layersFrom, hgt]
          rw [hg, hlayer k (by omega), ceil_half_ceil]
    · have h1l : l.length = 1 := by omega
      refine ⟨0, by omega, by simp, by simp [layersFrom, hgt], ?_⟩
      intro k hk
      have hk0 : k = 0 := by omega
      subst hk0
      simp [layersFrom, hgt]

/-- C26: for every list of n >= 1 leaves and either mode, getLayers returns exactly d + 1
layers, where d is the least natural number with 2^d >= n, and layer k has
ceil(n / 2^k) = (n + 2^k - 1) / 2^k entries for every k <= d. -/
theorem tree_height (sha3 : Buffer → Buffer) (elements : List Value) (preserveOrder : Bool)
    (hn : 1 ≤ elements.length) :
    ∃ d, elements.length ≤ 2 ^ d ∧ (∀ j, j < d → 2 ^ j < elements.length) ∧
      (getLayers sha3 elements preserveOrder).length = d + 1 ∧
      ∀ k, k ≤ d →
        ((getLayers sha3 elements preserveOrder).getD k []).length =
          (elements.length + 2 ^ k - 1) / 2 ^ k := by
  have hne : elements ≠ [] := by
    intro h
    rw [h] at hn
    simp at hn
  rw [getLayers_eq sha3 elements preserveOrder hne]
  exact layersFrom_shape sha3 preserveOrder elements.length elements hn (by omega)

/-- The height of the tree of five leaves: four layers, of 5, 3, 2 and 1 entries. -/
theorem tree_height_witness :
    1 ≤ ([repeated 97, repeated 98, repeated 99, repeated 100, repeated 101].map
      Value.buf).length ∧
    ∃ d, ([repeated 97, repeated 98, repeated 99, repeated 100, repeated 101].map
        Value.buf).length ≤ 2 ^ d ∧
      (∀ j, j < d → 2 ^ j <
        ([repeated 97, repeated 98, repeated 99, repeated 100, repeated 101].map
          Value.buf).length) ∧
      (getLayers plainDigest
        ([repeated 97, repeated 98, repeated 99, repeated 100, repeated 101].map Value.buf)
        true).length = d + 1 ∧
      ∀ k, k ≤ d →
        ((getLayers plainDigest
          ([repeated 97, repeated 98, repeated 99, repeated 100, repeated 101].map Value.buf)
          true).getD k []).length =
          (([repeated 97, repeated 98, repeated 99, repeated 100, repeated 101].map
            Value.buf).length + 2 ^ k - 1) / 2 ^ k :=
  ⟨by decide, tree_height plainDigest _ true (by decide)⟩

/-! ## `getProof` and the specified extraction -/

/-- What `getProof` takes from a layer of Buffers is what the specification takes. -/
theorem getProof_entry_eq (l : List Value) (hl : ∀ v ∈ l, v.truthy = true) (i : Nat)
    (hi : i < l.length) :
    (if (getPair i l).truthy then [getPair i l] else []) =
      (if (if i % 2 = 1 then i - 1 else i + 1) < l.length then
        [l.getD (if i % 2 = 1 then i - 1 else i + 1) Value.undefined]
      else []) := by
  rcases Nat.mod_two_eq_zero_or_one i with h | h
  · have hne : ¬ i % 2 = 1 := by omega
    rw [getPair_even i l h, if_neg hne]
    by_cases hlt : i + 1 < l.length
    · rw [if_pos hlt, if_pos hlt, if_pos (getD_truthy l hl (i + 1) hlt)]
    · rw [if_neg hlt, if_neg hlt]
      simp [Value.truthy]
  · have hlt : i - 1 < l.length := by omega
    rw [getPair_odd i l h hi, if_pos h, if_pos hlt, if_pos (getD_truthy l hl (i - 1) hlt)]

theorem getProof_layersFrom_eq (sha3 : Buffer → Buffer) (preserveOrder : Bool) (fuel : Nat) :
    ∀ (l : List Value) (i : Nat), l.length ≤ fuel + 1 → i < l.length →
      (∀ v ∈ l, v.truthy = true) →
      getProof i (layersFrom sha3 preserveOrder fuel l) =
          extractProof i (layersFrom sha3 preserveOrder fuel l).dropLast ∧
        getProof i (layersFrom sha3 preserveOrder fuel l) =
          getProof i (layersFrom sha3 preserveOrder fuel l).dropLast ∧
        getPair (i / 2 ^ ((layersFrom sha3 preserveOrder fuel l).length - 1))
          ((layersFrom sha3 preserveOrder fuel l).getD
            ((layersFrom sha3 preserveOrder fuel l).length - 1) []) = Value.null := by
  induction fuel with
  | zero =>
    intro l i hlen hi hl
    match l, hlen, hi, hl with
    | [r], _, hi, hl =>
      have : i = 0 := by simp at hi; omega
      subst this
      simp [layersFrom, getProof_cons, getProof_nil, getPair, Value.truthy, extractProof]
  | succ fuel ih =>
    intro l i hlen hi hl
    by_cases h1 : l.length > 1
    · have hnext := getNextLayer_length sha3 l preserveOrder
      obtain ⟨h2, h3, h4⟩ := ih (getNextLayer sha3 l preserveOrder) (i / 2)
        (by rw [hnext]; omega) (by rw [hnext]; omega)
        (getNextLayer_truthy sha3 l preserveOrder hl)
      have hne := layersFrom_ne_nil sha3 preserveOrder fuel (getNextLayer sha3 l preserveOrder)
      have hpos : 0 < (layersFrom sha3 preserveOrder fuel
          (getNextLayer sha3 l preserveOrder)).length := List.length_pos.2 hne
      rw [layersFrom_succ sha3 preserveOrder fuel l h1]
      refine ⟨?_, ?_, ?_⟩
      · rw [List.dropLast_cons_of_ne_nil hne, getProof_cons, extractProof, h2,
          getProof_entry_eq l hl i hi]
      · rw [List.dropLast_cons_of_ne_nil hne, getProof_cons, getProof_cons, ← h3]
      · have hlen2 : (l :: layersFrom sha3 preserveOrder fuel
            (getNextLayer sha3 l preserveOrder)).length - 1 =
            ((layersFrom sha3 preserveOrder fuel
              (getNextLayer sha3 l preserveOrder)).length - 1) + 1 := by
          simp only [List.length_cons]
          omega
        rw [hlen2, pow_succ', ← Nat.div_div_eq_div_mul]
        simpa using h4
    · match l, h1, hi, hl with
      | [r], _, hi, hl =>
        have : i = 0 := by simp at hi; omega
        subst this
        simp [layersFrom, getProof_cons, getProof_nil, getPair, Value.truthy, extractProof]
      | _ :: _ :: _, h1, _, _ => exact absurd (by simp) h1

/-- C23: getProof agrees with the specified extraction although it folds over every layer,
the root layer included: for every tree built by getLayers from a non-empty list of leaves, in
either mode, and every in-range 0-based index, the result is exactly the sequence obtained by
visiting layers[0] .. layers[last-1] only, taking at layer k the entry at position p_k - 1 if
p_k is odd, else p_k + 1, when that position is within the layer (p_0 = index,
p_(k+1) = floor(p_k / 2)); the root layer never contributes an element: its pair is null, and
folding without it gives the same proof. -/
theorem getProof_refines_specification (sha3 : Buffer → Buffer) (leaves : List Buffer)
    (preserveOrder : Bool) (index : Nat) (hindex : index < leaves.length) :
    getProof index (getLayers sha3 (leaves.map Value.buf) preserveOrder) =
        specifiedProof index (getLayers sha3 (leaves.map Value.buf) preserveOrder) ∧
      getProof index (getLayers sha3 (leaves.map Value.buf) preserveOrder) =
        getProof index (getLayers sha3 (leaves.map Value.buf) preserveOrder).dropLast ∧
      getPair (index / 2 ^ ((getLayers sha3 (leaves.map Value.buf) preserveOrder).length - 1))
        ((getLayers sha3 (leaves.map Value.buf) preserveOrder).getD
          ((getLayers sha3 (leaves.map Value.buf) preserveOrder).length - 1) []) =
        Value.null := by
  have hne : leaves.map Value.buf ≠ [] := by
    intro h
    rw [List.map_eq_nil_iff] at h
    rw [h] at hindex
    simp at hindex
  have htruthy : ∀ v ∈ leaves.map Value.buf, v.truthy = true := by
    intro v hv
    obtain ⟨b, _, rfl⟩ := List.mem_map.1 hv
    rfl
  rw [getLayers_eq sha3 _ preserveOrder hne]
  exact getProof_layersFrom_eq sha3 preserveOrder (leaves.map Value.buf).length
    (leaves.map Value.buf) index (by omega) (by simpa using hindex) htruthy

/-- The proof of the third of three leaves: one entry, taken from the second layer. -/
theorem getProof_refines_specification_witness :
    2 < [repeated 97, repeated 98, repeated 99].length ∧
    (getProof 2 (getLayers plainDigest
        ([repeated 97, repeated 98, repeated 99].map Value.buf) true) =
        specifiedProof 2 (getLayers plainDigest
          ([repeated 97, repeated 98, repeated 99].map Value.buf) true) ∧
      getProof 2 (getLayers plainDigest
          ([repeated 97, repeated 98, repeated 99].map Value.buf) true) =
        getProof 2 (getLayers plainDigest
          ([repeated 97, repeated 98, repeated 99].map Value.buf) true).dropLast ∧
      getPair (2 / 2 ^ ((getLayers plainDigest
          ([repeated 97, repeated 98, repeated 99].map Value.buf) true).length - 1))
        ((getLayers plainDigest ([repeated 97, repeated 98, repeated 99].map Value.buf)
          true).getD
          ((getLayers plainDigest ([repeated 97, repeated 98, repeated 99].map Value.buf)
            true).length - 1) []) =
        Value.null) ∧
    specifiedProof 2 (getLayers plainDigest
        ([repeated 97, repeated 98, repeated 99].map Value.buf) true) =
      [Value.buf (repeated 97 ++ repeated 98)] :=
  ⟨by decide,
    getProof_refines_specification plainDigest [repeated 97, repeated 98, repeated 99] true 2
      (by decide), by decide⟩

/-! ## The verifiers are total on Buffers -/

/-- More fuel than the index does not change the result of the index loop. -/
theorem adjustIndex_fuel_add (remaining extra : Nat) (fuel : Nat) :
    ∀ index : Nat, index ≤ fuel + 2 →
      adjustIndex remaining (fuel + extra) index = adjustIndex remaining fuel index := by
  induction fuel with
  | zero =>
    intro index hle
    cases extra with
    | zero => rfl
    | succ extra =>
      have hc : (remaining != 0 && index % 2 == 1 && index > 2 ^ remaining) = false := by
        by_contra hc
        simp only [Bool.not_eq_false, Bool.and_eq_true, bne_iff_ne, ne_eq,
          decide_eq_true_eq] at hc
        have : 2 ^ 1 ≤ 2 ^ remaining := Nat.pow_le_pow_right (by omega) (by omega)
        omega
      simp only [Nat.zero_add, adjustIndex, hc, Bool.false_eq_true, if_false]
  | succ fuel ih =>
    intro index hle
    rw [show fuel + 1 + extra = (fuel + extra) + 1 by omega]
    by_cases hc : (remaining != 0 && index % 2 == 1 && index > 2 ^ remaining) = true
    · simp only [adjustIndex, hc, if_true]
      exact ih ((index + 1) / 2) (by omega)
    · simp only [adjustIndex, hc, if_false, Bool.false_eq_true]

/-- The sentinel root of the empty tree makes both verifiers raise a TypeError. -/
theorem verification_fails_on_empty_root :
    ∃ t, MerkleTree.new plainDigest [] false = Except.ok t ∧
      t.getRoot = Value.emptyString ∧
      checkProof plainDigest [] t.getRoot (Value.buf (repeated 97)) =
        Except.error JsError.typeError ∧
      checkProofOrdered plainDigest [] t.getRoot (Value.buf (repeated 97)) 1 =
        Except.error JsError.typeError :=
  ⟨_, rfl, rfl, rfl, rfl⟩

/-- C22 (amended): checkProofOrdered and checkProof are total on Buffers: for every proof of
any length (lengths that match no tree included, entries of any kind), every root and every
element that are Buffers and every non-negative integer index, the call returns a boolean
without failing; with a root that is not a Buffer, such as the root '' of the empty tree, both
raise a TypeError instead; and the inner index loop of checkProofOrdered terminates because
each pass strictly decreases an odd index greater than 2^remaining: run on as many passes as
the index, or more, it ends with its condition false. -/
theorem verification_total (sha3 : Buffer → Buffer) :
    (∀ (proof : List Value) (root element : Buffer) (index : Nat),
      (∃ b, checkProof sha3 proof (Value.buf root) (Value.buf element) = Except.ok b) ∧
      (∃ b, checkProofOrdered sha3 proof (Value.buf root) (Value.buf element) index =
        Except.ok b)) ∧
    (∀ (proof : List Value) (root element : Value) (index : Nat), root.truthy = false →
      checkProof sha3 proof root element = Except.error JsError.typeError ∧
      checkProofOrdered sha3 proof root element index = Except.error JsError.typeError) ∧
    (∀ remaining index : Nat, remaining ≠ 0 → index % 2 = 1 → index > 2 ^ remaining →
      (index + 1) / 2 < index) ∧
    (∀ remaining index extra : Nat,
      adjustIndex remaining (index + extra) index = adjustIndex remaining index index) ∧
    (∀ remaining index : Nat,
      ¬(remaining ≠ 0 ∧ adjustIndex remaining index index % 2 = 1 ∧
        adjustIndex remaining index index > 2 ^ remaining)) := by
  refine ⟨?_, ?_, ?_, ?_, ?_⟩
  · intro proof root element index
    constructor
    · obtain ⟨h, hh⟩ := (Value.truthy_iff _).1
        (foldl_combinedHash_truthy sha3 proof (Value.buf element) rfl)
      exact ⟨root == h, by simp only [checkProof, hh, Value.equals]⟩
    · obtain ⟨h, hh⟩ := (Value.truthy_iff _).1
        (checkProofOrderedLoop_truthy sha3 proof (Value.buf element) index rfl)
      exact ⟨h == root, by simp only [checkProofOrdered, hh, Value.equals]⟩
  · intro proof root element index hroot
    constructor
    · simp only [checkProof]
      cases root with
      | buf b => simp [Value.truthy] at hroot
      | undefined => rfl
      | null => rfl
      | emptyString => rfl
    · simp only [checkProofOrdered]
      cases root with
      | buf b => simp [Value.truthy] at hroot
      | undefined => cases checkProofOrderedLoop sha3 proof element index <;> rfl
      | null => cases checkProofOrderedLoop sha3 proof element index <;> rfl
      | emptyString => cases checkProofOrderedLoop sha3 proof element index <;> rfl
  · intro remaining index h0 h1 h2
    have : 2 ^ 1 ≤ 2 ^ remaining := Nat.pow_le_pow_right (by omega) (by omega)
    omega
  · intro remaining index extra
    exact adjustIndex_fuel_add remaining extra index index (by omega)
  · intro remaining index
    exact adjustIndex_exit remaining index index (by omega)

/-- A proof of a length that matches no tree, checked against Buffers. -/
theorem verification_total_witness :
    (∃ b, checkProof plainDigest sampleProof (Value.buf (repeated 97))
      (Value.buf (repeated 98)) = Except.ok b) ∧
    (∃ b, checkProofOrdered plainDigest sampleProof (Value.buf (repeated 97))
      (Value.buf (repeated 98)) 7 = Except.ok b) ∧
    (Value.emptyString.truthy = false ∧
      checkProof plainDigest sampleProof Value.emptyString (Value.buf (repeated 98)) =
        Except.error JsError.typeError ∧
      checkProofOrdered plainDigest sampleProof Value.emptyString (Value.buf (repeated 98)) 7 =
        Except.error JsError.typeError) ∧
    ((3 : Nat) ≠ 0 ∧ 9 % 2 = 1 ∧ 9 > 2 ^ 3 ∧ (9 + 1) / 2 < 9) :=
  ⟨((verification_total plainDigest).1 sampleProof (repeated 97) (repeated 98) 7).1,
    ((verification_total plainDigest).1 sampleProof (repeated 97) (repeated 98) 7).2,
    ⟨rfl, (verification_total plainDigest).2.1 sampleProof Value.emptyString
      (Value.buf (repeated 98)) 7 rfl⟩,
    by decide, by decide, by decide,
    (verification_total plainDigest).2.2.1 3 9 (by decide) (by decide) (by decide)⟩

/-! ## Balanced ordered trees -/

/-- The inner loop leaves an index of at most 2^remaining as it is. -/
theorem adjustIndex_of_le (remaining fuel index : Nat) (h : index ≤ 2 ^ remaining) :
    adjustIndex remaining fuel index = index := by
  cases fuel with
  | zero => rfl
  | succ fuel =>
    have hc : (remaining != 0 && index % 2 == 1 && index > 2 ^ remaining) = false := by
      have : ¬ index > 2 ^ remaining := by omega
      simp [this]
    simp only [adjustIndex, hc, Bool.false_eq_true, if_false]

/-- In a tree of 2^d leaves the sides of the tree are the sides the verifier derives from the
index, every proof has d entries, and the inner loop never changes the index. -/
theorem balanced_sides (d : Nat) :
    ∀ (fuel i : Nat), d ≤ fuel → i < 2 ^ d →
      treeSides fuel (2 ^ d) i = checkSides d (i + 1) ∧
      (treeSides fuel (2 ^ d) i).length = d ∧
      ∀ s ∈ indexTrace d (i + 1), s.2.2 = s.2.1 ∧ s.2.1 ≤ 2 ^ s.1 := by
  induction d with
  | zero =>
    intro fuel i _ hi
    refine ⟨?_, ?_, ?_⟩
    · cases fuel <;> simp [treeSides, checkSides]
    · cases fuel <;> simp [treeSides]
    · intro s hs
      simp [indexTrace] at hs
  | succ d ih =>
    intro fuel i hfuel hi
    obtain ⟨fuel, rfl⟩ : ∃ f, fuel = f + 1 := ⟨fuel - 1, by omega⟩
    have hp : 0 < 2 ^ d := Nat.two_pow_pos d
    have hpow : 2 ^ (d + 1) = 2 * 2 ^ d := pow_succ' 2 d
    have hgt : 2 ^ (d + 1) > 1 := by omega
    have hhalf : (2 ^ (d + 1) + 1) / 2 = 2 ^ d := by omega
    have hadj : adjustIndex (d + 1) (i + 1) (i + 1) = i + 1 :=
      adjustIndex_of_le (d + 1) (i + 1) (i + 1) (by omega)
    have hnext : (i + 1 + 1) / 2 = i / 2 + 1 := by omega
    obtain ⟨h1, h2, h3⟩ := ih fuel (i / 2) (by omega) (by omega)
    have hside : (if i % 2 = 1 then [true] else if i + 1 < 2 ^ (d + 1) then [false] else []) =
        [(i + 1) % 2 == 0] := by
      rcases Nat.mod_two_eq_zero_or_one i with h | h
      · have hne : ¬ i % 2 = 1 := by omega
        have hlt : i + 1 < 2 ^ (d + 1) := by omega
        have : ((i + 1) % 2 == 0) = false := by
          simp only [beq_eq_false_iff_ne, ne_eq]
          omega
        rw [if_neg hne, if_pos hlt, this]
      · have : ((i + 1) % 2 == 0) = true := by
          simp only [beq_iff_eq]
          omega
        rw [if_pos h, this]
    refine ⟨?_, ?_, ?_⟩
    · simp only [treeSides, hgt, if_true, checkSides, hadj, hnext, hhalf, hside, h1]
      rfl
    · simp only [treeSides, hgt, if_true, hhalf, hside, List.length_append, h2]
      simp
      omega
    · intro s hs
      simp only [indexTrace, hadj, hnext, List.mem_cons] at hs
      rcases hs with rfl | hs
      · exact ⟨rfl, by simp only; omega⟩
      · exact h3 s hs

/-- The sides the verifier derives from the index are read off the indices after the inner
loop of each pass. -/
theorem checkSides_eq_indexTrace (remaining : Nat) :
    ∀ index, checkSides remaining index =
      (indexTrace remaining index).map (fun s => s.2.2 % 2 == 0) := by
  induction remaining with
  | zero => intro index; rfl
  | succ remaining ih =>
    intro index
    simp only [checkSides, indexTrace, List.map_cons, ih]

/-- C24: balanced ordered trees: for every list of valid 32-byte elements whose length n is a
power of two, 2^d, and every 1-based index i <= n, the constructor returns a tree on which
getProofOrdered(elements[i-1], i) returns a proof of d entries; on it the inner index loop of
checkProofOrdered never changes the index (at every pass the index is at most 2^remaining,
and is the same after the loop as before it), and
checkProofOrdered(proof, root, elements[i-1], i) returns true. -/
theorem balanced_ordered_round_trip (sha3 : Buffer → Buffer) (bs : List Buffer) (d i : Nat)
    (hvalid : ∀ b ∈ bs, b.length = 32) (hn : bs.length = 2 ^ d) (h1 : 1 ≤ i)
    (hi : i ≤ bs.length) :
    ∃ t e proof, MerkleTree.new sha3 (bs.map Input.buf) true = Except.ok t ∧
      bs.get? (i - 1) = some e ∧
      t.getProofOrdered e (i : Int) = Except.ok proof ∧
      proof.length = d ∧
      (∀ s ∈ indexTrace proof.length i, s.2.2 = s.2.1 ∧ s.2.1 ≤ 2 ^ s.1) ∧
      checkProofOrdered sha3 proof t.getRoot (Value.buf e) i = Except.ok true := by
  have hvalid2 : ∀ x ∈ bs.map Input.buf, x.isElement = true := by
    intro x hx
    obtain ⟨b, hb, rfl⟩ := List.mem_map.1 hx
    simp [Input.isElement, hvalid b hb]
  have hlt : i - 1 < bs.length := by omega
  have hd : d ≤ bs.length := by
    rw [hn]
    exact Nat.le_of_lt (Nat.lt_two_pow d)
  obtain ⟨hs1, hs2, hs3⟩ := balanced_sides d bs.length (i - 1) hd (by omega)
  rw [← hn] at hs1 hs2
  rw [show i - 1 + 1 = i by omega] at hs1 hs3
  have hsides : checkSides (treeSides bs.length bs.length (i - 1)).length (i - 1 + 1) =
      treeSides bs.length bs.length (i - 1) := by
    rw [hs2, show i - 1 + 1 = i by omega, hs1]
  obtain ⟨proof, hp, hc⟩ := ordered_round_trip_of_sides sha3 bs (i - 1) (bs.get ⟨i - 1, hlt⟩)
    (List.get?_eq_get hlt) hsides
  have hcast : ((i - 1 : Nat) : Int) + 1 = (i : Int) := by omega
  rw [hcast] at hp
  rw [show i - 1 + 1 = i by omega] at hc
  have hne : bs.map Value.buf ≠ [] := by
    intro h
    rw [List.map_eq_nil_iff] at h
    rw [h] at hlt
    simp at hlt
  have htruthy : ∀ v ∈ bs.map Value.buf, v.truthy = true := by
    intro v hv
    obtain ⟨b, _, rfl⟩ := List.mem_map.1 hv
    rfl
  obtain ⟨r, -, -, hlength, -⟩ := ordered_fold sha3 (bs.map Value.buf).length
    (bs.map Value.buf) (i - 1) (by omega) (by simpa using hlt) htruthy
  rw [← getLayers_eq sha3 _ true hne] at hlength
  simp only [List.length_map] at hlength
  have harr : arrayGet bs ((i : Int) - 1) = some (bs.get ⟨i - 1, hlt⟩) := by
    unfold arrayGet
    rw [if_pos (by omega)]
    have : ((i : Int) - 1).toNat = i - 1 := by omega
    rw [this]
    exact List.get?_eq_get hlt
  have hproof : proof = getProof (i - 1) (getLayers sha3 (bs.map Value.buf) true) := by
    have h2 : ((i : Int) - 1).toNat = i - 1 := by omega
    simp [MerkleTree.getProofOrdered, harr, h2] at hp
    exact hp.symm
  have hplen : proof.length = d := by
    rw [hproof, hlength, hs2]
  refine ⟨_, bs.get ⟨i - 1, hlt⟩, proof,
    MerkleTree.new_of_isElement sha3 _ true hvalid2, List.get?_eq_get hlt, ?_, hplen, ?_, ?_⟩
  · rw [processedLeaves_map_buf_true]
    exact hp
  · rw [hplen]
    exact hs3
  · rw [processedLeaves_map_buf_true]
    exact hc

/-- The balanced round trip at the third of four leaves. -/
theorem balanced_ordered_round_trip_witness :
    ((∀ b ∈ [repeated 97, repeated 98, repeated 99, repeated 100], b.length = 32) ∧
      [repeated 97, repeated 98, repeated 99, repeated 100].length = 2 ^ 2 ∧
      1 ≤ 3 ∧ 3 ≤ [repeated 97, repeated 98, repeated 99, repeated 100].length) ∧
    ∃ t e proof,
      MerkleTree.new plainDigest
          ([repeated 97, repeated 98, repeated 99, repeated 100].map Input.buf) true =
        Except.ok t ∧
      [repeated 97, repeated 98, repeated 99, repeated 100].get? (3 - 1) = some e ∧
      t.getProofOrdered e ((3 : Nat) : Int) = Except.ok proof ∧
      proof.length = 2 ∧
      (∀ s ∈ indexTrace proof.length 3, s.2.2 = s.2.1 ∧ s.2.1 ≤ 2 ^ s.1) ∧
      checkProofOrdered plainDigest proof t.getRoot (Value.buf e) 3 = Except.ok true :=
  ⟨⟨by decide, by decide, by decide, by decide⟩,
    balanced_ordered_round_trip plainDigest [repeated 97, repeated 98, repeated 99, repeated 100]
      2 3 (by decide) (by decide) (by decide) (by decide)⟩

/-! ## Order sensitivity -/

/-- Two layers of the same length with the same next layer are equal, when the ordered
`combinedHash` has no collision between their pairs. -/
theorem pairUp_injective (sha3 : Buffer → Buffer) :
    ∀ (n : Nat) (l l' : List Value), l.length ≤ n → l.length = l'.length →
      (∀ q ∈ layerPairs l, ∀ r ∈ layerPairs l',
        combinedHash sha3 q.1 q.2 true = combinedHash sha3 r.1 r.2 true → q = r) →
      pairUp sha3 true l = pairUp sha3 true l' → l = l' := by
  intro n
  induction n using Nat.strong_induction_on with
  | _ n ih =>
    intro l l' hn hlen hfree heq
    match l, l', hlen with
    | [], [], _ => rfl
    | [a], [a'], _ =>
      simp only [pairUp, combinedHash_undefined, List.cons.injEq, and_true] at heq
      rw [heq]
    | a :: b :: rest, a' :: b' :: rest', hlen =>
      simp only [pairUp, List.cons.injEq] at heq
      have hq := hfree (a, b) (by simp [layerPairs]) (a', b') (by simp [layerPairs]) heq.1
      have hrest := ih (n - 2) (by simp at hn; omega) rest rest' (by simp at hn; omega)
        (by simpa using hlen)
        (fun q hq r hr => hfree q (by simp [layerPairs, hq]) r (by simp [layerPairs, hr]))
        heq.2
      simp only [Prod.mk.injEq] at hq
      rw [hq.1, hq.2, hrest]

/-- Two layers of the same length above which the loop of `getLayers` ends in the same last
layer are equal, when the ordered `combinedHash` has no collision between the pairs hashed on
the way. -/
theorem layersFrom_injective (sha3 : Buffer → Buffer) (fuel : Nat) :
    ∀ (l l' : List Value), l.length = l'.length →
      OrderedCollisionFree sha3 (treePairs sha3 true fuel l ++ treePairs sha3 true fuel l') →
      (layersFrom sha3 true fuel l).getLast? = (layersFrom sha3 true fuel l').getLast? →
      l = l' := by
  induction fuel with
  | zero =>
    intro l l' _ _ heq
    simpa [layersFrom] using heq
  | succ fuel ih =>
    intro l l' hlen hfree heq
    by_cases h1 : l.length > 1
    · have h1' : l'.length > 1 := by omega
      rw [layersFrom_succ sha3 true fuel l h1, layersFrom_succ sha3 true fuel l' h1',
        List.getLast?_cons, List.getLast?_cons] at heq
      obtain ⟨x, hx⟩ := Option.isSome_iff_exists.1 (List.getLast?_isSome.2
        (layersFrom_ne_nil sha3 true fuel (getNextLayer sha3 l true)))
      obtain ⟨y, hy⟩ := Option.isSome_iff_exists.1 (List.getLast?_isSome.2
        (layersFrom_ne_nil sha3 true fuel (getNextLayer sha3 l' true)))
      rw [hx, hy] at heq
      simp only [Option.getD_some, Option.some.injEq] at heq
      have hnext := ih (getNextLayer sha3 l true) (getNextLayer sha3 l' true)
        (by rw [getNextLayer_length, getNextLayer_length, hlen])
        (orderedCollisionFree_mono sha3 _ _ (by
          intro q hq
          simp only [treePairs, h1, h1', if_true, List.mem_append] at hq ⊢
          rcases hq with hq | hq
          · exact Or.inl (Or.inr hq)
          · exact Or.inr (Or.inr hq)) hfree)
        (by rw [hx, hy, heq])
      rw [getNextLayer_eq_pairUp, getNextLayer_eq_pairUp] at hnext
      refine pairUp_injective sha3 l.length l l' (le_refl _) hlen ?_ hnext
      intro q hq r hr
      exact hfree q (by simp [treePairs, h1, hq]) r (by simp [treePairs, h1', hr])
    · have h1' : ¬ l'.length > 1 := by omega
      simpa [layersFrom, h1, h1'] using heq

/-- C21: order sensitivity: for every list xs of valid 32-byte elements that is not equal to
its own reversal, merkleRoot(xs, true) and merkleRoot(reverse(xs), true) both return a root and
the two roots differ, for a digest with which the ordered combinedHash has no collision among
the pairs of nodes hashed in building the two trees. -/
theorem order_sensitivity (sha3 : Buffer → Buffer) (xs : List Buffer)
    (hvalid : ∀ b ∈ xs, b.length = 32) (hne : xs ≠ xs.reverse)
    (hfree : OrderedCollisionFree sha3
      (treePairs sha3 true xs.length (xs.map Value.buf) ++
        treePairs sha3 true xs.reverse.length (xs.reverse.map Value.buf))) :
    ∃ r r', merkleRoot sha3 (xs.map Input.buf) true = Except.ok r ∧
      merkleRoot sha3 (xs.reverse.map Input.buf) true = Except.ok r' ∧ r' ≠ r := by
  have hvalid1 : ∀ x ∈ xs.map Input.buf, x.isElement = true := by
    intro x hx
    obtain ⟨b, hb, rfl⟩ := List.mem_map.1 hx
    simp [Input.isElement, hvalid b hb]
  have hvalid2 : ∀ x ∈ xs.reverse.map Input.buf, x.isElement = true := by
    intro x hx
    obtain ⟨b, hb, rfl⟩ := List.mem_map.1 hx
    simp [Input.isElement, hvalid b (List.mem_reverse.1 hb)]
  have hxs : xs ≠ [] := by
    intro h
    rw [h] at hne
    exact hne rfl
  have hne1 : xs.map Value.buf ≠ [] := by simpa using hxs
  have hne2 : xs.reverse.map Value.buf ≠ [] := by simpa using hxs
  obtain ⟨r, hr⟩ := getLayers_getLast sha3 (xs.map Value.buf) true
  obtain ⟨r', hr'⟩ := getLayers_getLast sha3 (xs.reverse.map Value.buf) true
  refine ⟨r, r', ?_, ?_, ?_⟩
  · rw [merkleRoot, MerkleTree.new_of_isElement sha3 _ true hvalid1,
      processedLeaves_map_buf_true]
    exact congrArg Except.ok (getRoot_of_getLast _ r hr)
  · rw [merkleRoot, MerkleTree.new_of_isElement sha3 _ true hvalid2,
      processedLeaves_map_buf_true]
    exact congrArg Except.ok (getRoot_of_getLast _ r' hr')
  · intro hrr
    rw [getLayers_eq sha3 _ true hne1] at hr
    rw [getLayers_eq sha3 _ true hne2] at hr'
    simp only [List.length_map, List.length_reverse] at hr hr' hfree
    have heq := layersFrom_injective sha3 xs.length (xs.map Value.buf)
      (xs.reverse.map Value.buf) (by simp) hfree (by rw [hr, hr', hrr])
    apply hne
    have hinj : Function.Injective Value.buf := fun a b h => Value.buf.inj h
    exact List.map_injective_iff.2 hinj heq

/-- Order sensitivity at three distinct leaves under the identity digest. -/
theorem order_sensitivity_witness :
    ((∀ b ∈ [repeated 97, repeated 98, repeated 99], b.length = 32) ∧
      [repeated 97, repeated 98, repeated 99] ≠ [repeated 97, repeated 98, repeated 99].reverse ∧
      OrderedCollisionFree plainDigest
        (treePairs plainDigest true [repeated 97, repeated 98, repeated 99].length
            ([repeated 97, repeated 98, repeated 99].map Value.buf) ++
          treePairs plainDigest true [repeated 97, repeated 98, repeated 99].reverse.length
            ([repeated 97, repeated 98, repeated 99].reverse.map Value.buf))) ∧
    ∃ r r', merkleRoot plainDigest ([repeated 97, repeated 98, repeated 99].map Input.buf)
        true = Except.ok r ∧
      merkleRoot plainDigest ([repeated 97, repeated 98, repeated 99].reverse.map Input.buf)
        true = Except.ok r' ∧ r' ≠ r :=
  ⟨⟨by decide, by decide, by unfold OrderedCollisionFree; decide⟩,
    order_sensitivity plainDigest [repeated 97, repeated 98, repeated 99] (by decide)
      (by decide) (by unfold OrderedCollisionFree; decide)⟩

end MerkleTreeSolidity
